import Mathlib

/-!
Verification of the ink storage engine design: the lazily synchronized
cell cache (SyncChunk) and the handle-addressed B-tree map built on it.
The search routines are embedded from
src/core/src/storage/collections/btree_map/search.rs; the cache and the
tree mutation layer, whose implementation files are not part of this
source tree, are modelled from the design document.
-/

set_option maxHeartbeats 1600000
set_option linter.all false
set_option linter.unusedSectionVars false

namespace InkSpec

/-- Modelled from the spec: the tri-state cell of the cell cache
(missing source file sync_chunk/mod.rs).  A slot is `Unloaded`,
`Clean` with a cached optional value, or `Dirty` with a pending
optional value. -/
inductive Cell (T : Type) where
  | Unloaded : Cell T
  | Clean : Option T → Cell T
  | Dirty : Option T → Cell T
deriving DecidableEq

/-- Pointwise update of a function at one index. -/
def upd {A : Type} (f : Nat → A) (i : Nat) (a : A) : Nat → A :=
  fun j => if j = i then a else f j

/-- Modelled from the spec: the state of a `SyncChunk` cell cache over a
backend store (missing source file sync_chunk/mod.rs).  `cells` is the
cache, `backend` the external store contents, and `reads`/`writes` are
the per-slot backend access counters of the test instrumentation; the
counters `total_reads`/`total_writes` are their sums over all slots,
and every operation below touches the counter of one slot only. -/
structure SyncChunk (T : Type) where
  cells : Nat → Cell T
  backend : Nat → Option T
  reads : Nat → Nat
  writes : Nat → Nat

namespace SyncChunk

variable {T : Type}

/-- Modelled from the spec: a freshly allocated chunk over backend `b`:
every slot unloaded, no backend accesses counted yet. -/
def fresh (b : Nat → Option T) : SyncChunk T :=
  ⟨fun _ => Cell.Unloaded, b, fun _ => 0, fun _ => 0⟩

/-- Modelled from the spec: read-through access.  On an `Unloaded` slot
it fetches from the backend, caches the result as `Clean` and counts one
backend read; on a loaded slot it returns the cached value unchanged. -/
def load (c : SyncChunk T) (i : Nat) : Option T × SyncChunk T :=
  match c.cells i with
  | Cell.Unloaded =>
      (c.backend i,
        { c with
          cells := upd c.cells i (Cell.Clean (c.backend i)),
          reads := upd c.reads i (c.reads i + 1) })
  | Cell.Clean v => (v, c)
  | Cell.Dirty v => (v, c)

/-- Modelled from the spec: `get` is read-through access. -/
def get (c : SyncChunk T) (i : Nat) : Option T × SyncChunk T :=
  c.load i

/-- Modelled from the spec: `set` is a blind overwrite, the slot becomes
`Dirty (some v)` with no backend read. -/
def set (c : SyncChunk T) (i : Nat) (v : T) : SyncChunk T :=
  { c with cells := upd c.cells i (Cell.Dirty (some v)) }

/-- Modelled from the spec: `clear` is a blind overwrite with emptiness. -/
def clear (c : SyncChunk T) (i : Nat) : SyncChunk T :=
  { c with cells := upd c.cells i (Cell.Dirty none) }

/-- Modelled from the spec: `take` reads through to obtain the current
value, then sets the slot to `Dirty none`. -/
def take (c : SyncChunk T) (i : Nat) : Option T × SyncChunk T :=
  let r := c.load i
  (r.1, { r.2 with cells := upd r.2.cells i (Cell.Dirty none) })

/-- Modelled from the spec: `put` reads through to obtain the current
value, then sets the slot to `Dirty (some v)`. -/
def put (c : SyncChunk T) (i : Nat) (v : T) : Option T × SyncChunk T :=
  let r := c.load i
  (r.1, { r.2 with cells := upd r.2.cells i (Cell.Dirty (some v)) })

/-- Modelled from the spec: `flush` writes every dirty slot back to the
backend, counting one backend write per dirty slot, and marks it
`Clean`; clean and unloaded slots are untouched. -/
def flush (c : SyncChunk T) : SyncChunk T :=
  { cells := fun j =>
      match c.cells j with
      | Cell.Dirty v => Cell.Clean v
      | x => x,
    backend := fun j =>
      match c.cells j with
      | Cell.Dirty v => v
      | _ => c.backend j,
    reads := c.reads,
    writes := fun j =>
      match c.cells j with
      | Cell.Dirty _ => c.writes j + 1
      | _ => c.writes j }

end SyncChunk

/-- Modelled from the spec: one logical operation on a chunk. -/
inductive ChunkOp (T : Type) where
  | get : Nat → ChunkOp T
  | set : Nat → T → ChunkOp T
  | clear : Nat → ChunkOp T
  | take : Nat → ChunkOp T
  | put : Nat → T → ChunkOp T
  | flush : ChunkOp T

/-- State effect of one chunk operation (returned values discarded). -/
def chunkStep {T : Type} (c : SyncChunk T) : ChunkOp T → SyncChunk T
  | ChunkOp.get i => (c.get i).2
  | ChunkOp.set i v => c.set i v
  | ChunkOp.clear i => c.clear i
  | ChunkOp.take i => (c.take i).2
  | ChunkOp.put i v => (c.put i v).2
  | ChunkOp.flush => c.flush

/-- Runs a sequence of chunk operations from the given state. -/
def runChunk {T : Type} (ops : List (ChunkOp T)) (c : SyncChunk T) : SyncChunk T :=
  ops.foldl chunkStep c

/-- Read-counter invariant for slot `i`: at most one backend read so
far, and none at all while the slot is still unloaded. -/
def ReadInv {T : Type} (c : SyncChunk T) (i : Nat) : Prop :=
  c.reads i ≤ 1 ∧ (c.cells i = Cell.Unloaded → c.reads i = 0)

theorem readInv_load {T : Type} (c : SyncChunk T) (i j : Nat)
    (h : ReadInv c i) : ReadInv (c.load j).2 i := by
  unfold SyncChunk.load
  rcases h with ⟨h1, h2⟩
  cases hc : c.cells j with
  | Unloaded =>
    refine ⟨?_, ?_⟩
    · simp only [upd]
      by_cases hij : i = j
      · subst hij
        simp [h2 hc]
      · simp [hij, h1]
    · intro hcell
      simp only [upd] at hcell ⊢
      by_cases hij : i = j
      · simp [hij] at hcell
      · simp [hij] at hcell ⊢
        exact h2 hcell
  | Clean v => exact ⟨h1, h2⟩
  | Dirty v => exact ⟨h1, h2⟩

theorem readInv_step {T : Type} (c : SyncChunk T) (i : Nat) (op : ChunkOp T)
    (h : ReadInv c i) : ReadInv (chunkStep c op) i := by
  cases op with
  | get j => exact readInv_load c i j h
  | set j v =>
    rcases h with ⟨h1, h2⟩
    refine ⟨h1, ?_⟩
    intro hcell
    simp only [chunkStep, SyncChunk.set, upd] at hcell
    by_cases hij : i = j
    · simp [hij] at hcell
    · simp [hij] at hcell
      exact h2 hcell
  | clear j =>
    rcases h with ⟨h1, h2⟩
    refine ⟨h1, ?_⟩
    intro hcell
    simp only [chunkStep, SyncChunk.clear, upd] at hcell
    by_cases hij : i = j
    · simp [hij] at hcell
    · simp [hij] at hcell
      exact h2 hcell
  | take j =>
    have h' := readInv_load c i j h
    rcases h' with ⟨h1, h2⟩
    refine ⟨h1, ?_⟩
    intro hcell
    simp only [chunkStep, SyncChunk.take, upd] at hcell
    by_cases hij : i = j
    · simp [hij] at hcell
    · simp [hij] at hcell
      exact h2 hcell
  | put j v =>
    have h' := readInv_load c i j h
    rcases h' with ⟨h1, h2⟩
    refine ⟨h1, ?_⟩
    intro hcell
    simp only [chunkStep, SyncChunk.put, upd] at hcell
    by_cases hij : i = j
    · simp [hij] at hcell
    · simp [hij] at hcell
      exact h2 hcell
  | flush =>
    rcases h with ⟨h1, h2⟩
    refine ⟨h1, ?_⟩
    intro hcell
    simp only [chunkStep, SyncChunk.flush] at hcell
    apply h2
    cases hc : c.cells i <;> simp [hc] at hcell ⊢

theorem readInv_run {T : Type} (ops : List (ChunkOp T)) (c : SyncChunk T) (i : Nat)
    (h : ReadInv c i) : ReadInv (runChunk ops c) i := by
  induction ops generalizing c with
  | nil => exact h
  | cons op rest ih =>
    exact ih (chunkStep c op) (readInv_step c i op h)

/-- C2: over any finite operation sequence on a fresh chunk, slot `i` is
read from the backend at most once in the chunk's whole lifetime; a
read-through `get` on an unloaded slot counts exactly one backend read
on that slot and none on any other slot, and any `get` repeated right
after a `get` on the same slot counts zero further reads. -/
theorem sync_chunk_at_most_one_read_per_slot {T : Type}
    (ops : List (ChunkOp T)) (b : Nat → Option T) (i : Nat) :
    (runChunk ops (SyncChunk.fresh b)).reads i ≤ 1
    ∧ (∀ c : SyncChunk T, c.cells i = Cell.Unloaded →
        (c.get i).2.reads i = c.reads i + 1
        ∧ ∀ j, j ≠ i → (c.get i).2.reads j = c.reads j)
    ∧ (∀ c : SyncChunk T, ((c.get i).2.get i).2.reads = (c.get i).2.reads) := by
  refine ⟨?_, ?_, ?_⟩
  · exact (readInv_run ops (SyncChunk.fresh b) i ⟨by simp [SyncChunk.fresh], fun _ => rfl⟩).1
  · intro c hcell
    constructor
    · simp [SyncChunk.get, SyncChunk.load, hcell, upd]
    · intro j hj
      simp [SyncChunk.get, SyncChunk.load, hcell, upd, hj]
  · intro c
    unfold SyncChunk.get SyncChunk.load
    cases hc : c.cells i with
    | Unloaded => simp [upd]
    | Clean v => simp [hc]
    | Dirty v => simp [hc]

/-- C2 witness: concrete run of two gets on the same slot. -/
theorem sync_chunk_at_most_one_read_per_slot_witness :
    (runChunk [ChunkOp.get 0, ChunkOp.get 0] (SyncChunk.fresh (fun _ => (none : Option Nat)))).reads 0 ≤ 1 :=
  (sync_chunk_at_most_one_read_per_slot [ChunkOp.get 0, ChunkOp.get 0] (fun _ => none) 0).1

/-- C3: `flush` performs exactly one backend write for each dirty slot
and none for clean or unloaded slots, flushes the pending content to
the backend, performs no reads, leaves every flushed slot `Clean`, and
a second `flush` with no mutation in between performs zero further
backend writes. -/
theorem sync_chunk_flush_once_per_dirty_slot {T : Type} (c : SyncChunk T) (i : Nat) :
    (c.flush).writes i = c.writes i +
      (match c.cells i with
       | Cell.Dirty _ => 1
       | _ => 0)
    ∧ (c.flush).cells i =
      (match c.cells i with
       | Cell.Dirty v => Cell.Clean v
       | x => x)
    ∧ (c.flush).backend i =
      (match c.cells i with
       | Cell.Dirty v => v
       | _ => c.backend i)
    ∧ (c.flush).reads i = c.reads i
    ∧ (c.flush.flush).writes i = (c.flush).writes i := by
  refine ⟨?_, ?_, ?_, rfl, ?_⟩
  · cases hc : c.cells i <;> simp [SyncChunk.flush, hc]
  · cases hc : c.cells i <;> simp [SyncChunk.flush, hc]
  · cases hc : c.cells i <;> simp [SyncChunk.flush, hc]
  · cases hc : c.cells i <;> simp [SyncChunk.flush, hc]

/-- Handle of a key/value/edge slot inside a node: node handle plus
position (KVHandle of impls.rs). -/
structure KVHandle where
  node : Nat
  pos : Nat
deriving DecidableEq

/-- Result of a tree search (SearchResult of search.rs): the entry was
found at the handle, or is absent and the handle is the position where
an insert could be made. -/
inductive SearchResult where
  | Found : KVHandle → SearchResult
  | NotFound : KVHandle → SearchResult
deriving DecidableEq

/-- Key slots and active-key count of a B-tree node as `search_node`
reads them (Node of impls.rs): key slots are optional with trailing
`none` padding, `len` counts the active keys.  The value and edge slots
of the source node are not consulted by the search scan. -/
structure Node (K : Type) where
  keys : List (Option K)
  len : Nat

/-- Ascending linear scan of search.rs lines 96-110: starting at slot
index `i`, stop with `NotFound` at the first `none` slot, compare `key`
against each stored key, and fall through to `NotFound` at `len` when
the slots are exhausted. -/
def searchKeysGo {K : Type} [LinearOrder K] (idx : Nat) (key : K) (len : Nat) :
    List (Option K) → Nat → SearchResult
  | [], _ => SearchResult.NotFound ⟨idx, len⟩
  | none :: _, i => SearchResult.NotFound ⟨idx, i⟩
  | some nk :: rest, i =>
    if key = nk then SearchResult.Found ⟨idx, i⟩
    else if key < nk then SearchResult.NotFound ⟨idx, i⟩
    else searchKeysGo idx key len rest (i + 1)

/-- Embeds `search_node` of search.rs: linear search for `key` over the
key slots of `node`. -/
def search_node {K : Type} [LinearOrder K] (node : Node K) (node_index : Nat)
    (key : K) : SearchResult :=
  searchKeysGo node_index key node.len node.keys 0

/-- Well-formed node per the data model: `len` active key slots followed
by `none` padding, active keys strictly ascending. -/
def NodeWF {K : Type} [LinearOrder K] (node : Node K) : Prop :=
  node.len ≤ node.keys.length
  ∧ (∀ i, i < node.len → (node.keys.getD i none).isSome)
  ∧ (∀ i, node.len ≤ i → node.keys.getD i none = none)
  ∧ (∀ i j ki kj, i < j → j < node.len →
      node.keys.getD i none = some ki → node.keys.getD j none = some kj → ki < kj)

theorem searchKeysGo_found {K : Type} [LinearOrder K] (idx : Nat) (key : K) (len : Nat) :
    ∀ (d : Nat) (l : List (Option K)) (i : Nat),
      l.getD d none = some key →
      (∀ e, e < d → ∃ ke, l.getD e none = some ke ∧ ke < key) →
      searchKeysGo idx key len l i = SearchResult.Found ⟨idx, i + d⟩ := by
  intro d
  induction d with
  | zero =>
    intro l i hd _
    cases l with
    | nil => simp [List.getD] at hd
    | cons a rest =>
      simp [List.getD] at hd
      subst hd
      simp [searchKeysGo]
  | succ d ih =>
    intro l i hd hlt
    cases l with
    | nil => simp [List.getD] at hd
    | cons a rest =>
      obtain ⟨k0, hk0, hk0lt⟩ := hlt 0 (Nat.succ_pos d)
      simp [List.getD] at hk0
      subst hk0
      have h1 : ¬ key = k0 := fun h => lt_irrefl k0 (h ▸ hk0lt)
      have h2 : ¬ key < k0 := lt_asymm hk0lt
      rw [searchKeysGo, if_neg h1, if_neg h2]
      have hrec := ih rest (i + 1) (by simpa [List.getD] using hd)
        (fun e he => by
          have := hlt (e + 1) (Nat.succ_lt_succ he)
          simpa [List.getD] using this)
      rw [hrec]
      have : i + 1 + d = i + (d + 1) := by omega
      rw [this]

theorem searchKeysGo_notFound_gt {K : Type} [LinearOrder K] (idx : Nat) (key : K) (len : Nat) :
    ∀ (d : Nat) (l : List (Option K)) (i : Nat) (kp : K),
      l.getD d none = some kp → key < kp →
      (∀ e, e < d → ∃ ke, l.getD e none = some ke ∧ ke < key) →
      searchKeysGo idx key len l i = SearchResult.NotFound ⟨idx, i + d⟩ := by
  intro d
  induction d with
  | zero =>
    intro l i kp hd hkp _
    cases l with
    | nil => simp [List.getD] at hd
    | cons a rest =>
      simp [List.getD] at hd
      subst hd
      have h1 : ¬ key = kp := ne_of_lt hkp
      rw [searchKeysGo, if_neg h1, if_pos hkp]
      rfl
  | succ d ih =>
    intro l i kp hd hkp hlt
    cases l with
    | nil => simp [List.getD] at hd
    | cons a rest =>
      obtain ⟨k0, hk0, hk0lt⟩ := hlt 0 (Nat.succ_pos d)
      simp [List.getD] at hk0
      subst hk0
      have h1 : ¬ key = k0 := fun h => lt_irrefl k0 (h ▸ hk0lt)
      have h2 : ¬ key < k0 := lt_asymm hk0lt
      rw [searchKeysGo, if_neg h1, if_neg h2]
      have hrec := ih rest (i + 1) kp (by simpa [List.getD] using hd) hkp
        (fun e he => by
          have := hlt (e + 1) (Nat.succ_lt_succ he)
          simpa [List.getD] using this)
      rw [hrec]
      have : i + 1 + d = i + (d + 1) := by omega
      rw [this]

theorem searchKeysGo_exhausted {K : Type} [LinearOrder K] (idx : Nat) (key : K) (len : Nat) :
    ∀ (d : Nat) (l : List (Option K)) (i : Nat),
      (∀ e, e < d → ∃ ke, l.getD e none = some ke ∧ ke < key) →
      ((l.length = d ∧ len = i + d) ∨ (d < l.length ∧ l.getD d none = none)) →
      searchKeysGo idx key len l i = SearchResult.NotFound ⟨idx, i + d⟩ := by
  intro d
  induction d with
  | zero =>
    intro l i _ hstop
    rcases hstop with ⟨hlen, hi⟩ | ⟨hdl, hd⟩
    · cases l with
      | nil => simp [searchKeysGo, hi]
      | cons a rest => simp at hlen
    · cases l with
      | nil => simp at hdl
      | cons a rest =>
        simp [List.getD] at hd
        subst hd
        simp [searchKeysGo]
  | succ d ih =>
    intro l i hlt hstop
    cases l with
    | nil =>
      rcases hstop with ⟨hlen, _⟩ | ⟨hdl, _⟩
      · simp at hlen
      · simp at hdl
    | cons a rest =>
      obtain ⟨k0, hk0, hk0lt⟩ := hlt 0 (Nat.succ_pos d)
      simp [List.getD] at hk0
      subst hk0
      have h1 : ¬ key = k0 := fun h => lt_irrefl k0 (h ▸ hk0lt)
      have h2 : ¬ key < k0 := lt_asymm hk0lt
      rw [searchKeysGo, if_neg h1, if_neg h2]
      have hrec := ih rest (i + 1)
        (fun e he => by
          have := hlt (e + 1) (Nat.succ_lt_succ he)
          simpa [List.getD] using this)
        (by
          rcases hstop with ⟨hlen, hi⟩ | ⟨hdl, hd⟩
          · left
            constructor
            · simpa using hlen
            · omega
          · right
            constructor
            · simpa using Nat.lt_of_succ_lt_succ hdl
            · simpa [List.getD] using hd)
      rw [hrec]
      have : i + 1 + d = i + (d + 1) := by omega
      rw [this]

/-- C1: for a well-formed node, `search_node` scans the key slots in
ascending index order and returns `Found ⟨node, p⟩` when the key at
position `p` equals the search key, `NotFound ⟨node, p⟩` when position
`p` holds the first stored key strictly greater than the search key,
and `NotFound ⟨node, len⟩` when the stored keys are exhausted, i.e.
when the scan reaches `len` (a `none` slot or the end of the slots). -/
theorem search_node_spec {K : Type} [LinearOrder K] (node : Node K) (idx : Nat)
    (key : K) (hwf : NodeWF node) :
    (∀ p, p < node.len → node.keys.getD p none = some key →
        search_node node idx key = SearchResult.Found ⟨idx, p⟩)
    ∧ (∀ p kp, p < node.len → node.keys.getD p none = some kp → key < kp →
        (∀ e ke, e < p → node.keys.getD e none = some ke → ke < key) →
        search_node node idx key = SearchResult.NotFound ⟨idx, p⟩)
    ∧ ((∀ e ke, e < node.len → node.keys.getD e none = some ke → ke < key) →
        search_node node idx key = SearchResult.NotFound ⟨idx, node.len⟩) := by
  obtain ⟨hlen, hsome, hpad, hsort⟩ := hwf
  refine ⟨?_, ?_, ?_⟩
  · intro p hp hkey
    have hbelow : ∀ e, e < p → ∃ ke, node.keys.getD e none = some ke ∧ ke < key := by
      intro e he
      have hesome := hsome e (lt_trans he hp)
      obtain ⟨ke, hke⟩ := Option.isSome_iff_exists.mp hesome
      exact ⟨ke, hke, hsort e p ke key he hp hke hkey⟩
    have := searchKeysGo_found idx key node.len p node.keys 0 hkey hbelow
    simpa [search_node] using this
  · intro p kp hp hkp hgt hbelow
    have hbelow' : ∀ e, e < p → ∃ ke, node.keys.getD e none = some ke ∧ ke < key := by
      intro e he
      have hesome := hsome e (lt_trans he hp)
      obtain ⟨ke, hke⟩ := Option.isSome_iff_exists.mp hesome
      exact ⟨ke, hke, hbelow e ke he hke⟩
    have := searchKeysGo_notFound_gt idx key node.len p node.keys 0 kp hkp hgt hbelow'
    simpa [search_node] using this
  · intro hall
    have hbelow : ∀ e, e < node.len → ∃ ke, node.keys.getD e none = some ke ∧ ke < key := by
      intro e he
      have hesome := hsome e he
      obtain ⟨ke, hke⟩ := Option.isSome_iff_exists.mp hesome
      exact ⟨ke, hke, hall e ke he hke⟩
    have hstop : (node.keys.length = node.len ∧ node.len = 0 + node.len)
        ∨ (node.len < node.keys.length ∧ node.keys.getD node.len none = none) := by
      rcases Nat.lt_or_ge node.len node.keys.length with h | h
      · exact Or.inr ⟨h, hpad node.len (le_refl _)⟩
      · exact Or.inl ⟨le_antisymm h hlen, by omega⟩
    have := searchKeysGo_exhausted idx key node.len node.len node.keys 0 hbelow hstop
    simpa [search_node] using this

/-- C1 witness: concrete scan over the node with keys 1 and 3 finds key
3 at position 1. -/
theorem search_node_spec_witness :
    NodeWF (Node.mk [some (1 : Nat), some 3] 2)
    ∧ search_node (Node.mk [some (1 : Nat), some 3] 2) 0 3 = SearchResult.Found ⟨0, 1⟩ := by
  have hwf : NodeWF (Node.mk [some (1 : Nat), some 3] 2) := by
    refine ⟨by decide, ?_, ?_, ?_⟩
    · intro i hi
      interval_cases i <;> simp
    · intro i hi
      apply List.getD_eq_default
      simpa using hi
    · intro i j ki kj hij hj h1 h2
      interval_cases j
      · omega
      · interval_cases i
        simp at h1 h2
        omega
  exact ⟨hwf, (search_node_spec _ 0 3 hwf).1 1 (by decide) (by decide)⟩

/-- Modelled from the spec: a live B-tree node of the node chunk
(missing source file btree_map/impls.rs).  The active key and value
slots are kept as plain lists (the trailing `none` padding of the
fixed-capacity record carries no information); `edges` is empty for a
leaf node and holds `keys.length + 1` child handles for an internal
node, so the kind tag is recovered from `edges`. -/
structure BNode (K V : Type) where
  keys : List K
  vals : List V
  edges : List Nat
deriving DecidableEq

/-- Modelled from the spec: full state of the B-tree map: node storage
chunk (one slot per handle, `none` when vacant), header root handle,
entry count `hlen`, live node count, and the free list of reclaimed
handles kept as a side list. -/
structure BTM (K V : Type) where
  store : List (Option (BNode K V))
  root : Option Nat
  hlen : Nat
  nodeCount : Nat
  free : List Nat
deriving DecidableEq

/-- Modelled from the spec: a freshly initialized empty map. -/
def emptyMap (K V : Type) : BTM K V := ⟨[], none, 0, 0, []⟩

namespace BTM

variable {K V : Type}

/-- Modelled from the spec: `resolve` of the node allocator, `none` for
a vacant or out-of-range slot. -/
def resolveN (m : BTM K V) (h : Nat) : Option (BNode K V) :=
  m.store.getD h none

/-- Stores node `n` at handle `h`. -/
def setNode (m : BTM K V) (h : Nat) (n : BNode K V) : BTM K V :=
  { m with store := m.store.set h (some n) }

/-- Modelled from the spec: `allocate` pops the free list if non-empty,
else extends the node chunk by one slot; increments the live count. -/
def allocate (m : BTM K V) (n : BNode K V) : Nat × BTM K V :=
  match m.free with
  | [] => (m.store.length,
      { m with store := m.store ++ [some n], nodeCount := m.nodeCount + 1 })
  | h :: t => (h,
      { m with store := m.store.set h (some n), free := t, nodeCount := m.nodeCount + 1 })

/-- Modelled from the spec: `deallocate` marks the slot vacant, pushes
the handle onto the free list and decrements the live count. -/
def deallocate (m : BTM K V) (h : Nat) : BTM K V :=
  { m with store := m.store.set h none, free := h :: m.free, nodeCount := m.nodeCount - 1 }

end BTM

/-- Ascending linear scan over the active keys of a node, the list form
of the scan of search.rs: returns the stop position and whether the
stop was an exact match. -/
def scanKeys {K : Type} [LinearOrder K] (key : K) : List K → Nat → Nat × Bool
  | [], i => (i, false)
  | k :: ks, i =>
    if key = k then (i, true)
    else if key < k then (i, false)
    else scanKeys key ks (i + 1)

/-- Outcome of the `search_tree` descent of search.rs, with the two
fatal expect-failures of the source and fuel exhaustion of the model
kept apart from the two regular outcomes. -/
inductive TreeSearch where
  | found : Nat → Nat → TreeSearch
  | notFound : Nat → Nat → TreeSearch
  | panicResolve : TreeSearch
  | panicDescend : TreeSearch
  | fuelOut : TreeSearch
deriving DecidableEq

/-- Embeds the descent loop of `search_tree` (search.rs lines 59-80):
resolve the current handle (panic if vacant), scan the node, return on
`Found`, return `NotFound` at a leaf, and descend along the edge at the
scan position of an internal node (panic if the edge is missing). -/
def searchTreeLoop {K V : Type} [LinearOrder K] (m : BTM K V) (key : K) :
    Nat → Nat → TreeSearch
  | 0, _ => TreeSearch.fuelOut
  | fuel + 1, cur =>
    match m.resolveN cur with
    | none => TreeSearch.panicResolve
    | some n =>
      let pr := scanKeys key n.keys 0
      if pr.2 then TreeSearch.found cur pr.1
      else if n.edges.isEmpty then TreeSearch.notFound cur pr.1
      else
        match n.edges.get? pr.1 with
        | none => TreeSearch.panicDescend
        | some c => searchTreeLoop m key fuel c

/-- Embeds `search_tree` (search.rs lines 46-81): an empty tree returns
`NotFound` at the virtual-root handle (0, 0) immediately, otherwise the
descent loop starts at the root with fuel one more than the chunk
extent. -/
def searchTree {K V : Type} [LinearOrder K] (m : BTM K V) (key : K) : TreeSearch :=
  if m.hlen = 0 then TreeSearch.notFound 0 0
  else
    match m.root with
    | none => TreeSearch.notFound 0 0
    | some r => searchTreeLoop m key (m.store.length + 1) r

namespace BTM

variable {K V : Type}

/-- Modelled from the spec: map lookup resolves the key through
`search_tree` and reads the value slot of a `Found` handle. -/
def get [LinearOrder K] (m : BTM K V) (key : K) : Option V :=
  match searchTree m key with
  | TreeSearch.found h p => (m.resolveN h).bind fun n => n.vals.get? p
  | _ => none

end BTM

/-- Modelled from the spec section 4.4: splitting step of insert.  When
the node at `h` exceeds the capacity 2*B-1, keep the lower half in
place at `h`, move the upper half into a freshly allocated sibling and
return the median pair together with the new sibling handle for
promotion into the parent. -/
def splitIfOver {K V : Type} (B : Nat) (m : BTM K V) (h : Nat) :
    BTM K V × Option (K × V × Nat) :=
  match m.resolveN h with
  | none => (m, none)
  | some n =>
    if n.keys.length ≤ 2 * B - 1 then (m, none)
    else
      match n.keys.get? B, n.vals.get? B with
      | some mk, some mv =>
        let l : BNode K V := ⟨n.keys.take B, n.vals.take B, n.edges.take (B + 1)⟩
        let r : BNode K V := ⟨n.keys.drop (B + 1), n.vals.drop (B + 1), n.edges.drop (B + 1)⟩
        let ar := (m.setNode h l).allocate r
        (ar.2, some (mk, mv, ar.1))
      | _, _ => (m, none)

/-- Modelled from the spec section 4.4: recursive descent of insert.
Overwrite in place on an exact match; insert at the scan position of a
leaf and split on overflow; otherwise descend, then absorb a promoted
median from a split child and split again on overflow.  Returns the
previous value, the new state and an optional promoted (key, value,
right sibling) triple for the caller. -/
def insGo {K V : Type} (B : Nat) [LinearOrder K] :
    Nat → BTM K V → Nat → K → V → Option V × BTM K V × Option (K × V × Nat)
  | 0, m, _, _, _ => (none, m, none)
  | fuel + 1, m, h, k, v =>
    match m.resolveN h with
    | none => (none, m, none)
    | some n =>
      let pr := scanKeys k n.keys 0
      if pr.2 then
        (n.vals.get? pr.1, m.setNode h ⟨n.keys, n.vals.set pr.1 v, n.edges⟩, none)
      else if n.edges.isEmpty then
        let sp := splitIfOver B
          (m.setNode h ⟨n.keys.insertIdx pr.1 k, n.vals.insertIdx pr.1 v, []⟩) h
        (none, sp.1, sp.2)
      else
        match n.edges.get? pr.1 with
        | none => (none, m, none)
        | some c =>
          let r := insGo B fuel m c k v
          match r.2.2 with
          | none => (r.1, r.2.1, none)
          | some (mk, mv, rh) =>
            match r.2.1.resolveN h with
            | none => (r.1, r.2.1, none)
            | some n1 =>
              let n' : BNode K V :=
                ⟨n1.keys.insertIdx pr.1 mk, n1.vals.insertIdx pr.1 mv,
                 n1.edges.insertIdx (pr.1 + 1) rh⟩
              let sp := splitIfOver B (r.2.1.setNode h n') h
              (r.1, sp.1, sp.2)

namespace BTM

variable {K V : Type}

/-- Modelled from the spec section 4.4: map insert.  An empty tree
allocates a fresh root leaf; otherwise the recursive descent runs from
the root and a promoted median from a root split becomes a freshly
allocated root with the two halves as edges.  The header entry count
grows exactly when the key was absent. -/
def insert (B : Nat) [LinearOrder K] (m : BTM K V) (k : K) (v : V) :
    Option V × BTM K V :=
  match m.root with
  | none =>
    let ar := m.allocate ⟨[k], [v], []⟩
    (none, { ar.2 with root := some ar.1, hlen := m.hlen + 1 })
  | some r =>
    let ins := insGo B (m.store.length + 1) m r k v
    let m1 := ins.2.1
    let m2 :=
      match ins.2.2 with
      | none => m1
      | some (pk, pv, prh) =>
        let ar := m1.allocate ⟨[pk], [pv], [r, prh]⟩
        { ar.2 with root := some ar.1 }
    (ins.1, if ins.1.isSome then m2 else { m2 with hlen := m2.hlen + 1 })

end BTM

/-- Modelled from the spec section 4.5: underflow repair of the child at
edge `p` of the internal node at `h`.  If the child fell below the
minimum fill B-1, borrow one key/value (and edge) from an adjacent
sibling through the parent when the sibling has spare capacity above
the minimum, otherwise merge the child with the sibling and remove the
now redundant separator from the parent; a merged-away node is
deallocated. -/
def fixChild {K V : Type} (B : Nat) (m : BTM K V) (h : Nat) (p : Nat) : BTM K V :=
  match m.resolveN h with
  | none => m
  | some n =>
    match n.edges.get? p with
    | none => m
    | some c =>
      match m.resolveN c with
      | none => m
      | some cn =>
        if B - 1 ≤ cn.keys.length then m
        else if 0 < p then
          match n.edges.get? (p - 1) with
          | none => m
          | some ls =>
            match m.resolveN ls with
            | none => m
            | some lsn =>
              match n.keys.get? (p - 1), n.vals.get? (p - 1) with
              | some sk, some sv =>
                if B ≤ lsn.keys.length then
                  match lsn.keys.getLast?, lsn.vals.getLast? with
                  | some bk, some bv =>
                    let cn' : BNode K V := ⟨sk :: cn.keys, sv :: cn.vals,
                      match lsn.edges.getLast? with
                      | none => cn.edges
                      | some be => be :: cn.edges⟩
                    let lsn' : BNode K V :=
                      ⟨lsn.keys.dropLast, lsn.vals.dropLast, lsn.edges.dropLast⟩
                    let n' : BNode K V :=
                      ⟨n.keys.set (p - 1) bk, n.vals.set (p - 1) bv, n.edges⟩
                    ((m.setNode ls lsn').setNode c cn').setNode h n'
                  | _, _ => m
                else
                  let merged : BNode K V :=
                    ⟨lsn.keys ++ sk :: cn.keys, lsn.vals ++ sv :: cn.vals,
                     lsn.edges ++ cn.edges⟩
                  let n' : BNode K V :=
                    ⟨n.keys.eraseIdx (p - 1), n.vals.eraseIdx (p - 1), n.edges.eraseIdx p⟩
                  ((m.setNode ls merged).setNode h n').deallocate c
              | _, _ => m
        else
          match n.edges.get? (p + 1) with
          | none => m
          | some rs =>
            match m.resolveN rs with
            | none => m
            | some rsn =>
              match n.keys.get? p, n.vals.get? p with
              | some sk, some sv =>
                if B ≤ rsn.keys.length then
                  match rsn.keys.head?, rsn.vals.head? with
                  | some bk, some bv =>
                    let cn' : BNode K V := ⟨cn.keys ++ [sk], cn.vals ++ [sv],
                      match rsn.edges.head? with
                      | none => cn.edges
                      | some be => cn.edges ++ [be]⟩
                    let rsn' : BNode K V :=
                      ⟨rsn.keys.tail, rsn.vals.tail, rsn.edges.tail⟩
                    let n' : BNode K V :=
                      ⟨n.keys.set p bk, n.vals.set p bv, n.edges⟩
                    ((m.setNode rs rsn').setNode c cn').setNode h n'
                  | _, _ => m
                else
                  let merged : BNode K V :=
                    ⟨cn.keys ++ sk :: rsn.keys, cn.vals ++ sv :: rsn.vals,
                     cn.edges ++ rsn.edges⟩
                  let n' : BNode K V :=
                    ⟨n.keys.eraseIdx p, n.vals.eraseIdx p, n.edges.eraseIdx (p + 1)⟩
                  ((m.setNode c merged).setNode h n').deallocate rs
              | _, _ => m

/-- Modelled from the spec section 4.5: extraction of the in-order
predecessor: descend along last edges to the rightmost leaf of the
subtree at `h`, take its last key/value pair out, and repair any
underflow on the way back up. -/
def popMax {K V : Type} (B : Nat) : Nat → BTM K V → Nat → Option (K × V) × BTM K V
  | 0, m, _ => (none, m)
  | fuel + 1, m, h =>
    match m.resolveN h with
    | none => (none, m)
    | some n =>
      if n.edges.isEmpty then
        match n.keys.getLast?, n.vals.getLast? with
        | some lk, some lv =>
          (some (lk, lv), m.setNode h ⟨n.keys.dropLast, n.vals.dropLast, []⟩)
        | _, _ => (none, m)
      else
        match n.edges.getLast? with
        | none => (none, m)
        | some c =>
          let r := popMax B fuel m c
          match r.1 with
          | none => (none, r.2)
          | some kv => (some kv, fixChild B r.2 h (n.edges.length - 1))

/-- Modelled from the spec section 4.5: recursive descent of remove.
At a leaf an exact match is shifted out; at an internal node an exact
match is replaced by its in-order predecessor extracted from the child
below the match position; otherwise descend and repair the child
afterwards.  Returns the removed value, if any, and the new state. -/
def remGo {K V : Type} (B : Nat) [LinearOrder K] :
    Nat → BTM K V → Nat → K → Option V × BTM K V
  | 0, m, _, _ => (none, m)
  | fuel + 1, m, h, k =>
    match m.resolveN h with
    | none => (none, m)
    | some n =>
      let pr := scanKeys k n.keys 0
      if pr.2 then
        if n.edges.isEmpty then
          (n.vals.get? pr.1,
           m.setNode h ⟨n.keys.eraseIdx pr.1, n.vals.eraseIdx pr.1, []⟩)
        else
          match n.edges.get? pr.1 with
          | none => (none, m)
          | some c =>
            let r := popMax B fuel m c
            match r.1 with
            | none => (none, r.2)
            | some pkv =>
              match r.2.resolveN h with
              | none => (none, r.2)
              | some n1 =>
                let m2 := r.2.setNode h
                  ⟨n1.keys.set pr.1 pkv.1, n1.vals.set pr.1 pkv.2, n1.edges⟩
                (n.vals.get? pr.1, fixChild B m2 h pr.1)
      else
        if n.edges.isEmpty then (none, m)
        else
          match n.edges.get? pr.1 with
          | none => (none, m)
          | some c =>
            let r := remGo B fuel m c k
            match r.1 with
            | none => (none, r.2)
            | some ov => (some ov, fixChild B r.2 h pr.1)

/-- Modelled from the spec section 4.5: root shrinking.  A root left
with zero keys is deallocated: a leaf empties the tree, an internal
root hands its single remaining child over as the new root. -/
def fixRoot {K V : Type} (m : BTM K V) : BTM K V :=
  match m.root with
  | none => m
  | some r =>
    match m.resolveN r with
    | none => m
    | some n =>
      if n.keys.isEmpty then
        if n.edges.isEmpty then { m.deallocate r with root := none }
        else
          match n.edges.get? 0 with
          | none => m
          | some c => { m.deallocate r with root := some c }
      else m

namespace BTM

variable {K V : Type}

/-- Modelled from the spec section 4.5: map remove.  Resolve via the
recursive descent; on a hit the header entry count shrinks by one and
the root is repaired. -/
def remove (B : Nat) [LinearOrder K] (m : BTM K V) (k : K) : Option V × BTM K V :=
  match m.root with
  | none => (none, m)
  | some r =>
    let rr := remGo B (m.store.length + 1) m r k
    match rr.1 with
    | none => (none, rr.2)
    | some ov => (some ov, fixRoot { rr.2 with hlen := rr.2.hlen - 1 })

end BTM

/-- Interleaving of child entry lists with the separator entries of an
internal node: glue [x1, ..., xn] [s0, s1, ..., sn] is
s0 ++ x1 :: s1 ++ ... ++ xn :: sn. -/
def glue {A : Type} : List A → List (List A) → List A
  | [], ss => ss.headD []
  | x :: xs, ss => ss.headD [] ++ x :: glue xs ss.tail

/-- Representation predicate: the storage slots of `s` reachable from
handle `h` form a tree of height `ht` whose in-order entry sequence is
`l` and whose handle sequence (preorder) is `hs`.  Every node on the
way is live, a leaf has no edges, and an internal node has one edge per
key plus one, all children of equal height. -/
inductive Rep (s : List (Option (BNode K V))) : Nat → Nat → List (K × V) → List Nat → Prop where
  | leaf : ∀ (h : Nat) (n : BNode K V),
      s.getD h none = some n →
      n.edges = [] →
      n.vals.length = n.keys.length →
      Rep s 0 h (n.keys.zip n.vals) [h]
  | internal : ∀ (ht h : Nat) (n : BNode K V)
      (subs : List (List (K × V))) (subhs : List (List Nat)),
      s.getD h none = some n →
      n.edges.length = n.keys.length + 1 →
      n.vals.length = n.keys.length →
      subs.length = n.edges.length →
      subhs.length = n.edges.length →
      (∀ i, i < n.edges.length →
        Rep s ht (n.edges.getD i 0) (subs.getD i []) (subhs.getD i [])) →
      Rep s (ht + 1) h (glue (n.keys.zip n.vals) subs) (h :: subhs.flatten)

/-- Free-list validity: distinct vacant in-range slots. -/
def FreeOK (m : BTM K V) : Prop :=
  m.free.Nodup
  ∧ (∀ j, j ∈ m.free → m.resolveN j = none)
  ∧ (∀ j, j ∈ m.free → j < m.store.length)

/-- Allocator bookkeeping invariant: the live slots are exactly the
handles of `live`, handles are not duplicated, the free list is valid,
and the node count matches the number of live slots. -/
structure StoreInv (m : BTM K V) (live : List Nat) : Prop where
  live_iff : ∀ j, (m.resolveN j).isSome ↔ j ∈ live
  live_nodup : live.Nodup
  free_ok : FreeOK m
  count : m.nodeCount = live.length

/-- Fill invariant of the data model: every live node respects the
capacity 2*B-1, the root holds at least one key, and every other live
node holds at least the minimum fill B-1. -/
def NodeFill (B : Nat) (m : BTM K V) : Prop :=
  ∀ h n, m.resolveN h = some n →
    n.keys.length ≤ 2 * B - 1
    ∧ (m.root = some h → 1 ≤ n.keys.length)
    ∧ (m.root ≠ some h → B - 1 ≤ n.keys.length)

/-- Representation of the whole map: an empty root represents the empty
sequence with no handles, otherwise the root subtree represents it. -/
def RootRep (m : BTM K V) (ht : Nat) (l : List (K × V)) (hs : List Nat) : Prop :=
  match m.root with
  | none => ht = 0 ∧ l = [] ∧ hs = []
  | some r => Rep m.store ht r l hs

/-- Global well-formedness of a map state: some entry sequence with
strictly ascending keys is represented, the header entry count matches,
and the allocator and fill invariants hold. -/
def WF {K V : Type} [LinearOrder K] (B : Nat) (m : BTM K V) : Prop :=
  ∃ ht l hs, RootRep m ht l hs
    ∧ List.Pairwise (· < ·) (l.map Prod.fst)
    ∧ m.hlen = l.length
    ∧ StoreInv m hs
    ∧ NodeFill B m

section StoreLemmas

variable {K V : Type}

theorem resolveN_lt_length (m : BTM K V) (h : Nat) (n : BNode K V)
    (hr : m.resolveN h = some n) : h < m.store.length := by
  by_contra hc
  rw [BTM.resolveN, List.getD_eq_default _ _ (by omega)] at hr
  exact Option.noConfusion hr

theorem resolveN_getD (m : BTM K V) (h : Nat) :
    m.resolveN h = (m.store.getD h none) := rfl

theorem resolveN_setNode_self (m : BTM K V) (h : Nat) (n : BNode K V)
    (hlt : h < m.store.length) : (m.setNode h n).resolveN h = some n := by
  simp only [BTM.setNode, BTM.resolveN, List.getD_eq_getElem?_getD]
  rw [List.getElem?_set_self (by simpa using hlt)]
  rfl

theorem resolveN_setNode_ne (m : BTM K V) (h : Nat) (n : BNode K V) (j : Nat)
    (hne : j ≠ h) : (m.setNode h n).resolveN j = m.resolveN j := by
  simp only [BTM.setNode, BTM.resolveN, List.getD_eq_getElem?_getD]
  rw [List.getElem?_set_ne (Ne.symm hne)]

theorem setNode_store_length (m : BTM K V) (h : Nat) (n : BNode K V) :
    (m.setNode h n).store.length = m.store.length := by
  simp [BTM.setNode]

theorem setNode_fields (m : BTM K V) (h : Nat) (n : BNode K V) :
    (m.setNode h n).root = m.root ∧ (m.setNode h n).hlen = m.hlen
    ∧ (m.setNode h n).nodeCount = m.nodeCount ∧ (m.setNode h n).free = m.free :=
  ⟨rfl, rfl, rfl, rfl⟩

theorem setNode_freeOK (m : BTM K V) (h : Nat) (n : BNode K V)
    (hf : FreeOK m) (hdead : h ∉ m.free) : FreeOK (m.setNode h n) := by
  obtain ⟨h1, h2, h3⟩ := hf
  refine ⟨h1, ?_, ?_⟩
  · intro j hj
    rw [resolveN_setNode_ne m h n j (fun hc => hdead (hc ▸ hj))]
    exact h2 j hj
  · intro j hj
    rw [setNode_store_length]
    exact h3 j hj

theorem allocate_spec (m : BTM K V) (n : BNode K V) (hf : FreeOK m) :
    m.resolveN (m.allocate n).1 = none
    ∧ (m.allocate n).2.resolveN (m.allocate n).1 = some n
    ∧ (∀ j, j ≠ (m.allocate n).1 → (m.allocate n).2.resolveN j = m.resolveN j)
    ∧ (m.allocate n).2.root = m.root
    ∧ (m.allocate n).2.hlen = m.hlen
    ∧ (m.allocate n).2.nodeCount = m.nodeCount + 1
    ∧ m.store.length ≤ (m.allocate n).2.store.length
    ∧ FreeOK (m.allocate n).2 := by
  obtain ⟨hnd, hdead, hlt⟩ := hf
  rcases hfr : m.free with _ | ⟨fh, ft⟩
  · simp only [BTM.allocate, hfr]
    refine ⟨?_, ?_, ?_, trivial, trivial, trivial, by simp, ?_⟩
    · rw [BTM.resolveN, List.getD_eq_default _ _ (by omega)]
    · simp only [BTM.resolveN, List.getD_eq_getElem?_getD]
      rw [List.getElem?_append]
      simp
    · intro j hj
      simp only [BTM.resolveN, List.getD_eq_getElem?_getD]
      rw [List.getElem?_append]
      by_cases hjl : j < m.store.length
      · rw [if_pos hjl]
      · rw [if_neg hjl]
        rw [List.getElem?_eq_none (l := m.store) (by omega)]
        rw [List.getElem?_eq_none (by simp; omega)]
    · rw [hfr] at hnd hdead hlt
      refine ⟨by simp, ?_, ?_⟩
      · intro j hj
        simp at hj
      · intro j hj
        simp at hj
  · have hfh_lt : fh < m.store.length := hlt fh (by rw [hfr]; simp)
    have hfh_dead : m.resolveN fh = none := hdead fh (by rw [hfr]; simp)
    simp only [BTM.allocate, hfr]
    refine ⟨hfh_dead, ?_, ?_, trivial, trivial, trivial, by simp, ?_⟩
    · simp only [BTM.resolveN, List.getD_eq_getElem?_getD]
      rw [List.getElem?_set_self (by simpa using hfh_lt)]
      rfl
    · intro j hj
      simp only [BTM.resolveN, List.getD_eq_getElem?_getD]
      rw [List.getElem?_set_ne (Ne.symm hj)]
    · rw [hfr] at hnd hdead hlt
      rw [List.nodup_cons] at hnd
      refine ⟨by simpa using hnd.2, ?_, ?_⟩
      · intro j hj
        simp only at hj
        have hjft : j ∈ ft := hj
        have : j ≠ fh := fun hc => hnd.1 (hc ▸ hjft)
        simp only [BTM.resolveN, List.getD_eq_getElem?_getD]
        rw [List.getElem?_set_ne (Ne.symm this)]
        have hd := hdead j (by simp [hj])
        rw [BTM.resolveN, List.getD_eq_getElem?_getD] at hd
        exact hd
      · intro j hj
        simp only at hj
        simp only [List.length_set]
        exact hlt j (by simp [hj])

theorem deallocate_spec (m : BTM K V) (h : Nat) (n : BNode K V)
    (hlive : m.resolveN h = some n) (hf : FreeOK m) :
    (m.deallocate h).resolveN h = none
    ∧ (∀ j, j ≠ h → (m.deallocate h).resolveN j = m.resolveN j)
    ∧ (m.deallocate h).root = m.root
    ∧ (m.deallocate h).hlen = m.hlen
    ∧ (m.deallocate h).nodeCount = m.nodeCount - 1
    ∧ (m.deallocate h).store.length = m.store.length
    ∧ FreeOK (m.deallocate h) := by
  obtain ⟨hnd, hdead, hlt⟩ := hf
  have hhl : h < m.store.length := resolveN_lt_length m h n hlive
  have hnotfree : h ∉ m.free := by
    intro hc
    rw [hdead h hc] at hlive
    exact Option.noConfusion hlive
  refine ⟨?_, ?_, rfl, rfl, rfl, by simp [BTM.deallocate], ?_⟩
  · simp only [BTM.deallocate, BTM.resolveN, List.getD_eq_getElem?_getD]
    rw [List.getElem?_set_self (by simpa using hhl)]
    rfl
  · intro j hj
    simp only [BTM.deallocate, BTM.resolveN, List.getD_eq_getElem?_getD]
    rw [List.getElem?_set_ne (Ne.symm hj)]
  · refine ⟨by simp [BTM.deallocate, List.nodup_cons, hnotfree, hnd], ?_, ?_⟩
    · intro j hj
      simp only [BTM.deallocate] at hj ⊢
      rcases List.mem_cons.mp hj with hc | hc
      · subst hc
        simp only [BTM.resolveN, List.getD_eq_getElem?_getD]
        rw [List.getElem?_set_self (by simpa using hhl)]
        rfl
      · have : j ≠ h := by
          intro hcc
          exact hnotfree (hcc ▸ hc)
        simp only [BTM.resolveN, List.getD_eq_getElem?_getD]
        rw [List.getElem?_set_ne (Ne.symm this)]
        have hd := hdead j hc
        rw [BTM.resolveN, List.getD_eq_getElem?_getD] at hd
        exact hd
    · intro j hj
      simp only [BTM.deallocate, List.length_set] at hj ⊢
      rcases List.mem_cons.mp hj with hc | hc
      · subst hc
        exact hhl
      · exact hlt j hc

end StoreLemmas

section RepLemmas

variable {K V : Type}

theorem Rep.frame {s s' : List (Option (BNode K V))} {ht h : Nat}
    {l : List (K × V)} {hs : List Nat} (hr : Rep s ht h l hs) :
    (∀ x, x ∈ hs → s'.getD x none = s.getD x none) → Rep s' ht h l hs := by
  induction hr with
  | leaf h n hres hedge hlen =>
    intro hag
    exact Rep.leaf h n (by rw [hag h (by simp)]; exact hres) hedge hlen
  | internal ht h n subs subhs hres helen hvlen hslen hhslen hch ih =>
    intro hag
    refine Rep.internal ht h n subs subhs ?_ helen hvlen hslen hhslen ?_
    · rw [hag h (by simp)]
      exact hres
    · intro i hi
      apply ih i hi
      intro x hx
      apply hag
      simp only [List.mem_cons]
      right
      refine List.mem_flatten.mpr ⟨subhs.getD i [], ?_, hx⟩
      have hisub : i < subhs.length := by omega
      rw [List.getD_eq_getElem?_getD, List.getElem?_eq_getElem hisub]
      exact List.getElem_mem hisub

theorem Rep.live {s : List (Option (BNode K V))} {ht h : Nat}
    {l : List (K × V)} {hs : List Nat} (hr : Rep s ht h l hs) :
    ∀ x, x ∈ hs → (s.getD x none).isSome := by
  induction hr with
  | leaf h n hres hedge hlen =>
    intro x hx
    rcases List.mem_singleton.mp hx with rfl
    rw [hres]
    rfl
  | internal ht h n subs subhs hres helen hvlen hslen hhslen hch ih =>
    intro x hx
    rcases List.mem_cons.mp hx with rfl | hx
    · rw [hres]
      rfl
    · obtain ⟨part, hpart, hxp⟩ := List.mem_flatten.mp hx
      obtain ⟨i, hi, hgi⟩ := List.mem_iff_getElem.mp hpart
      apply ih i (by omega)
      rw [List.getD_eq_getElem?_getD, List.getElem?_eq_getElem hi, hgi]
      exact hxp

theorem Rep.head_mem {s : List (Option (BNode K V))} {ht h : Nat}
    {l : List (K × V)} {hs : List Nat} (hr : Rep s ht h l hs) :
    h ∈ hs := by
  cases hr with
  | leaf h n hres hedge hlen => simp
  | internal ht h n subs subhs hres helen hvlen hslen hhslen hch => simp

theorem Rep.height_lt {s : List (Option (BNode K V))} {ht h : Nat}
    {l : List (K × V)} {hs : List Nat} (hr : Rep s ht h l hs) :
    ht < hs.length := by
  induction hr with
  | leaf h n hres hedge hlen => simp
  | internal ht h n subs subhs hres helen hvlen hslen hhslen hch ih =>
    have h0 : 0 < n.edges.length := by omega
    have hch0 := ih 0 h0
    have hsub0 : subhs.getD 0 [] ∈ subhs := by
      have h0s : 0 < subhs.length := by omega
      rw [List.getD_eq_getElem?_getD, List.getElem?_eq_getElem h0s]
      exact List.getElem_mem h0s
    have : (subhs.getD 0 []).length ≤ subhs.flatten.length := by
      rw [List.length_flatten]
      exact List.le_sum_of_mem (List.mem_map.mpr ⟨subhs.getD 0 [], hsub0, rfl⟩)
    simp only [List.length_cons]
    omega

end RepLemmas

/-- Ordered association list lookup. -/
def lookupKV {K V : Type} [DecidableEq K] (k : K) : List (K × V) → Option V
  | [] => none
  | kv :: rest => if kv.1 = k then some kv.2 else lookupKV k rest

/-- Abstract effect of insert on the ordered entry sequence. -/
def listInsert {K V : Type} [LinearOrder K] (k : K) (v : V) :
    List (K × V) → List (K × V)
  | [] => [(k, v)]
  | kv :: rest =>
    if k = kv.1 then (k, v) :: rest
    else if k < kv.1 then (k, v) :: kv :: rest
    else kv :: listInsert k v rest

/-- Abstract effect of remove on the ordered entry sequence. -/
def listErase {K V : Type} [DecidableEq K] (k : K) : List (K × V) → List (K × V)
  | [] => []
  | kv :: rest => if kv.1 = k then rest else kv :: listErase k rest

section ListHelpers

variable {K V : Type} [LinearOrder K]

theorem lookupKV_append (k : K) (a b : List (K × V)) :
    lookupKV k (a ++ b) =
      match lookupKV k a with
      | some v => some v
      | none => lookupKV k b := by
  induction a with
  | nil => simp [lookupKV]
  | cons kv rest ih =>
    by_cases h : kv.1 = k
    · simp [lookupKV, h]
    · simpa [lookupKV, h] using ih

theorem lookupKV_eq_none_iff (k : K) (l : List (K × V)) :
    lookupKV k l = none ↔ k ∉ l.map Prod.fst := by
  induction l with
  | nil => simp [lookupKV]
  | cons kv rest ih =>
    by_cases h : kv.1 = k
    · simp [lookupKV, h]
    · simp [lookupKV, h, ih, Ne.symm h]

theorem lookupKV_isSome_iff (k : K) (l : List (K × V)) :
    (lookupKV k l).isSome ↔ k ∈ l.map Prod.fst := by
  rcases hl : lookupKV k l with _ | v
  · simpa using (lookupKV_eq_none_iff k l).mp hl
  · simp only [Option.isSome_some, true_iff]
    by_contra hmem
    rw [(lookupKV_eq_none_iff k l).mpr hmem] at hl
    exact Option.noConfusion hl

theorem lookupKV_of_mem (k : K) (v : V) (l : List (K × V))
    (hnd : (l.map Prod.fst).Nodup) (hmem : (k, v) ∈ l) :
    lookupKV k l = some v := by
  induction l with
  | nil => simp at hmem
  | cons kv rest ih =>
    rcases List.mem_cons.mp hmem with heq | htail
    · subst heq
      simp [lookupKV]
    · have hne : kv.1 ≠ k := by
        intro hc
        have : kv.1 ∈ rest.map Prod.fst := by
          rw [hc]
          exact List.mem_map.mpr ⟨(k, v), htail, rfl⟩
        exact (List.nodup_cons.mp (by simpa using hnd)).1 this
      simp only [lookupKV, if_neg hne]
      exact ih (List.nodup_cons.mp (by simpa using hnd)).2 htail

theorem listInsert_lookup_self (k : K) (v : V) (l : List (K × V)) :
    lookupKV k (listInsert k v l) = some v := by
  induction l with
  | nil => simp [listInsert, lookupKV]
  | cons kv rest ih =>
    by_cases h1 : k = kv.1
    · simp [listInsert, h1, lookupKV]
    · by_cases h2 : k < kv.1
      · simp [listInsert, h1, h2, lookupKV]
      · simp [listInsert, h1, h2, lookupKV, Ne.symm h1, ih]

theorem listInsert_map_fst_subset (k : K) (v : V) (l : List (K × V)) :
    ∀ x, x ∈ (listInsert k v l).map Prod.fst → x = k ∨ x ∈ l.map Prod.fst := by
  induction l with
  | nil => simp [listInsert]
  | cons kv rest ih =>
    intro x hx
    by_cases h1 : k = kv.1
    · simp [listInsert, h1] at hx
      rcases hx with hx | hx
      · exact Or.inl (by rw [hx, h1])
      · exact Or.inr (by simp [hx])
    · by_cases h2 : k < kv.1
      · simp [listInsert, h1, h2] at hx
        rcases hx with hx | hx | hx
        · exact Or.inl hx
        · exact Or.inr (by simp [hx])
        · exact Or.inr (by simp [hx])
      · simp [listInsert, h1, h2] at hx
        rcases hx with hx | hx
        · exact Or.inr (by simp [hx])
        · rcases ih x (by simpa using hx) with h | h
          · exact Or.inl h
          · exact Or.inr (by simp [h])

theorem listInsert_sorted (k : K) (v : V) (l : List (K × V))
    (hs : List.Pairwise (· < ·) (l.map Prod.fst)) :
    List.Pairwise (· < ·) ((listInsert k v l).map Prod.fst) := by
  induction l with
  | nil => simp [listInsert]
  | cons kv rest ih =>
    rw [List.map_cons, List.pairwise_cons] at hs
    by_cases h1 : k = kv.1
    · simp only [listInsert, if_pos h1]
      rw [List.map_cons, List.pairwise_cons]
      refine ⟨fun b hb => ?_, hs.2⟩
      rw [h1]
      exact hs.1 b hb
    · by_cases h2 : k < kv.1
      · simp only [listInsert, if_neg h1, if_pos h2]
        rw [List.map_cons, List.map_cons, List.pairwise_cons]
        constructor
        · intro b hb
          rcases List.mem_cons.mp hb with hb' | hb'
          · rw [hb']
            exact h2
          · exact lt_trans h2 (hs.1 b hb')
        · rw [List.pairwise_cons]
          exact ⟨fun b hb => hs.1 b hb, hs.2⟩
      · have h3 : kv.1 < k := by
          rcases lt_trichotomy k kv.1 with h | h | h
          · exact absurd h h2
          · exact absurd h h1
          · exact h
        simp only [listInsert, if_neg h1, if_neg h2]
        rw [List.map_cons, List.pairwise_cons]
        constructor
        · intro b hb
          rcases listInsert_map_fst_subset k v rest b (by simpa using hb) with h | h
          · rw [h]
            exact h3
          · exact hs.1 b h
        · exact ih hs.2

theorem listInsert_length_of_absent (k : K) (v : V) (l : List (K × V))
    (h : k ∉ l.map Prod.fst) : (listInsert k v l).length = l.length + 1 := by
  induction l with
  | nil => simp [listInsert]
  | cons kv rest ih =>
    simp only [List.map_cons, List.mem_cons] at h
    push_neg at h
    have h1 : ¬ k = kv.1 := h.1
    by_cases h2 : k < kv.1
    · simp [listInsert, h1, h2]
    · simp only [listInsert, if_neg h1, if_neg h2, List.length_cons]
      rw [ih h.2]

theorem listInsert_length_of_present (k : K) (v : V) (l : List (K × V))
    (hsort : List.Pairwise (· < ·) (l.map Prod.fst))
    (h : k ∈ l.map Prod.fst) : (listInsert k v l).length = l.length := by
  induction l with
  | nil => simp at h
  | cons kv rest ih =>
    rw [List.map_cons, List.pairwise_cons] at hsort
    by_cases h1 : k = kv.1
    · simp [listInsert, h1]
    · by_cases h2 : k < kv.1
      · exfalso
        simp only [List.map_cons, List.mem_cons] at h
        rcases h with h | h
        · exact h1 h
        · exact absurd (lt_trans h2 (hsort.1 k h)) (lt_irrefl k)
      · simp only [listInsert, if_neg h1, if_neg h2, List.length_cons]
        congr 1
        apply ih hsort.2
        simp only [List.map_cons, List.mem_cons] at h
        rcases h with h | h
        · exact absurd h h1
        · exact h

theorem listErase_sublist (k : K) (l : List (K × V)) :
    (listErase k l).Sublist l := by
  induction l with
  | nil => simp [listErase]
  | cons kv rest ih =>
    by_cases h : kv.1 = k
    · simp only [listErase, if_pos h]
      exact (List.sublist_cons_self kv rest)
    · simp only [listErase, if_neg h]
      exact List.Sublist.cons₂ kv ih

theorem listErase_sorted (k : K) (l : List (K × V))
    (hs : List.Pairwise (· < ·) (l.map Prod.fst)) :
    List.Pairwise (· < ·) ((listErase k l).map Prod.fst) :=
  hs.sublist (List.Sublist.map Prod.fst (listErase_sublist k l))

theorem listErase_lookup_self (k : K) (l : List (K × V))
    (hnd : (l.map Prod.fst).Nodup) :
    lookupKV k (listErase k l) = none := by
  induction l with
  | nil => simp [listErase, lookupKV]
  | cons kv rest ih =>
    rw [List.map_cons, List.nodup_cons] at hnd
    by_cases h : kv.1 = k
    · simp only [listErase, if_pos h]
      rw [lookupKV_eq_none_iff]
      rw [h] at hnd
      exact hnd.1
    · simp only [listErase, if_neg h, lookupKV, if_neg h]
      exact ih hnd.2

theorem listErase_of_absent (k : K) (l : List (K × V))
    (h : k ∉ l.map Prod.fst) : listErase k l = l := by
  induction l with
  | nil => rfl
  | cons kv rest ih =>
    simp only [List.map_cons, List.mem_cons] at h
    push_neg at h
    have hne : ¬ kv.1 = k := fun hc => h.1 (Eq.symm hc)
    simp only [listErase, if_neg hne]
    rw [ih h.2]

theorem listErase_length_of_present (k : K) (l : List (K × V))
    (h : k ∈ l.map Prod.fst) : (listErase k l).length + 1 = l.length := by
  induction l with
  | nil => simp at h
  | cons kv rest ih =>
    by_cases h1 : kv.1 = k
    · simp [listErase, h1]
    · simp only [listErase, if_neg h1, List.length_cons]
      congr 1
      apply ih
      simp only [List.map_cons, List.mem_cons] at h
      rcases h with h | h
      · exact absurd h.symm h1
      · exact h

theorem lookupKV_append_left_lt (k : K) (pre rest : List (K × V))
    (hpre : ∀ kv, kv ∈ pre → kv.1 < k) :
    lookupKV k (pre ++ rest) = lookupKV k rest := by
  rw [lookupKV_append]
  have hnone : lookupKV k pre = none := by
    rw [lookupKV_eq_none_iff]
    intro hmem
    obtain ⟨kv, hkv, hfst⟩ := List.mem_map.mp hmem
    exact absurd (hfst ▸ hpre kv hkv) (lt_irrefl k)
  rw [hnone]

theorem lookupKV_append_right_gt (k : K) (mid post : List (K × V))
    (hpost : ∀ kv, kv ∈ post → k < kv.1) :
    lookupKV k (mid ++ post) = lookupKV k mid := by
  rw [lookupKV_append]
  rcases hm : lookupKV k mid with _ | v
  · rw [lookupKV_eq_none_iff]
    intro hmem
    obtain ⟨kv, hkv, hfst⟩ := List.mem_map.mp hmem
    exact absurd (hfst ▸ hpost kv hkv) (lt_irrefl k)
  · rfl

theorem listInsert_append_left (k : K) (v : V) (pre rest : List (K × V))
    (hpre : ∀ kv, kv ∈ pre → kv.1 < k) :
    listInsert k v (pre ++ rest) = pre ++ listInsert k v rest := by
  induction pre with
  | nil => rfl
  | cons kv pre2 ih =>
    have hlt := hpre kv (List.mem_cons_self kv pre2)
    have h1 : ¬ k = kv.1 := fun h => lt_irrefl k (h ▸ hlt)
    have h2 : ¬ k < kv.1 := lt_asymm hlt
    simp only [List.cons_append, listInsert, if_neg h1, if_neg h2, List.append_eq]
    rw [ih (fun kv2 hkv2 => hpre kv2 (List.mem_cons_of_mem kv hkv2))]

theorem listInsert_append_right (k : K) (v : V) (mid post : List (K × V))
    (hpost : ∀ kv, kv ∈ post → k < kv.1) :
    listInsert k v (mid ++ post) = listInsert k v mid ++ post := by
  induction mid with
  | nil =>
    cases post with
    | nil => rfl
    | cons kv post2 =>
      have hgt := hpost kv (List.mem_cons_self kv post2)
      have h1 : ¬ k = kv.1 := ne_of_lt hgt
      simp only [List.nil_append, listInsert, if_neg h1, if_pos hgt]
      rfl
  | cons kv mid2 ih =>
    by_cases h1 : k = kv.1
    · simp [listInsert, h1]
    · by_cases h2 : k < kv.1
      · simp [listInsert, h1, h2]
      · simp only [List.cons_append, listInsert, if_neg h1, if_neg h2, List.append_eq]
        rw [ih]

theorem listErase_append_left (k : K) (pre rest : List (K × V))
    (hpre : ∀ kv, kv ∈ pre → kv.1 ≠ k) :
    listErase k (pre ++ rest) = pre ++ listErase k rest := by
  induction pre with
  | nil => rfl
  | cons kv pre2 ih =>
    have hne := hpre kv (List.mem_cons_self kv pre2)
    simp only [List.cons_append, listErase, if_neg hne, List.append_eq]
    rw [ih (fun kv2 hkv2 => hpre kv2 (List.mem_cons_of_mem kv hkv2))]

theorem listErase_append_right (k : K) (mid post : List (K × V))
    (hpost : ∀ kv, kv ∈ post → kv.1 ≠ k) :
    listErase k (mid ++ post) = listErase k mid ++ post := by
  induction mid with
  | nil =>
    simp only [List.nil_append, listErase]
    exact listErase_of_absent k post (by
      intro hmem
      obtain ⟨kv, hkv, hfst⟩ := List.mem_map.mp hmem
      exact hpost kv hkv hfst)
  | cons kv mid2 ih =>
    by_cases h1 : kv.1 = k
    · simp [listErase, h1]
    · simp only [List.cons_append, listErase, if_neg h1, List.append_eq]
      rw [ih]

end ListHelpers

section ZipLemmas

variable {K V : Type}

theorem zip_insertIdx_both (k : K) (v : V) :
    ∀ (d : Nat) (ks : List K) (vs : List V), d ≤ ks.length → vs.length = ks.length →
      (List.insertIdx d k ks).zip (List.insertIdx d v vs) =
        List.insertIdx d (k, v) (ks.zip vs) := by
  intro d
  induction d with
  | zero =>
    intro ks vs _ _
    simp [List.insertIdx_zero]
  | succ d ih =>
    intro ks vs hd hl
    cases ks with
    | nil => simp at hd
    | cons a ks2 =>
      cases vs with
      | nil => simp at hl
      | cons b vs2 =>
        simp only [List.insertIdx_succ_cons, List.zip_cons_cons]
        rw [ih ks2 vs2 (by simpa using hd) (by simpa using hl)]

theorem zip_set_right (k : K) (v : V) :
    ∀ (d : Nat) (ks : List K) (vs : List V), ks.get? d = some k →
      ks.zip (vs.set d v) = (ks.zip vs).set d (k, v) := by
  intro d
  induction d with
  | zero =>
    intro ks vs hk
    cases ks with
    | nil => simp at hk
    | cons a ks2 =>
      simp only [List.get?_eq_getElem?] at hk
      simp at hk
      subst hk
      cases vs with
      | nil => simp
      | cons b vs2 => simp
  | succ d ih =>
    intro ks vs hk
    cases ks with
    | nil => simp at hk
    | cons a ks2 =>
      cases vs with
      | nil => simp
      | cons b vs2 =>
        rw [show (b :: vs2).set (d + 1) v = b :: vs2.set d v from rfl,
          List.zip_cons_cons, List.zip_cons_cons,
          show ((a, b) :: ks2.zip vs2).set (d + 1) (k, v)
            = (a, b) :: (ks2.zip vs2).set d (k, v) from rfl]
        rw [ih ks2 vs2 (by simpa using hk)]

theorem zip_set_both (k : K) (v : V) :
    ∀ (d : Nat) (ks : List K) (vs : List V),
      (ks.set d k).zip (vs.set d v) = (ks.zip vs).set d (k, v) := by
  intro d
  induction d with
  | zero =>
    intro ks vs
    cases ks with
    | nil => simp
    | cons a ks2 =>
      cases vs with
      | nil => simp
      | cons b vs2 => simp
  | succ d ih =>
    intro ks vs
    cases ks with
    | nil => simp
    | cons a ks2 =>
      cases vs with
      | nil => simp
      | cons b vs2 =>
        rw [show (a :: ks2).set (d + 1) k = a :: ks2.set d k from rfl,
          show (b :: vs2).set (d + 1) v = b :: vs2.set d v from rfl,
          List.zip_cons_cons, List.zip_cons_cons,
          show ((a, b) :: ks2.zip vs2).set (d + 1) (k, v)
            = (a, b) :: (ks2.zip vs2).set d (k, v) from rfl]
        rw [ih ks2 vs2]

theorem zip_take_both :
    ∀ (t : Nat) (ks : List K) (vs : List V),
      (ks.take t).zip (vs.take t) = (ks.zip vs).take t := by
  intro t
  induction t with
  | zero => intro ks vs; simp
  | succ t ih =>
    intro ks vs
    cases ks with
    | nil => simp
    | cons a ks2 =>
      cases vs with
      | nil => simp
      | cons b vs2 =>
        simp only [List.take_succ_cons, List.zip_cons_cons]
        rw [ih ks2 vs2]

theorem zip_drop_both :
    ∀ (t : Nat) (ks : List K) (vs : List V),
      (ks.drop t).zip (vs.drop t) = (ks.zip vs).drop t := by
  intro t
  induction t with
  | zero => intro ks vs; simp
  | succ t ih =>
    intro ks vs
    cases ks with
    | nil => simp
    | cons a ks2 =>
      cases vs with
      | nil => simp
      | cons b vs2 =>
        simp only [List.drop_succ_cons, List.zip_cons_cons]
        exact ih ks2 vs2

theorem zip_eraseIdx_both :
    ∀ (d : Nat) (ks : List K) (vs : List V), vs.length = ks.length →
      (ks.eraseIdx d).zip (vs.eraseIdx d) = (ks.zip vs).eraseIdx d := by
  intro d
  induction d with
  | zero =>
    intro ks vs _
    cases ks with
    | nil => simp
    | cons a ks2 =>
      cases vs with
      | nil => simp
      | cons b vs2 => simp
  | succ d ih =>
    intro ks vs hl
    cases ks with
    | nil => simp
    | cons a ks2 =>
      cases vs with
      | nil => simp at hl
      | cons b vs2 =>
        simp only [List.eraseIdx_cons_succ, List.zip_cons_cons]
        rw [ih ks2 vs2 (by simpa using hl)]

theorem zip_dropLast_both (ks : List K) (vs : List V) (hl : vs.length = ks.length) :
    ks.dropLast.zip vs.dropLast = (ks.zip vs).dropLast := by
  rw [List.dropLast_eq_take, List.dropLast_eq_take, List.dropLast_eq_take]
  rw [hl, ← zip_take_both]
  congr 2 <;> simp [List.length_zip, hl]

theorem zip_getLast_both (ks : List K) (vs : List V) (k : K) (v : V)
    (hl : vs.length = ks.length)
    (hk : ks.getLast? = some k) (hv : vs.getLast? = some v) :
    (ks.zip vs).getLast? = some (k, v) := by
  rw [List.getLast?_eq_getElem?] at hk hv ⊢
  have hlen : (ks.zip vs).length = ks.length := by simp [List.length_zip, hl]
  rw [hlen]
  rw [hl] at hv
  exact List.getElem?_zip_eq_some.mpr ⟨hk, hv⟩

end ZipLemmas

section GlueLemmas

variable {K V : Type} [LinearOrder K] {A : Type}

theorem glue_cons_eq (x : A) (xs : List A) (s : List A) (ss : List (List A)) :
    glue (x :: xs) (s :: ss) = s ++ x :: glue xs ss := rfl

theorem glue_nil_single (s : List A) : glue ([] : List A) [s] = s := rfl

theorem glue_split :
    ∀ (t : Nat) (xs : List A) (ss : List (List A)) (xt : A),
      xs.get? t = some xt → ss.length = xs.length + 1 →
      glue xs ss = glue (xs.take t) (ss.take (t + 1))
        ++ xt :: glue (xs.drop (t + 1)) (ss.drop (t + 1)) := by
  intro t
  induction t with
  | zero =>
    intro xs ss xt hx hl
    cases xs with
    | nil => simp at hx
    | cons x0 xs2 =>
      cases ss with
      | nil => simp at hl
      | cons s0 ss2 =>
        simp only [List.get?_eq_getElem?] at hx
        simp at hx
        subst hx
        simp [glue_cons_eq, glue]
  | succ t ih =>
    intro xs ss xt hx hl
    cases xs with
    | nil => simp at hx
    | cons x0 xs2 =>
      cases ss with
      | nil => simp at hl
      | cons s0 ss2 =>
        have hrec := ih xs2 ss2 xt (by simpa using hx) (by simpa using hl)
        simp only [List.take_succ_cons, List.drop_succ_cons]
        rw [glue_cons_eq, glue_cons_eq, hrec, List.append_assoc]
        simp

/-- Decomposition of a glued sorted sequence around the component at
index `d`: the part before, the component, and the part after, with all
keys before strictly below `k` and all keys after strictly above `k`,
and replacing the component rewrites in place. -/
theorem glue_decompose (k : K) :
    ∀ (d : Nat) (xs : List (K × V)) (ss : List (List (K × V))),
      d ≤ xs.length → ss.length = xs.length + 1 →
      List.Pairwise (· < ·) ((glue xs ss).map Prod.fst) →
      (∀ e xe, e < d → xs.get? e = some xe → xe.1 < k) →
      (∀ xd, xs.get? d = some xd → k < xd.1) →
      ∃ pre post,
        glue xs ss = pre ++ ss.getD d [] ++ post
        ∧ (∀ lc, glue xs (ss.set d lc) = pre ++ lc ++ post)
        ∧ (∀ x sL sR, glue (List.insertIdx d x xs) (List.insertIdx (d + 1) sR (ss.set d sL))
            = pre ++ (sL ++ x :: sR) ++ post)
        ∧ (∀ kv, kv ∈ pre → kv.1 < k)
        ∧ (∀ kv, kv ∈ post → k < kv.1) := by
  intro d
  induction d with
  | zero =>
    intro xs ss _ hl hsort _ hsep
    cases ss with
    | nil => simp at hl
    | cons s0 ss2 =>
      refine ⟨[], ?_, ?_, ?_, ?_, by simp, ?_⟩
      · exact match xs with
          | [] => []
          | x0 :: xs2 => x0 :: glue xs2 ss2
      · cases xs with
        | nil => simp [glue]
        | cons x0 xs2 => simp [glue_cons_eq]
      · intro lc
        cases xs with
        | nil => simp [glue]
        | cons x0 xs2 => simp [glue_cons_eq]
      · intro x sL sR
        cases xs with
        | nil =>
          simp only [List.insertIdx_zero, List.set]
          rw [show List.insertIdx 1 sR (sL :: ss2) = sL :: sR :: ss2 from rfl]
          rw [show glue [x] (sL :: sR :: ss2) = sL ++ x :: glue ([] : List (K × V)) (sR :: ss2)
            from rfl]
          simp [glue]
        | cons x0 xs2 =>
          simp only [List.insertIdx_zero, List.set]
          rw [show List.insertIdx 1 sR (sL :: ss2) = sL :: sR :: ss2 from rfl]
          rw [show glue (x :: x0 :: xs2) (sL :: sR :: ss2)
              = sL ++ x :: glue (x0 :: xs2) (sR :: ss2) from rfl]
          rw [glue_cons_eq]
          simp [List.append_assoc]
      · cases xs with
        | nil => simp
        | cons x0 xs2 =>
          intro kv hkv
          have hx0 : k < x0.1 := hsep x0 (by simp)
          rcases List.mem_cons.mp hkv with h | h
          · rw [h]; exact hx0
          · rw [glue_cons_eq] at hsort
            rw [List.map_append, List.pairwise_append] at hsort
            have h2 := hsort.2.1
            rw [List.map_cons, List.pairwise_cons] at h2
            have := h2.1 kv.1 (List.mem_map.mpr ⟨kv, h, rfl⟩)
            exact lt_trans hx0 this
  | succ d ih =>
    intro xs ss hd hl hsort hbelow hsep
    cases xs with
    | nil => simp at hd
    | cons x0 xs2 =>
      cases ss with
      | nil => simp at hl
      | cons s0 ss2 =>
        have hx0 : x0.1 < k := hbelow 0 x0 (Nat.succ_pos d) (by simp)
        rw [glue_cons_eq] at hsort
        rw [List.map_append, List.pairwise_append] at hsort
        have hsort2 : List.Pairwise (· < ·) ((glue xs2 ss2).map Prod.fst) := by
          have := hsort.2.1
          rw [List.map_cons, List.pairwise_cons] at this
          exact this.2
        obtain ⟨pre2, post2, heq, hset, hsplit2, hpre2, hpost2⟩ :=
          ih xs2 ss2 (by simpa using hd) (by simpa using hl) hsort2
            (fun e xe he hxe => hbelow (e + 1) xe (Nat.succ_lt_succ he) (by simpa using hxe))
            (fun xd hxd => hsep xd (by simpa using hxd))
        refine ⟨s0 ++ x0 :: pre2, post2, ?_, ?_, ?_, ?_, hpost2⟩
        · rw [glue_cons_eq, heq]
          simp [List.append_assoc]
        · intro lc
          rw [show (s0 :: ss2).set (d + 1) lc = s0 :: ss2.set d lc from rfl]
          rw [glue_cons_eq, hset lc]
          simp [List.append_assoc]
        · intro x sL sR
          rw [show List.insertIdx (d + 1) x (x0 :: xs2) = x0 :: List.insertIdx d x xs2 from rfl]
          rw [show (s0 :: ss2).set (d + 1) sL = s0 :: ss2.set d sL from rfl]
          rw [show List.insertIdx (d + 1 + 1) sR (s0 :: ss2.set d sL)
              = s0 :: List.insertIdx (d + 1) sR (ss2.set d sL) from rfl]
          rw [glue_cons_eq, hsplit2 x sL sR]
          simp [List.append_assoc]
        · intro kv hkv
          rcases List.mem_append.mp hkv with h | h
          · have := hsort.2.2 kv.1 (List.mem_map.mpr ⟨kv, h, rfl⟩) x0.1 (by simp)
            exact lt_trans this hx0
          · rcases List.mem_cons.mp h with h | h
            · rw [h]; exact hx0
            · exact hpre2 kv h

end GlueLemmas

section ScanLemmas

variable {K : Type} [LinearOrder K]

theorem scanKeys_spec (key : K) :
    ∀ (ks : List K) (i : Nat),
      ∃ d, (scanKeys key ks i).1 = i + d
        ∧ d ≤ ks.length
        ∧ (∀ e, e < d → ∃ ke, ks.get? e = some ke ∧ ke < key)
        ∧ ((scanKeys key ks i).2 = true → ks.get? d = some key)
        ∧ ((scanKeys key ks i).2 = false →
            (d = ks.length ∨ ∃ kp, ks.get? d = some kp ∧ key < kp)) := by
  intro ks
  induction ks with
  | nil =>
    intro i
    refine ⟨0, by simp [scanKeys], by simp, by omega, ?_, fun _ => Or.inl rfl⟩
    intro hc
    simp [scanKeys] at hc
  | cons a ks2 ih =>
    intro i
    by_cases h1 : key = a
    · refine ⟨0, by simp [scanKeys, h1], by simp, by omega, ?_, ?_⟩
      · intro _
        simp [h1.symm]
      · intro hc
        simp [scanKeys, h1] at hc
    · by_cases h2 : key < a
      · refine ⟨0, by simp [scanKeys, h1, h2], by simp, by omega, ?_, ?_⟩
        · intro hc
          simp [scanKeys, h1, h2] at hc
        · intro _
          exact Or.inr ⟨a, by simp, h2⟩
      · have ha : a < key := by
          rcases lt_trichotomy key a with h | h | h
          · exact absurd h h2
          · exact absurd h h1
          · exact h
        obtain ⟨d, hfst, hdle, hbelow, htrue, hfalse⟩ := ih (i + 1)
        have hscan : scanKeys key (a :: ks2) i = scanKeys key ks2 (i + 1) := by
          simp [scanKeys, h1, h2]
        refine ⟨d + 1, ?_, ?_, ?_, ?_, ?_⟩
        · rw [hscan, hfst]; omega
        · simpa using Nat.succ_le_succ hdle
        · intro e he
          cases e with
          | zero => exact ⟨a, by simp, ha⟩
          | succ e2 =>
            obtain ⟨ke, hke, hkelt⟩ := hbelow e2 (by omega)
            exact ⟨ke, by simpa using hke, hkelt⟩
        · intro ht
          rw [hscan] at ht
          simpa using htrue ht
        · intro hf
          rw [hscan] at hf
          rcases hfalse hf with h | ⟨kp, hkp, hkplt⟩
          · left; simp [h]
          · right; exact ⟨kp, by simpa using hkp, hkplt⟩

end ScanLemmas

section SearchProof

variable {K V : Type} [LinearOrder K]

theorem sorted_fst_nodup {l : List (K × V)}
    (hs : List.Pairwise (· < ·) (l.map Prod.fst)) : (l.map Prod.fst).Nodup :=
  hs.imp ne_of_lt

theorem nat_nodup_bounded_length {l : List Nat} (hnd : l.Nodup) (n : Nat)
    (hb : ∀ x, x ∈ l → x < n) : l.length ≤ n := by
  classical
  calc l.length = l.toFinset.card := (List.toFinset_card_of_nodup hnd).symm
  _ ≤ (Finset.range n).card :=
      Finset.card_le_card (fun x hx => Finset.mem_range.mpr (hb x (List.mem_toFinset.mp hx)))
  _ = n := Finset.card_range n

theorem zip_get_fst {ks : List K} {vs : List V} {e : Nat} {xe : K × V}
    (hx : (ks.zip vs).get? e = some xe) : ks.get? e = some xe.1 := by
  rw [List.get?_eq_getElem?] at hx ⊢
  exact (List.getElem?_zip_eq_some.mp hx).1

theorem zip_get_of_parts {ks : List K} {vs : List V} {e : Nat} {ke : K} {ve : V}
    (hk : ks.get? e = some ke) (hv : vs.get? e = some ve) :
    (ks.zip vs).get? e = some (ke, ve) := by
  rw [List.get?_eq_getElem?] at hk hv ⊢
  exact List.getElem?_zip_eq_some.mpr ⟨hk, hv⟩

theorem get_of_lt {A : Type} (l : List A) (e : Nat) (he : e < l.length) :
    ∃ a, l.get? e = some a := by
  rw [List.get?_eq_getElem?, List.getElem?_eq_getElem he]
  exact ⟨l[e], rfl⟩

theorem lt_length_of_get {A : Type} {l : List A} {e : Nat} {a : A}
    (h : l.get? e = some a) : e < l.length := by
  by_contra hc
  rw [List.get?_eq_getElem?, List.getElem?_eq_none (by omega)] at h
  exact Option.noConfusion h

/-- Key absence from a sorted key list when the scan stops without a
match: everything before the stop is below the key, everything from the
stop on is above it. -/
theorem sorted_scan_absent (key : K) (ks : List K) (d : Nat)
    (hsort : List.Pairwise (· < ·) ks)
    (hd : d ≤ ks.length)
    (hbelow : ∀ e, e < d → ∃ ke, ks.get? e = some ke ∧ ke < key)
    (hstop : d = ks.length ∨ ∃ kp, ks.get? d = some kp ∧ key < kp) :
    key ∉ ks := by
  intro hmem
  obtain ⟨e, he, hge⟩ := List.mem_iff_getElem.mp hmem
  rcases Nat.lt_trichotomy e d with hed | hed | hed
  · obtain ⟨ke, hke, hkelt⟩ := hbelow e hed
    rw [List.get?_eq_getElem?, List.getElem?_eq_getElem he, hge] at hke
    have : ke = key := (Option.some.inj hke).symm
    exact absurd (this ▸ hkelt) (lt_irrefl key)
  · subst hed
    rcases hstop with h | ⟨kp, hkp, hkplt⟩
    · omega
    · rw [List.get?_eq_getElem?, List.getElem?_eq_getElem he, hge] at hkp
      have : kp = key := (Option.some.inj hkp).symm
      exact absurd (this ▸ hkplt) (lt_irrefl key)
  · rcases hstop with h | ⟨kp, hkp, hkplt⟩
    · omega
    · have hdlt : d < ks.length := lt_trans hed he
      rw [List.get?_eq_getElem?, List.getElem?_eq_getElem hdlt] at hkp
      have hkp' : ks[d] = kp := Option.some.inj hkp
      have := List.pairwise_iff_getElem.mp hsort d e hdlt he hed
      rw [hkp', hge] at this
      exact absurd (lt_trans hkplt this) (lt_irrefl key)

theorem searchTreeLoop_spec (m : BTM K V) (key : K) :
    ∀ (fuel ht h : Nat) (l : List (K × V)) (hs : List Nat),
      Rep m.store ht h l hs →
      List.Pairwise (· < ·) (l.map Prod.fst) →
      ht < fuel →
      (∃ h2 p n2 v, searchTreeLoop m key fuel h = TreeSearch.found h2 p
          ∧ m.resolveN h2 = some n2 ∧ n2.vals.get? p = some v
          ∧ lookupKV key l = some v)
      ∨ (∃ h2 p, searchTreeLoop m key fuel h = TreeSearch.notFound h2 p
          ∧ lookupKV key l = none) := by
  intro fuel
  induction fuel with
  | zero =>
    intro ht h l hs _ _ hf
    omega
  | succ fuel ih =>
    intro ht h l hs hr hsort hf
    cases hr with
    | leaf h n hres hedge hvlen =>
      have hresolve : m.resolveN h = some n := hres
      obtain ⟨d, hd1, hd2, hbelow, htrue, hfalse⟩ := scanKeys_spec key n.keys 0
      have hmap : (n.keys.zip n.vals).map Prod.fst = n.keys :=
        List.map_fst_zip n.keys n.vals (le_of_eq hvlen.symm)
      have hkeysort : List.Pairwise (· < ·) n.keys := by
        rw [hmap] at hsort
        exact hsort
      rcases hflag : (scanKeys key n.keys 0).2 with _ | _
      · -- not found in this leaf
        refine Or.inr ⟨h, (scanKeys key n.keys 0).1, ?_, ?_⟩
        · rw [searchTreeLoop, hresolve]
          simp only [hflag, hedge]
          rfl
        · rw [lookupKV_eq_none_iff, hmap]
          exact sorted_scan_absent key n.keys d hkeysort hd2 hbelow (hfalse hflag)
      · -- exact match at slot d
        have hkey : n.keys.get? d = some key := htrue hflag
        have hdlt : d < n.keys.length := lt_length_of_get hkey
        obtain ⟨v, hv⟩ := get_of_lt n.vals d (by omega)
        refine Or.inl ⟨h, (scanKeys key n.keys 0).1, n, v, ?_, hresolve, ?_, ?_⟩
        · rw [searchTreeLoop, hresolve]
          simp only [hflag]
          rfl
        · rw [hd1]
          simpa using hv
        · apply lookupKV_of_mem
          · rw [hmap]
            exact hkeysort.nodup
          · exact List.get?_mem (zip_get_of_parts hkey hv)
    | internal ht0 h n subs subhs hres helen hvlen hslen hhslen hch =>
      have hresolve : m.resolveN h = some n := hres
      obtain ⟨d, hd1, hd2, hbelow, htrue, hfalse⟩ := scanKeys_spec key n.keys 0
      have hxlen : (n.keys.zip n.vals).length = n.keys.length := by
        simp [List.length_zip, hvlen]
      have hnotleaf : n.edges.isEmpty = false := by
        cases he : n.edges with
        | nil => rw [he] at helen; simp at helen
        | cons a t => rfl
      rcases hflag : (scanKeys key n.keys 0).2 with _ | _
      · -- descend into the child at the scan position
        have hstop := hfalse hflag
        have hdedge : d < n.edges.length := by omega
        obtain ⟨c, hc⟩ := get_of_lt n.edges d (by omega)
        have hcd : n.edges.getD d 0 = c := by
          rw [List.getD_eq_getElem?_getD, ← List.get?_eq_getElem?, hc]
          rfl
        obtain ⟨pre, post, heq, hset, hsplitc, hpre, hpost⟩ :=
          glue_decompose key d (n.keys.zip n.vals) subs
            (by omega)
            (by omega)
            hsort
            (by
              intro e xe he hxe
              obtain ⟨ke, hke, hkelt⟩ := hbelow e he
              have := zip_get_fst hxe
              rw [this] at hke
              exact (Option.some.inj hke) ▸ hkelt)
            (by
              intro xd hxd
              have hfst := zip_get_fst hxd
              rcases hstop with hend | ⟨kp, hkp, hkplt⟩
              · exfalso
                have := lt_length_of_get hxd
                omega
              · rw [hfst] at hkp
                exact (Option.some.inj hkp) ▸ hkplt)
        have hlookup : lookupKV key (glue (n.keys.zip n.vals) subs)
            = lookupKV key (subs.getD d []) := by
          rw [heq, List.append_assoc]
          rw [lookupKV_append_left_lt key pre _ hpre]
          rw [lookupKV_append_right_gt key _ post hpost]
        have hsubsort : List.Pairwise (· < ·) ((subs.getD d []).map Prod.fst) := by
          have hinf : (subs.getD d []).Sublist (glue (n.keys.zip n.vals) subs) := by
            apply List.IsInfix.sublist
            exact ⟨pre, post, heq.symm⟩
          exact hsort.sublist (List.Sublist.map Prod.fst hinf)
        have hrec := ih ht0 c (subs.getD d []) (subhs.getD d [])
          (by
            have := hch d hdedge
            rw [hcd] at this
            exact this)
          hsubsort
          (by omega)
        rcases hrec with ⟨h2, p, n2, v, hloop, hres2, hval, hlook⟩ | ⟨h2, p, hloop, hlook⟩
        · refine Or.inl ⟨h2, p, n2, v, ?_, hres2, hval, ?_⟩
          · rw [searchTreeLoop, hresolve]
            simp only [hflag, hnotleaf]
            rw [show (scanKeys key n.keys 0).1 = d by omega, hc]
            simpa using hloop
          · rw [hlookup]
            exact hlook
        · refine Or.inr ⟨h2, p, ?_, ?_⟩
          · rw [searchTreeLoop, hresolve]
            simp only [hflag, hnotleaf]
            rw [show (scanKeys key n.keys 0).1 = d by omega, hc]
            simpa using hloop
          · rw [hlookup]
            exact hlook
      · -- exact match at a separator slot of this internal node
        have hkey : n.keys.get? d = some key := htrue hflag
        have hdlt : d < n.keys.length := lt_length_of_get hkey
        obtain ⟨v, hv⟩ := get_of_lt n.vals d (by omega)
        have hxd : (n.keys.zip n.vals).get? d = some (key, v) := zip_get_of_parts hkey hv
        have hmem : (key, v) ∈ glue (n.keys.zip n.vals) subs := by
          rw [glue_split d (n.keys.zip n.vals) subs (key, v) hxd (by omega)]
          simp
        refine Or.inl ⟨h, (scanKeys key n.keys 0).1, n, v, ?_, hresolve, ?_, ?_⟩
        · rw [searchTreeLoop, hresolve]
          simp only [hflag]
          rfl
        · rw [hd1]
          simpa using hv
        · exact lookupKV_of_mem key v _ (sorted_fst_nodup hsort) hmem

theorem searchTreeLoop_terminates (m : BTM K V) (key : K) :
    ∀ (fuel ht h : Nat) (l : List (K × V)) (hs : List Nat),
      Rep m.store ht h l hs →
      ht < fuel →
      (∃ h2 p, searchTreeLoop m key fuel h = TreeSearch.found h2 p)
      ∨ (∃ h2 p, searchTreeLoop m key fuel h = TreeSearch.notFound h2 p) := by
  intro fuel
  induction fuel with
  | zero =>
    intro ht h l hs _ hf
    omega
  | succ fuel ih =>
    intro ht h l hs hr hf
    cases hr with
    | leaf h n hres hedge hvlen =>
      have hresolve : m.resolveN h = some n := hres
      rcases hflag : (scanKeys key n.keys 0).2 with _ | _
      · refine Or.inr ⟨h, (scanKeys key n.keys 0).1, ?_⟩
        rw [searchTreeLoop, hresolve]
        simp only [hflag, hedge]
        rfl
      · refine Or.inl ⟨h, (scanKeys key n.keys 0).1, ?_⟩
        rw [searchTreeLoop, hresolve]
        simp only [hflag]
        rfl
    | internal ht0 h n subs subhs hres helen hvlen hslen hhslen hch =>
      have hresolve : m.resolveN h = some n := hres
      obtain ⟨d, hd1, hd2, hbelow, htrue, hfalse⟩ := scanKeys_spec key n.keys 0
      have hnotleaf : n.edges.isEmpty = false := by
        cases he : n.edges with
        | nil => rw [he] at helen; simp at helen
        | cons a t => rfl
      rcases hflag : (scanKeys key n.keys 0).2 with _ | _
      · have hdedge : d < n.edges.length := by omega
        obtain ⟨c, hc⟩ := get_of_lt n.edges d (by omega)
        have hcd : n.edges.getD d 0 = c := by
          rw [List.getD_eq_getElem?_getD, ← List.get?_eq_getElem?, hc]
          rfl
        have hrec := ih ht0 c (subs.getD d []) (subhs.getD d [])
          (by
            have := hch d hdedge
            rw [hcd] at this
            exact this)
          (by omega)
        rcases hrec with ⟨h2, p, hloop⟩ | ⟨h2, p, hloop⟩
        · refine Or.inl ⟨h2, p, ?_⟩
          rw [searchTreeLoop, hresolve]
          simp only [hflag, hnotleaf]
          rw [show (scanKeys key n.keys 0).1 = d by omega, hc]
          simpa using hloop
        · refine Or.inr ⟨h2, p, ?_⟩
          rw [searchTreeLoop, hresolve]
          simp only [hflag, hnotleaf]
          rw [show (scanKeys key n.keys 0).1 = d by omega, hc]
          simpa using hloop
      · refine Or.inl ⟨h, (scanKeys key n.keys 0).1, ?_⟩
        rw [searchTreeLoop, hresolve]
        simp only [hflag]
        rfl

theorem rep_handles_bounded {m : BTM K V} {ht r : Nat} {l : List (K × V)}
    {hs : List Nat} (hrep : Rep m.store ht r l hs) :
    ∀ x, x ∈ hs → x < m.store.length := by
  intro x hx
  have hsome := hrep.live x hx
  obtain ⟨nx, hnx⟩ := Option.isSome_iff_exists.mp hsome
  exact resolveN_lt_length m x nx hnx

theorem rep_fuel_ok {m : BTM K V} {ht r : Nat} {l : List (K × V)}
    {hs : List Nat} (hrep : Rep m.store ht r l hs) (hnd : hs.Nodup) :
    ht < m.store.length + 1 := by
  have h1 := hrep.height_lt
  have h2 := nat_nodup_bounded_length hnd m.store.length (rep_handles_bounded hrep)
  omega

/-- Lookup through the embedded `search_tree` agrees with association
lookup on the represented entry sequence. -/
theorem get_spec (m : BTM K V) (key : K) (ht : Nat) (l : List (K × V)) (hs : List Nat)
    (hroot : RootRep m ht l hs)
    (hsort : List.Pairwise (· < ·) (l.map Prod.fst))
    (hlen : m.hlen = l.length)
    (hnd : hs.Nodup) :
    m.get key = lookupKV key l := by
  by_cases h0 : m.hlen = 0
  · have hl : l = [] := List.length_eq_zero.mp (by omega)
    have hst : searchTree m key = TreeSearch.notFound 0 0 := by
      unfold searchTree
      rw [if_pos h0]
    unfold BTM.get
    rw [hst, hl]
    rfl
  · rcases hrt : m.root with _ | r
    · rw [RootRep, hrt] at hroot
      have hst : searchTree m key = TreeSearch.notFound 0 0 := by
        unfold searchTree
        rw [if_neg h0, hrt]
      unfold BTM.get
      rw [hst, hroot.2.1]
      rfl
    · rw [RootRep, hrt] at hroot
      have hfuel : ht < m.store.length + 1 := rep_fuel_ok hroot hnd
      have hst : searchTree m key = searchTreeLoop m key (m.store.length + 1) r := by
        unfold searchTree
        rw [if_neg h0, hrt]
      rcases searchTreeLoop_spec m key (m.store.length + 1) ht r l hs hroot hsort hfuel with
        ⟨h2, p, n2, v, hloop, hres2, hval, hlook⟩ | ⟨h2, p, hloop, hlook⟩
      · unfold BTM.get
        rw [hst, hloop]
        show (m.resolveN h2).bind (fun n => n.vals.get? p) = lookupKV key l
        rw [hres2, hlook, ← hval]
        rfl
      · unfold BTM.get
        rw [hst, hloop]
        exact hlook.symm

/-- Well-formedness of the freshly initialized empty map. -/
theorem WF_emptyMap (B : Nat) : WF (K := K) (V := V) B (emptyMap K V) := by
  refine ⟨0, [], [], ?_, ?_, rfl, ?_, ?_⟩
  · exact ⟨rfl, rfl, rfl⟩
  · simp
  · refine ⟨?_, ?_, ?_, rfl⟩
    · intro j
      simp [BTM.resolveN, emptyMap, List.getD]
    · simp
    · refine ⟨by simp [emptyMap], ?_, ?_⟩
      · intro j hj
        simp [emptyMap] at hj
      · intro j hj
        simp [emptyMap] at hj
  · intro h n hres
    simp [BTM.resolveN, emptyMap, List.getD] at hres

/-- C8: on an empty tree (root is `None`), `search_tree` returns
`NotFound` at the virtual-root handle with node index 0 and position 0,
for every search key, without descending into any node. -/
theorem search_tree_empty_tree (m : BTM K V) (key : K) (hroot : m.root = none) :
    searchTree m key = TreeSearch.notFound 0 0 := by
  unfold searchTree
  by_cases h0 : m.hlen = 0
  · rw [if_pos h0]
  · rw [if_neg h0, hroot]

/-- C8 witness: the empty map. -/
theorem search_tree_empty_tree_witness :
    (emptyMap Nat Nat).root = none
    ∧ searchTree (emptyMap Nat Nat) 5 = TreeSearch.notFound 0 0 :=
  ⟨rfl, search_tree_empty_tree (emptyMap Nat Nat) 5 rfl⟩

/-- C9: on a map state satisfying the global invariants, the two fatal
branches of `search_tree` (resolving a descent handle to no node, and
descending from an internal node with no child edge at the scan
position) are unreachable: the search never aborts, for any key. -/
theorem search_tree_no_panic (B : Nat) (m : BTM K V) (key : K) (hwf : WF B m) :
    searchTree m key ≠ TreeSearch.panicResolve
    ∧ searchTree m key ≠ TreeSearch.panicDescend := by
  obtain ⟨ht, l, hs, hroot, hsort, hlen, hstore, hfill⟩ := hwf
  by_cases h0 : m.hlen = 0
  · have hst : searchTree m key = TreeSearch.notFound 0 0 := by
      unfold searchTree
      rw [if_pos h0]
    rw [hst]
    exact ⟨fun hc => TreeSearch.noConfusion hc, fun hc => TreeSearch.noConfusion hc⟩
  · rcases hrt : m.root with _ | r
    · have hst : searchTree m key = TreeSearch.notFound 0 0 := by
        unfold searchTree
        rw [if_neg h0, hrt]
      rw [hst]
      exact ⟨fun hc => TreeSearch.noConfusion hc, fun hc => TreeSearch.noConfusion hc⟩
    · rw [RootRep, hrt] at hroot
      have hfuel : ht < m.store.length + 1 := rep_fuel_ok hroot hstore.live_nodup
      have hst : searchTree m key = searchTreeLoop m key (m.store.length + 1) r := by
        unfold searchTree
        rw [if_neg h0, hrt]
      rcases searchTreeLoop_spec m key (m.store.length + 1) ht r l hs hroot hsort hfuel with
        ⟨h2, p, n2, v, hloop, _, _, _⟩ | ⟨h2, p, hloop, _⟩
      · rw [hst, hloop]
        exact ⟨fun hc => TreeSearch.noConfusion hc, fun hc => TreeSearch.noConfusion hc⟩
      · rw [hst, hloop]
        exact ⟨fun hc => TreeSearch.noConfusion hc, fun hc => TreeSearch.noConfusion hc⟩

/-- C9 witness: the empty map is well formed and its search does not
abort. -/
theorem search_tree_no_panic_witness :
    WF 2 (emptyMap Nat Nat)
    ∧ searchTree (emptyMap Nat Nat) 7 ≠ TreeSearch.panicResolve :=
  ⟨WF_emptyMap 2, (search_tree_no_panic 2 (emptyMap Nat Nat) 7 (WF_emptyMap 2)).1⟩

/-- C10: when the handles reachable from the root form a finite tree
(witnessed by a tree representation of some height, in which every
descent step strictly decreases the subtree height, with no handle
repeated), the descent loop of `search_tree` terminates with a regular
result for every search key. -/
theorem search_tree_terminates (m : BTM K V) (key : K) (r ht : Nat)
    (l : List (K × V)) (hs : List Nat)
    (hroot : m.root = some r) (hrep : Rep m.store ht r l hs) (hnd : hs.Nodup) :
    (∃ h2 p, searchTree m key = TreeSearch.found h2 p)
    ∨ (∃ h2 p, searchTree m key = TreeSearch.notFound h2 p) := by
  unfold searchTree
  by_cases h0 : m.hlen = 0
  · rw [if_pos h0]
    exact Or.inr ⟨0, 0, rfl⟩
  · rw [if_neg h0, hroot]
    exact searchTreeLoop_terminates m key (m.store.length + 1) ht r l hs hrep
      (rep_fuel_ok hrep hnd)

/-- C10 witness: a one-node tree. -/
theorem search_tree_terminates_witness :
    (∃ h2 p, searchTree (BTM.mk [some (BNode.mk [1] [10] [])] (some 0) 1 1 []) (5 : Nat)
        = TreeSearch.found h2 p)
    ∨ (∃ h2 p, searchTree (BTM.mk [some (BNode.mk [1] [10] [])] (some 0) 1 1 []) (5 : Nat)
        = TreeSearch.notFound h2 p) :=
  search_tree_terminates (V := Nat) (BTM.mk [some (BNode.mk [1] [10] [])] (some 0) 1 1 [])
    5 0 0 [(1, 10)] [0]
    rfl (Rep.leaf 0 (BNode.mk [1] [10] []) rfl rfl rfl) (by simp)

end SearchProof

section InsertHelpers

variable {K V : Type} [LinearOrder K] {A : Type}

/-- On a sorted sequence, inserting at the scan position is the
abstract ordered insert. -/
theorem insertIdx_eq_listInsert (k : K) (v : V) :
    ∀ (d : Nat) (l : List (K × V)), d ≤ l.length →
      (∀ e xe, e < d → l.get? e = some xe → xe.1 < k) →
      (d = l.length ∨ ∀ xd, l.get? d = some xd → k < xd.1) →
      List.insertIdx d (k, v) l = listInsert k v l := by
  intro d
  induction d with
  | zero =>
    intro l _ _ hstop
    cases l with
    | nil => rfl
    | cons x rest =>
      rcases hstop with h | h
      · simp at h
      · have hx : k < x.1 := h x (by simp)
        have h1 : ¬ k = x.1 := ne_of_lt hx
        simp [List.insertIdx_zero, listInsert, h1, hx]
  | succ d ih =>
    intro l hd hbelow hstop
    cases l with
    | nil => simp at hd
    | cons x rest =>
      have hx : x.1 < k := hbelow 0 x (Nat.succ_pos d) (by simp)
      have h1 : ¬ k = x.1 := fun h => lt_irrefl k (h ▸ hx)
      have h2 : ¬ k < x.1 := lt_asymm hx
      simp only [List.insertIdx_succ_cons, listInsert, if_neg h1, if_neg h2]
      rw [ih rest (by simpa using hd)
        (fun e xe he hxe => hbelow (e + 1) xe (Nat.succ_lt_succ he) (by simpa using hxe))
        (by
          rcases hstop with h | h
          · left; simpa using h
          · right
            intro xd hxd
            exact h xd (by simpa using hxd))]

/-- Overwriting the value of the entry with key `k` in a sorted
sequence is the abstract ordered insert. -/
theorem set_eq_listInsert (k : K) (vOld v : V) :
    ∀ (pre post : List (K × V)),
      (∀ kv, kv ∈ pre → kv.1 < k) →
      listInsert k v (pre ++ (k, vOld) :: post) = pre ++ (k, v) :: post := by
  intro pre post hpre
  rw [listInsert_append_left k v pre _ hpre]
  simp [listInsert]

/-- Decomposition of a glued sequence around separator `d`, stable
under replacing that separator entry. -/
theorem glue_sep_decompose :
    ∀ (d : Nat) (xs : List (K × V)) (ss : List (List (K × V))) (xd : K × V),
      xs.get? d = some xd → ss.length = xs.length + 1 →
      ∃ pre post, glue xs ss = pre ++ xd :: post
        ∧ (∀ x2, glue (xs.set d x2) ss = pre ++ x2 :: post) := by
  intro d
  induction d with
  | zero =>
    intro xs ss xd hx hl
    cases xs with
    | nil => simp at hx
    | cons x0 xs2 =>
      cases ss with
      | nil => simp at hl
      | cons s0 ss2 =>
        have hx0 : x0 = xd := by simpa using hx
        subst hx0
        exact ⟨s0, glue xs2 ss2, rfl, fun x2 => rfl⟩
  | succ d ih =>
    intro xs ss xd hx hl
    cases xs with
    | nil => simp at hx
    | cons x0 xs2 =>
      cases ss with
      | nil => simp at hl
      | cons s0 ss2 =>
        obtain ⟨pre2, post2, heq, hset⟩ := ih xs2 ss2 xd (by simpa using hx) (by simpa using hl)
        refine ⟨s0 ++ x0 :: pre2, post2, ?_, ?_⟩
        · rw [glue_cons_eq, heq]
          simp
        · intro x2
          rw [show (x0 :: xs2).set (d + 1) x2 = x0 :: xs2.set d x2 from rfl]
          rw [glue_cons_eq, hset x2]
          simp

/-- Decomposition of a flattened list of lists around the part at
index `i`, stable under replacing that part. -/
theorem flatten_set_decomp {A : Type} :
    ∀ (i : Nat) (L : List (List A)), i < L.length →
      ∃ F1 F2, L.flatten = F1 ++ L.getD i [] ++ F2
        ∧ (∀ x, (L.set i x).flatten = F1 ++ x ++ F2)
        ∧ (∀ x y, (List.insertIdx (i + 1) y (L.set i x)).flatten = F1 ++ x ++ y ++ F2) := by
  intro i
  induction i with
  | zero =>
    intro L hi
    cases L with
    | nil => simp at hi
    | cons c L2 =>
      refine ⟨[], L2.flatten, by simp, fun x => by simp, ?_⟩
      intro x y
      rw [show (c :: L2).set 0 x = x :: L2 from rfl]
      rw [show List.insertIdx 1 y (x :: L2) = x :: y :: L2 from rfl]
      simp [List.append_assoc]
  | succ i ih =>
    intro L hi
    cases L with
    | nil => simp at hi
    | cons c L2 =>
      obtain ⟨F1, F2, heq, hset, hins⟩ := ih L2 (by simpa using hi)
      refine ⟨c ++ F1, F2, ?_, ?_, ?_⟩
      · rw [List.flatten_cons, heq]
        simp
      · intro x
        rw [show (c :: L2).set (i + 1) x = c :: L2.set i x from rfl]
        rw [List.flatten_cons, hset x]
        simp
      · intro x y
        rw [show (c :: L2).set (i + 1) x = c :: L2.set i x from rfl]
        rw [show List.insertIdx (i + 1 + 1) y (c :: L2.set i x)
            = c :: List.insertIdx (i + 1) y (L2.set i x) from rfl]
        rw [List.flatten_cons, hins x y]
        simp [List.append_assoc]

/-- Replacing a middle segment by a permutation with extra elements
permutes the whole with the extras at the end. -/
theorem perm_insert_mid {A : Type} (F1 mid2 mid F2 ex : List A)
    (hm : mid2.Perm (mid ++ ex)) :
    (F1 ++ mid2 ++ F2).Perm ((F1 ++ mid ++ F2) ++ ex) := by
  have h1 : (F1 ++ mid2 ++ F2).Perm (F1 ++ (mid ++ ex) ++ F2) :=
    (hm.append_left F1).append (List.Perm.refl F2)
  have h2 : F1 ++ (mid ++ ex) ++ F2 = F1 ++ (mid ++ (ex ++ F2)) := by
    simp [List.append_assoc]
  have h3 : (F1 ++ (mid ++ (ex ++ F2))).Perm (F1 ++ (mid ++ (F2 ++ ex))) :=
    List.Perm.append_left F1 (List.Perm.append_left mid List.perm_append_comm)
  have h4 : F1 ++ (mid ++ (F2 ++ ex)) = (F1 ++ mid ++ F2) ++ ex := by
    simp [List.append_assoc]
  rw [h2] at h1
  rw [h4] at h3
  exact h1.trans h3

/-- Parts of a duplicate-free flattened list at distinct indices are
disjoint. -/
theorem nodup_flatten_parts_disjoint {A : Type} (L : List (List A))
    (hnd : L.flatten.Nodup) (i j : Nat) (hi : i < L.length) (hj : j < L.length)
    (hij : i ≠ j) (x : A) (hxi : x ∈ L.getD i []) (hxj : x ∈ L.getD j []) : False := by
  have hpw := (List.nodup_flatten.mp hnd).2
  rcases Nat.lt_or_ge i j with hlt | hge
  · have := List.pairwise_iff_getElem.mp hpw i j hi hj hlt
    rw [List.getD_eq_getElem?_getD, List.getElem?_eq_getElem hi] at hxi
    rw [List.getD_eq_getElem?_getD, List.getElem?_eq_getElem hj] at hxj
    exact this hxi hxj
  · have hlt : j < i := by omega
    have := List.pairwise_iff_getElem.mp hpw j i hj hi hlt
    rw [List.getD_eq_getElem?_getD, List.getElem?_eq_getElem hi] at hxi
    rw [List.getD_eq_getElem?_getD, List.getElem?_eq_getElem hj] at hxj
    exact this hxj hxi

theorem getD_take {A : Type} (l : List A) (t i : Nat) (d : A) (hi : i < t) :
    (l.take t).getD i d = l.getD i d := by
  rw [List.getD_eq_getElem?_getD, List.getD_eq_getElem?_getD, List.getElem?_take, if_pos hi]

theorem getD_drop {A : Type} (l : List A) (t i : Nat) (d : A) :
    (l.drop t).getD i d = l.getD (t + i) d := by
  rw [List.getD_eq_getElem?_getD, List.getD_eq_getElem?_getD, List.getElem?_drop]

theorem flatten_take_drop {A : Type} (L : List (List A)) (t : Nat) :
    (L.take t).flatten ++ (L.drop t).flatten = L.flatten := by
  rw [← List.flatten_append, List.take_append_drop]

theorem cons_perm_append_singleton {A : Type} (a : A) (l : List A) :
    (a :: l).Perm (l ++ [a]) := by
  have : a :: l = [a] ++ l := rfl
  rw [this]
  exact List.perm_append_comm

theorem getD_set_self {A : Type} (l : List A) (i : Nat) (x d : A) (hi : i < l.length) :
    (l.set i x).getD i d = x := by
  rw [List.getD_eq_getElem?_getD, List.getElem?_set_self (by simpa using hi)]
  rfl

theorem getD_set_ne {A : Type} (l : List A) (i j : Nat) (x d : A) (hij : i ≠ j) :
    (l.set i x).getD j d = l.getD j d := by
  rw [List.getD_eq_getElem?_getD, List.getElem?_set_ne hij, ← List.getD_eq_getElem?_getD]

theorem getD_insertIdx_lt {A : Type} (x d0 : A) :
    ∀ (i : Nat) (t : Nat) (l : List A), i < t →
      (List.insertIdx t x l).getD i d0 = l.getD i d0 := by
  intro i
  induction i with
  | zero =>
    intro t l hit
    cases t with
    | zero => omega
    | succ t2 =>
      cases l with
      | nil => simp [List.insertIdx_succ_nil]
      | cons a l2 => simp [List.insertIdx_succ_cons]
  | succ i ih =>
    intro t l hit
    cases t with
    | zero => omega
    | succ t2 =>
      cases l with
      | nil => simp [List.insertIdx_succ_nil]
      | cons a l2 =>
        simp only [List.insertIdx_succ_cons, List.getD_cons_succ]
        exact ih t2 l2 (by omega)

theorem getD_insertIdx_self {A : Type} (x d0 : A) :
    ∀ (t : Nat) (l : List A), t ≤ l.length →
      (List.insertIdx t x l).getD t d0 = x := by
  intro t
  induction t with
  | zero => intro l _; simp [List.insertIdx_zero]
  | succ t ih =>
    intro l ht
    cases l with
    | nil => simp at ht
    | cons a l2 =>
      simp only [List.insertIdx_succ_cons, List.getD_cons_succ]
      exact ih l2 (by simpa using ht)

theorem getD_insertIdx_gt {A : Type} (x d0 : A) :
    ∀ (t : Nat) (l : List A) (i : Nat), t < i →
      (List.insertIdx t x l).getD i d0 = l.getD (i - 1) d0 := by
  intro t
  induction t with
  | zero =>
    intro l i hti
    cases l with
    | nil =>
      simp only [List.insertIdx_zero]
      cases i with
      | zero => omega
      | succ i2 => simp
    | cons a l2 =>
      simp only [List.insertIdx_zero]
      cases i with
      | zero => omega
      | succ i2 => simp
  | succ t ih =>
    intro l i hti
    cases l with
    | nil =>
      simp [List.insertIdx_succ_nil]
    | cons a l2 =>
      simp only [List.insertIdx_succ_cons]
      cases i with
      | zero => omega
      | succ i2 =>
        simp only [List.getD_cons_succ]
        rw [ih l2 i2 (by omega)]
        cases i2 with
        | zero => omega
        | succ i3 => simp

theorem sorted_decomp_bounds {K V : Type} [LinearOrder K]
    (pre post : List (K × V)) (x : K × V)
    (hsort : List.Pairwise (· < ·) ((pre ++ x :: post).map Prod.fst)) :
    (∀ kv, kv ∈ pre → kv.1 < x.1) ∧ (∀ kv, kv ∈ post → x.1 < kv.1) := by
  rw [List.map_append, List.pairwise_append] at hsort
  constructor
  · intro kv hkv
    exact hsort.2.2 kv.1 (List.mem_map.mpr ⟨kv, hkv, rfl⟩) x.1 (by simp)
  · intro kv hkv
    have h2 := hsort.2.1
    rw [List.map_cons, List.pairwise_cons] at h2
    exact h2.1 kv.1 (List.mem_map.mpr ⟨kv, hkv, rfl⟩)

theorem mem_take_bounds {A : Type} (l : List A) (t : Nat) (a : A) (ha : a ∈ l.take t) :
    ∃ e, e < t ∧ l.get? e = some a := by
  obtain ⟨e, he, hge⟩ := List.mem_iff_getElem.mp ha
  have hlt : e < t := by
    have h2 := he
    rw [List.length_take] at h2
    omega
  refine ⟨e, hlt, ?_⟩
  rw [List.get?_eq_getElem?]
  have h3 : (l.take t)[e]? = some a := by
    rw [List.getElem?_eq_getElem he, hge]
  rw [List.getElem?_take, if_pos hlt] at h3
  exact h3

theorem part_sublist_flatten {A : Type} (L : List (List A)) (i : Nat) (hi : i < L.length) :
    (L.getD i []).Sublist L.flatten := by
  obtain ⟨F1, F2, heq, _⟩ := flatten_set_decomp i L hi
  rw [heq]
  have h1 : (L.getD i []).Sublist (L.getD i [] ++ F2) := List.sublist_append_left _ _
  have h2 : (L.getD i [] ++ F2).Sublist (F1 ++ (L.getD i [] ++ F2)) :=
    List.sublist_append_right _ _
  have h3 := h1.trans h2
  simpa [List.append_assoc] using h3

end InsertHelpers

section InsertProof

variable {K V : Type} [LinearOrder K]

/-- Capacity and minimum-fill bounds for the nodes of a subtree, with
the subtree root exempt from the minimum. -/
def SubCap (B : Nat) (m : BTM K V) (h : Nat) (hs : List Nat) : Prop :=
  ∀ j n, j ∈ hs → m.resolveN j = some n →
    n.keys.length ≤ 2 * B - 1 ∧ (j ≠ h → B - 1 ≤ n.keys.length)

/-- Capacity and minimum-fill bounds with no exemption. -/
def CapAll (B : Nat) (m : BTM K V) (hs : List Nat) : Prop :=
  ∀ j n, j ∈ hs → m.resolveN j = some n →
    B - 1 ≤ n.keys.length ∧ n.keys.length ≤ 2 * B - 1

/-- Overwriting the value slot at an exact key match rewrites the
represented sequence by the ordered insert and leaves the structure
unchanged. -/
theorem overwrite_spec (k : K) (v : V) (m : BTM K V) (h ht d : Nat)
    (l : List (K × V)) (hs : List Nat) (n : BNode K V)
    (hres : m.resolveN h = some n)
    (hrep : Rep m.store ht h l hs)
    (hnd : hs.Nodup)
    (hsort : List.Pairwise (· < ·) (l.map Prod.fst))
    (hkd : n.keys.get? d = some k) :
    (∃ vOld, n.vals.get? d = some vOld ∧ lookupKV k l = some vOld)
    ∧ Rep (m.setNode h ⟨n.keys, n.vals.set d v, n.edges⟩).store ht h
        (listInsert k v l) hs := by
  have hdlt : d < n.keys.length := lt_length_of_get hkd
  have hlive : h < m.store.length := resolveN_lt_length m h n hres
  -- value list length from the representation
  have hvlen : n.vals.length = n.keys.length := by
    cases hrep with
    | leaf h n0 hres0 hedge0 hvlen0 =>
      have h2 : m.resolveN h = some n0 := hres0
      rw [hres] at h2
      rw [Option.some.inj h2]
      exact hvlen0
    | internal ht0 h n0 subs subhs hres0 helen0 hvlen0 hslen0 hhslen0 hch =>
      have h2 : m.resolveN h = some n0 := hres0
      rw [hres] at h2
      rw [Option.some.inj h2]
      exact hvlen0
  obtain ⟨vOld, hvOld⟩ := get_of_lt n.vals d (by omega)
  have hxd : (n.keys.zip n.vals).get? d = some (k, vOld) := zip_get_of_parts hkd hvOld
  cases hrep with
  | leaf h n0 hres0 hedge0 hvlen0 =>
    have hn0 : n = n0 := by
      have h2 : m.resolveN h = some n0 := hres0
      rw [hres] at h2
      exact Option.some.inj h2
    subst hn0
    have hzlen : d < (n.keys.zip n.vals).length := by
      simp only [List.length_zip, hvlen0]
      omega
    have hxde : (n.keys.zip n.vals)[d] = (k, vOld) := by
      rw [List.get?_eq_getElem?, List.getElem?_eq_getElem hzlen] at hxd
      exact Option.some.inj hxd
    have hdecomp : n.keys.zip n.vals
        = (n.keys.zip n.vals).take d ++ (k, vOld) :: (n.keys.zip n.vals).drop (d + 1) := by
      conv_lhs => rw [← List.take_append_drop d (n.keys.zip n.vals),
        List.drop_eq_getElem_cons hzlen, hxde]
    have hbounds := sorted_decomp_bounds _ _ _ (hdecomp ▸ hsort)
    have hli : listInsert k v (n.keys.zip n.vals)
        = (n.keys.zip n.vals).take d ++ (k, v) :: (n.keys.zip n.vals).drop (d + 1) := by
      conv_lhs => rw [hdecomp]
      exact set_eq_listInsert k vOld v _ _ hbounds.1
    refine ⟨⟨vOld, hvOld, ?_⟩, ?_⟩
    · rw [hdecomp, lookupKV_append_left_lt k _ _ hbounds.1]
      simp [lookupKV]
    · have hset : n.keys.zip (n.vals.set d v)
          = (n.keys.zip n.vals).set d (k, v) := zip_set_right k v d n.keys n.vals hkd
      have hset2 : (n.keys.zip n.vals).set d (k, v)
          = (n.keys.zip n.vals).take d ++ (k, v) :: (n.keys.zip n.vals).drop (d + 1) :=
        List.set_eq_take_cons_drop _ hzlen
      have hrep2 := Rep.leaf (s := (m.setNode h ⟨n.keys, n.vals.set d v, n.edges⟩).store) h
        ⟨n.keys, n.vals.set d v, n.edges⟩
        (resolveN_setNode_self m h _ hlive)
        hedge0 (by simp [hvlen0])
      rw [show (⟨n.keys, n.vals.set d v, n.edges⟩ : BNode K V).keys = n.keys from rfl,
        show (⟨n.keys, n.vals.set d v, n.edges⟩ : BNode K V).vals = n.vals.set d v from rfl]
        at hrep2
      rw [hli, ← hset2, ← hset]
      exact hrep2
  | internal ht0 h n0 subs subhs hres0 helen0 hvlen0 hslen0 hhslen0 hch =>
    have hn0 : n = n0 := by
      have h2 : m.resolveN h = some n0 := hres0
      rw [hres] at h2
      exact Option.some.inj h2
    subst hn0
    obtain ⟨pre, post, heq, hsetSep⟩ := glue_sep_decompose d (n.keys.zip n.vals) subs
      (k, vOld) hxd (by simp [hslen0, helen0, List.length_zip, hvlen0])
    have hbounds := sorted_decomp_bounds pre post (k, vOld) (heq ▸ hsort)
    have hli : listInsert k v (glue (n.keys.zip n.vals) subs)
        = pre ++ (k, v) :: post := by
      rw [heq]
      exact set_eq_listInsert k vOld v _ _ hbounds.1
    have hh_not_flat : h ∉ subhs.flatten := (List.nodup_cons.mp hnd).1
    refine ⟨⟨vOld, hvOld, ?_⟩, ?_⟩
    · rw [heq, lookupKV_append_left_lt k _ _ hbounds.1]
      simp [lookupKV]
    · have hset : n.keys.zip (n.vals.set d v)
          = (n.keys.zip n.vals).set d (k, v) := zip_set_right k v d n.keys n.vals hkd
      have hrep2 := Rep.internal (s := (m.setNode h ⟨n.keys, n.vals.set d v, n.edges⟩).store)
        ht0 h ⟨n.keys, n.vals.set d v, n.edges⟩ subs subhs
        (resolveN_setNode_self m h _ hlive)
        helen0 (by simp [hvlen0]) hslen0 hhslen0
        (by
          intro i hi
          have hie : i < n.edges.length := hi
          apply (hch i hie).frame
          intro x hx
          have hxflat : x ∈ subhs.flatten := by
            refine List.mem_flatten.mpr ⟨subhs.getD i [], ?_, hx⟩
            have his : i < subhs.length := by omega
            rw [List.getD_eq_getElem?_getD, List.getElem?_eq_getElem his]
            exact List.getElem_mem his
          have hxh : x ≠ h := fun hc => hh_not_flat (hc ▸ hxflat)
          exact resolveN_setNode_ne m h _ x hxh)
      rw [show (⟨n.keys, n.vals.set d v, n.edges⟩ : BNode K V).keys = n.keys from rfl,
        show (⟨n.keys, n.vals.set d v, n.edges⟩ : BNode K V).vals = n.vals.set d v from rfl]
        at hrep2
      rw [hset, hsetSep (k, v)] at hrep2
      rw [hli]
      exact hrep2

theorem splitIfOver_spec (B : Nat) (hB : 1 ≤ B) (m : BTM K V) (h ht : Nat)
    (l : List (K × V)) (hs : List Nat) (n : BNode K V)
    (hres : m.resolveN h = some n)
    (hrep : Rep m.store ht h l hs)
    (hnd : hs.Nodup)
    (hcap : n.keys.length ≤ 2 * B)
    (hfree : FreeOK m) :
    ((splitIfOver B m h).1 = m ∧ (splitIfOver B m h).2 = none
      ∧ n.keys.length ≤ 2 * B - 1)
    ∨ (∃ mk mv rh hsL hsR lL lR,
        (splitIfOver B m h).2 = some (mk, mv, rh)
        ∧ n.keys.length = 2 * B
        ∧ l = lL ++ (mk, mv) :: lR
        ∧ Rep (splitIfOver B m h).1.store ht h lL hsL
        ∧ Rep (splitIfOver B m h).1.store ht rh lR hsR
        ∧ hsL = h :: hsL.tail
        ∧ (hsL ++ hsR).Perm (hs ++ [rh])
        ∧ m.resolveN rh = none
        ∧ (∀ j, j ≠ h → j ≠ rh → (splitIfOver B m h).1.resolveN j = m.resolveN j)
        ∧ (splitIfOver B m h).1.root = m.root
        ∧ (splitIfOver B m h).1.hlen = m.hlen
        ∧ (splitIfOver B m h).1.nodeCount = m.nodeCount + 1
        ∧ m.store.length ≤ (splitIfOver B m h).1.store.length
        ∧ FreeOK (splitIfOver B m h).1
        ∧ (∀ n2, (splitIfOver B m h).1.resolveN h = some n2 → n2.keys.length = B)
        ∧ (∀ n2, (splitIfOver B m h).1.resolveN rh = some n2 →
            n2.keys.length = B - 1)) := by
  by_cases hover : n.keys.length ≤ 2 * B - 1
  · left
    refine ⟨?_, ?_, hover⟩
    · unfold splitIfOver
      simp only [hres, if_pos hover]
    · unfold splitIfOver
      simp only [hres, if_pos hover]
  · right
    have hlen2B : n.keys.length = 2 * B := by omega
    have hBlt : B < n.keys.length := by omega
    -- the median entries exist
    obtain ⟨mk, hmk⟩ := get_of_lt n.keys B hBlt
    -- value list length from the representation
    have hvlen : n.vals.length = n.keys.length := by
      cases hrep with
      | leaf h n0 hres0 hedge0 hvlen0 =>
        have : n0 = n := by
          have h2 : m.resolveN h = some n0 := hres0
          rw [hres] at h2
          exact (Option.some.inj h2).symm
        rw [← this]
        exact hvlen0
      | internal ht0 h n0 subs subhs hres0 helen0 hvlen0 hslen0 hhslen0 hch =>
        have : n0 = n := by
          have h2 : m.resolveN h = some n0 := hres0
          rw [hres] at h2
          exact (Option.some.inj h2).symm
        rw [← this]
        exact hvlen0
    obtain ⟨mv, hmv⟩ := get_of_lt n.vals B (by omega)
    -- shape of the split computation
    have hlive : h < m.store.length := resolveN_lt_length m h n hres
    have hnotfree : h ∉ m.free := by
      intro hc
      rw [hfree.2.1 h hc] at hres
      exact Option.noConfusion hres
    have hfree1 : FreeOK (m.setNode h ⟨n.keys.take B, n.vals.take B, n.edges.take (B + 1)⟩) :=
      setNode_freeOK m h _ hfree hnotfree
    obtain ⟨harh_dead1, harh_live, hframe_al, hroot_al, hlen_al, hcount_al, hlen_mono_al, hfree2⟩ :=
      allocate_spec (m.setNode h ⟨n.keys.take B, n.vals.take B, n.edges.take (B + 1)⟩)
        ⟨n.keys.drop (B + 1), n.vals.drop (B + 1), n.edges.drop (B + 1)⟩ hfree1
    set m1 := m.setNode h ⟨n.keys.take B, n.vals.take B, n.edges.take (B + 1)⟩ with hm1
    set rh := (m1.allocate ⟨n.keys.drop (B + 1), n.vals.drop (B + 1), n.edges.drop (B + 1)⟩).1
      with hrh
    set m2 := (m1.allocate ⟨n.keys.drop (B + 1), n.vals.drop (B + 1), n.edges.drop (B + 1)⟩).2
      with hm2
    have hsp1 : (splitIfOver B m h).1 = m2 := by
      unfold splitIfOver
      simp only [hres, if_neg hover, hmk, hmv]
    have hsp2 : (splitIfOver B m h).2 = some (mk, mv, rh) := by
      unfold splitIfOver
      simp only [hres, if_neg hover, hmk, hmv]
    -- rh is distinct from h and dead in m
    have hrh_ne_h : rh ≠ h := by
      intro hc
      rw [hc] at harh_dead1
      rw [resolveN_setNode_self m h _ hlive] at harh_dead1
      exact Option.noConfusion harh_dead1
    have hrh_dead : m.resolveN rh = none := by
      rw [← resolveN_setNode_ne m h ⟨n.keys.take B, n.vals.take B, n.edges.take (B + 1)⟩
        rh hrh_ne_h]
      exact harh_dead1
    have hframe : ∀ j, j ≠ h → j ≠ rh → m2.resolveN j = m.resolveN j := by
      intro j hjh hjrh
      rw [hframe_al j hjrh]
      exact resolveN_setNode_ne m h _ j hjh
    have hres_h2 : m2.resolveN h = some ⟨n.keys.take B, n.vals.take B, n.edges.take (B + 1)⟩ := by
      rw [hframe_al h (Ne.symm hrh_ne_h)]
      exact resolveN_setNode_self m h _ hlive
    have hres_rh2 : m2.resolveN rh
        = some ⟨n.keys.drop (B + 1), n.vals.drop (B + 1), n.edges.drop (B + 1)⟩ :=
      harh_live
    have htakeB : (n.keys.take B).length = B := by
      rw [List.length_take]
      omega
    have hdropB : (n.keys.drop (B + 1)).length = B - 1 := by
      rw [List.length_drop]
      omega
    have hframe_store : ∀ x, x ∈ hs → x ≠ h → m2.store.getD x none = m.store.getD x none := by
      intro x hx hxh
      have hxlive := hrep.live x hx
      have hxrh : x ≠ rh := by
        intro hc
        rw [hc] at hxlive
        rw [show m.store.getD rh none = m.resolveN rh from rfl, hrh_dead] at hxlive
        exact Bool.noConfusion hxlive
      exact hframe x hxh hxrh
    -- split the representation
    cases hrep with
    | leaf h0 n0 hres0 hedge0 hvlen0 =>
      have hn0 : n = n0 := by
        have h2 : m.resolveN h = some n0 := hres0
        rw [hres] at h2
        exact Option.some.inj h2
      subst hn0
      have hzlen : (n.keys.zip n.vals).length = n.keys.length := by
        simp [List.length_zip, hvlen0]
      have hmed : (n.keys.zip n.vals).get? B = some (mk, mv) := zip_get_of_parts hmk hmv
      have hsplit_l : n.keys.zip n.vals
          = (n.keys.zip n.vals).take B ++ (mk, mv) :: (n.keys.zip n.vals).drop (B + 1) := by
        have hBz : B < (n.keys.zip n.vals).length := by omega
        have h2 : (n.keys.zip n.vals).drop B
            = (mk, mv) :: (n.keys.zip n.vals).drop (B + 1) := by
          rw [List.drop_eq_getElem_cons hBz]
          congr 1
          rw [List.get?_eq_getElem?, List.getElem?_eq_getElem hBz] at hmed
          exact Option.some.inj hmed
        conv_lhs => rw [← List.take_append_drop B (n.keys.zip n.vals), h2]
      refine ⟨mk, mv, rh, [h], [rh],
        (n.keys.zip n.vals).take B, (n.keys.zip n.vals).drop (B + 1),
        hsp2, hlen2B, hsplit_l, ?_, ?_, rfl, ?_, hrh_dead, ?_, ?_, ?_, ?_, ?_, ?_, ?_, ?_⟩
      · rw [hsp1]
        have := Rep.leaf (s := m2.store) h
          ⟨n.keys.take B, n.vals.take B, n.edges.take (B + 1)⟩
          hres_h2 (by rw [hedge0]; simp) (by simp [List.length_take, hvlen0])
        rw [zip_take_both] at this
        exact this
      · rw [hsp1]
        have := Rep.leaf (s := m2.store) rh
          ⟨n.keys.drop (B + 1), n.vals.drop (B + 1), n.edges.drop (B + 1)⟩
          hres_rh2 (by rw [hedge0]; simp) (by simp [List.length_drop, hvlen0])
        rw [zip_drop_both] at this
        exact this
      · exact List.Perm.refl _
      · intro j hjh hjrh
        rw [hsp1]
        exact hframe j hjh hjrh
      · rw [hsp1]
        exact hroot_al
      · rw [hsp1]
        exact hlen_al
      · rw [hsp1]
        exact hcount_al
      · rw [hsp1]
        have hsl : m1.store.length = m.store.length := setNode_store_length m h _
        omega
      · rw [hsp1]
        exact hfree2
      · intro n2 hn2
        rw [hsp1] at hn2
        rw [hres_h2] at hn2
        rw [← Option.some.inj hn2]
        exact htakeB
      · intro n2 hn2
        rw [hsp1] at hn2
        rw [hres_rh2] at hn2
        rw [← Option.some.inj hn2]
        exact hdropB
    | internal ht0 h0 n0 subs subhs hres0 helen0 hvlen0 hslen0 hhslen0 hch =>
      have hn0 : n = n0 := by
        have h2 : m.resolveN h = some n0 := hres0
        rw [hres] at h2
        exact Option.some.inj h2
      subst hn0
      have hzlen : (n.keys.zip n.vals).length = n.keys.length := by
        simp [List.length_zip, hvlen0]
      have hmed : (n.keys.zip n.vals).get? B = some (mk, mv) := zip_get_of_parts hmk hmv
      have hsplit_l := glue_split B (n.keys.zip n.vals) subs (mk, mv) hmed
        (by rw [hslen0, helen0, hzlen])
      have hhsnodup : subhs.flatten.Nodup := (List.nodup_cons.mp hnd).2
      have hh_not_flat : h ∉ subhs.flatten := (List.nodup_cons.mp hnd).1
      -- frame agreement for child representations
      have hchild_frame : ∀ i, i < n.edges.length →
          ∀ x, x ∈ subhs.getD i [] → m2.store.getD x none = m.store.getD x none := by
        intro i hi x hx
        have hxflat : x ∈ subhs.flatten := by
          refine List.mem_flatten.mpr ⟨subhs.getD i [], ?_, hx⟩
          have his : i < subhs.length := by omega
          rw [List.getD_eq_getElem?_getD, List.getElem?_eq_getElem his]
          exact List.getElem_mem his
        apply hframe_store x (by simp [hxflat]) (fun hc => hh_not_flat (hc ▸ hxflat))
      -- left representation
      have hrepL0 : Rep m2.store (ht0 + 1) h
          (glue ((n.keys.take B).zip (n.vals.take B)) (subs.take (B + 1)))
          (h :: (subhs.take (B + 1)).flatten) := by
        have hedges_take : (n.edges.take (B + 1)).length = (n.keys.take B).length + 1 := by
          rw [List.length_take, List.length_take]
          omega
        refine Rep.internal ht0 h ⟨n.keys.take B, n.vals.take B, n.edges.take (B + 1)⟩
          (subs.take (B + 1)) (subhs.take (B + 1))
          hres_h2 hedges_take (by simp [List.length_take]; omega) ?_ ?_ ?_
        · simp only [List.length_take]
          omega
        · simp only [List.length_take]
          omega
        · intro i hi
          simp only at hi
          have hiB : i < B + 1 := by
            simp only [List.length_take] at hi
            omega
          have hiedge : i < n.edges.length := by omega
          rw [show (⟨n.keys.take B, n.vals.take B, n.edges.take (B + 1)⟩ : BNode K V).edges
              = n.edges.take (B + 1) from rfl]
          rw [getD_take _ _ _ _ hiB, getD_take _ _ _ _ hiB, getD_take _ _ _ _ hiB]
          exact (hch i hiedge).frame (fun x hx => hchild_frame i hiedge x hx)
      -- right representation
      have hrepR0 : Rep m2.store (ht0 + 1) rh
          (glue ((n.keys.drop (B + 1)).zip (n.vals.drop (B + 1))) (subs.drop (B + 1)))
          (rh :: (subhs.drop (B + 1)).flatten) := by
        have hedges_drop : (n.edges.drop (B + 1)).length = (n.keys.drop (B + 1)).length + 1 := by
          rw [List.length_drop, List.length_drop]
          omega
        refine Rep.internal ht0 rh ⟨n.keys.drop (B + 1), n.vals.drop (B + 1), n.edges.drop (B + 1)⟩
          (subs.drop (B + 1)) (subhs.drop (B + 1))
          hres_rh2 hedges_drop (by simp [List.length_drop]; omega) ?_ ?_ ?_
        · simp only [List.length_drop]
          omega
        · simp only [List.length_drop]
          omega
        · intro i hi
          simp only at hi
          have hiedge : B + 1 + i < n.edges.length := by
            simp only [List.length_drop] at hi
            omega
          rw [show (⟨n.keys.drop (B + 1), n.vals.drop (B + 1), n.edges.drop (B + 1)⟩ : BNode K V).edges
              = n.edges.drop (B + 1) from rfl]
          rw [getD_drop, getD_drop, getD_drop]
          exact (hch (B + 1 + i) hiedge).frame
            (fun x hx => hchild_frame (B + 1 + i) hiedge x hx)
      have hrepL : Rep m2.store (ht0 + 1) h
          (glue ((n.keys.zip n.vals).take B) (subs.take (B + 1)))
          (h :: (subhs.take (B + 1)).flatten) := by
        rw [← zip_take_both]
        exact hrepL0
      have hrepR : Rep m2.store (ht0 + 1) rh
          (glue ((n.keys.zip n.vals).drop (B + 1)) (subs.drop (B + 1)))
          (rh :: (subhs.drop (B + 1)).flatten) := by
        rw [← zip_drop_both]
        exact hrepR0
      refine ⟨mk, mv, rh, h :: (subhs.take (B + 1)).flatten, rh :: (subhs.drop (B + 1)).flatten,
        glue ((n.keys.zip n.vals).take B) (subs.take (B + 1)),
        glue ((n.keys.zip n.vals).drop (B + 1)) (subs.drop (B + 1)),
        hsp2, hlen2B, ?_, by rw [hsp1]; exact hrepL, by rw [hsp1]; exact hrepR, rfl,
        ?_, hrh_dead, ?_, ?_, ?_, ?_, ?_, ?_, ?_, ?_⟩
      · exact hsplit_l
      · -- handle permutation
        have hflat : (subhs.take (B + 1)).flatten ++ (subhs.drop (B + 1)).flatten
            = subhs.flatten := flatten_take_drop subhs (B + 1)
        have h5 := List.Perm.append_left (subhs.take (B + 1)).flatten
          (cons_perm_append_singleton rh (subhs.drop (B + 1)).flatten)
        have h6 : (subhs.take (B + 1)).flatten ++ ((subhs.drop (B + 1)).flatten ++ [rh])
            = subhs.flatten ++ [rh] := by
          rw [← List.append_assoc, hflat]
        rw [h6] at h5
        have h7 := List.Perm.cons h h5
        simpa using h7
      · intro j hjh hjrh
        rw [hsp1]
        exact hframe j hjh hjrh
      · rw [hsp1]
        exact hroot_al
      · rw [hsp1]
        exact hlen_al
      · rw [hsp1]
        exact hcount_al
      · rw [hsp1]
        have hsl : m1.store.length = m.store.length := setNode_store_length m h _
        omega
      · rw [hsp1]
        exact hfree2
      · intro n2 hn2
        rw [hsp1] at hn2
        rw [hres_h2] at hn2
        rw [← Option.some.inj hn2]
        exact htakeB
      · intro n2 hn2
        rw [hsp1] at hn2
        rw [hres_rh2] at hn2
        rw [← Option.some.inj hn2]
        exact hdropB

/-- Post-state contract of the recursive insert descent at a subtree:
the returned value is the ordered lookup, header fields survive, the
free list stays valid, and the subtree is re-represented after the
ordered insert, either in place or split with a promoted median, with
`A` the freshly allocated handles. -/
def InsGoPost (B : Nat) (k : K) (v : V) (fuel : Nat) (m : BTM K V)
    (h ht : Nat) (l : List (K × V)) (hs : List Nat) : Prop :=
  (insGo B fuel m h k v).1 = lookupKV k l
  ∧ (insGo B fuel m h k v).2.1.root = m.root
  ∧ (insGo B fuel m h k v).2.1.hlen = m.hlen
  ∧ m.store.length ≤ (insGo B fuel m h k v).2.1.store.length
  ∧ FreeOK (insGo B fuel m h k v).2.1
  ∧ ∃ A : List Nat,
      A.Nodup
      ∧ (∀ j, j ∈ A → m.resolveN j = none)
      ∧ (∀ j, j ∉ hs → j ∉ A → (insGo B fuel m h k v).2.1.resolveN j = m.resolveN j)
      ∧ (insGo B fuel m h k v).2.1.nodeCount = m.nodeCount + A.length
      ∧ ((∃ hs2,
            (insGo B fuel m h k v).2.2 = none
            ∧ Rep (insGo B fuel m h k v).2.1.store ht h (listInsert k v l) hs2
            ∧ hs2.Perm (hs ++ A)
            ∧ SubCap B (insGo B fuel m h k v).2.1 h hs2
            ∧ (∀ n2, (insGo B fuel m h k v).2.1.resolveN h = some n2 →
                n2.keys.length ≤ 2 * B - 1
                ∧ ∀ n0, m.resolveN h = some n0 → n0.keys.length ≤ n2.keys.length))
        ∨ (∃ mk2 mv2 rh hsL hsR lL lR,
            (insGo B fuel m h k v).2.2 = some (mk2, mv2, rh)
            ∧ rh ∈ A
            ∧ listInsert k v l = lL ++ (mk2, mv2) :: lR
            ∧ Rep (insGo B fuel m h k v).2.1.store ht h lL hsL
            ∧ Rep (insGo B fuel m h k v).2.1.store ht rh lR hsR
            ∧ (hsL ++ hsR).Perm (hs ++ A)
            ∧ CapAll B (insGo B fuel m h k v).2.1 (hsL ++ hsR)))

theorem insGo_leaf_notfound (B : Nat) (hB : 2 ≤ B) (k : K) (v : V)
    (fuel : Nat) (m : BTM K V) (h : Nat) (n : BNode K V) (d : Nat)
    (hresolve : m.resolveN h = some n)
    (hedge : n.edges = [])
    (hvlen : n.vals.length = n.keys.length)
    (hsort : List.Pairwise (· < ·) ((n.keys.zip n.vals).map Prod.fst))
    (hfree : FreeOK m)
    (hfill : SubCap B m h [h])
    (hlive : h < m.store.length)
    (hnotfree : h ∉ m.free)
    (hd2 : d ≤ n.keys.length)
    (hbelow : ∀ e, e < d → ∃ ke, n.keys.get? e = some ke ∧ ke < k)
    (hstop : d = n.keys.length ∨ ∃ kp, n.keys.get? d = some kp ∧ k < kp)
    (hflag : (scanKeys k n.keys 0).2 = false)
    (hd1 : (scanKeys k n.keys 0).1 = d) :
    InsGoPost B k v (fuel + 1) m h 0 (n.keys.zip n.vals) [h] := by
  -- the key is absent from the leaf
  have hzmap : (n.keys.zip n.vals).map Prod.fst = n.keys :=
    List.map_fst_zip n.keys n.vals (by omega)
  have hsortk : List.Pairwise (· < ·) n.keys := by
    rw [hzmap] at hsort
    exact hsort
  have hnotin : k ∉ n.keys := sorted_scan_absent k n.keys d hsortk hd2 hbelow hstop
  have hlook : lookupKV (V := V) k (n.keys.zip n.vals) = none := by
    rw [lookupKV_eq_none_iff, hzmap]
    exact hnotin
  -- the computation reduces to the split of the extended leaf
  have hcond1 : ¬ ((scanKeys k n.keys 0).2 = true) := by
    rw [hflag]
    simp
  have hcond2 : n.edges.isEmpty = true := by
    rw [hedge]
    rfl
  have hcomp : insGo B (fuel + 1) m h k v
      = (none,
         (splitIfOver B
           (m.setNode h ⟨n.keys.insertIdx d k, n.vals.insertIdx d v, []⟩) h).1,
         (splitIfOver B
           (m.setNode h ⟨n.keys.insertIdx d k, n.vals.insertIdx d v, []⟩) h).2) := by
    rw [insGo]
    simp only [hresolve]
    rw [if_neg hcond1, if_pos hcond2, hd1]
  -- representation of the extended leaf
  have hn'len : (n.keys.insertIdx d k).length = n.keys.length + 1 :=
    List.length_insertIdx d n.keys hd2
  have hn'vlen : (n.vals.insertIdx d v).length = n.vals.length + 1 :=
    List.length_insertIdx d n.vals (by omega)
  have hzip' : (n.keys.insertIdx d k).zip (n.vals.insertIdx d v)
      = List.insertIdx d (k, v) (n.keys.zip n.vals) :=
    zip_insertIdx_both k v d n.keys n.vals hd2 hvlen
  have hzlen : (n.keys.zip n.vals).length = n.keys.length := by
    simp [List.length_zip, hvlen]
  have hins : List.insertIdx d (k, v) (n.keys.zip n.vals)
      = listInsert k v (n.keys.zip n.vals) := by
    apply insertIdx_eq_listInsert k v d _ (by omega)
    · intro e xe he hxe
      obtain ⟨ke, hke, hkelt⟩ := hbelow e he
      have h1 := zip_get_fst hxe
      rw [hke] at h1
      exact (Option.some.inj h1) ▸ hkelt
    · rcases hstop with hcase | ⟨kp, hkp, hkplt⟩
      · left
        omega
      · right
        intro xd hxd
        have h1 := zip_get_fst hxd
        rw [hkp] at h1
        exact (Option.some.inj h1) ▸ hkplt
  have hrep1 : Rep
      (m.setNode h (⟨n.keys.insertIdx d k, n.vals.insertIdx d v, []⟩ : BNode K V)).store
      0 h (listInsert k v (n.keys.zip n.vals)) [h] := by
    have hr := Rep.leaf
      (s := (m.setNode h
        (⟨n.keys.insertIdx d k, n.vals.insertIdx d v, []⟩ : BNode K V)).store)
      h (⟨n.keys.insertIdx d k, n.vals.insertIdx d v, []⟩ : BNode K V)
      (resolveN_setNode_self m h _ hlive) rfl
      (by
        show (n.vals.insertIdx d v).length = (n.keys.insertIdx d k).length
        rw [hn'len, hn'vlen, hvlen])
    rw [show (⟨n.keys.insertIdx d k, n.vals.insertIdx d v, []⟩ : BNode K V).keys
        = n.keys.insertIdx d k from rfl,
      show (⟨n.keys.insertIdx d k, n.vals.insertIdx d v, []⟩ : BNode K V).vals
        = n.vals.insertIdx d v from rfl, hzip', hins] at hr
    exact hr
  have hfree1 : FreeOK
      (m.setNode h (⟨n.keys.insertIdx d k, n.vals.insertIdx d v, []⟩ : BNode K V)) :=
    setNode_freeOK m h _ hfree hnotfree
  have hcapn : n.keys.length ≤ 2 * B - 1 := (hfill h n (by simp) hresolve).1
  have hcap1 : (n.keys.insertIdx d k).length ≤ 2 * B := by
    rw [hn'len]
    omega
  rcases splitIfOver_spec B (by omega)
      (m.setNode h (⟨n.keys.insertIdx d k, n.vals.insertIdx d v, []⟩ : BNode K V)) h 0
      (listInsert k v (n.keys.zip n.vals)) [h]
      (⟨n.keys.insertIdx d k, n.vals.insertIdx d v, []⟩ : BNode K V)
      (resolveN_setNode_self m h _ hlive) hrep1 (by simp) hcap1 hfree1 with
    ⟨hsp1, hsp2, hspcap⟩ |
    ⟨mk2, mv2, rh, hsL, hsR, lL, lR, hsp2, hlen2B, hldec, hrepL, hrepR, hheadL, hperm,
      hrhdead, hframe, hroot1, hhlen1, hcount1, hslen1, hfree2, hcapL, hcapR⟩
  · -- no split
    unfold InsGoPost
    rw [hcomp]
    refine ⟨by rw [hlook], by rw [hsp1]; rfl, by rw [hsp1]; rfl, ?_, by rw [hsp1]; exact hfree1,
      [], by simp, by intro j hj; simp at hj, ?_, ?_, ?_⟩
    · rw [hsp1, setNode_store_length]
    · intro j hj1 _
      rw [hsp1]
      exact resolveN_setNode_ne m h _ j (fun hc => hj1 (by simp [hc]))
    · rw [hsp1]
      simp [BTM.setNode]
    · left
      refine ⟨[h], hsp2, by rw [hsp1]; exact hrep1, by simp, ?_, ?_⟩
      · intro j n2 hj hres2
        have hjh : j = h := by simpa using hj
        subst hjh
        rw [hsp1, resolveN_setNode_self m j _ hlive] at hres2
        rw [← Option.some.inj hres2]
        exact ⟨hspcap, fun hc => absurd rfl hc⟩
      · intro n2 hres2
        rw [hsp1, resolveN_setNode_self m h _ hlive] at hres2
        rw [← Option.some.inj hres2]
        refine ⟨hspcap, ?_⟩
        intro n0 hres0b
        rw [hresolve] at hres0b
        rw [← Option.some.inj hres0b]
        show n.keys.length ≤ (n.keys.insertIdx d k).length
        rw [hn'len]
        omega
  · -- split of the extended leaf
    have hrhh : rh ≠ h := by
      intro hc
      rw [hc, resolveN_setNode_self m h _ hlive] at hrhdead
      exact Option.noConfusion hrhdead
    have hrhdead0 : m.resolveN rh = none := by
      rw [← resolveN_setNode_ne m h
        (⟨n.keys.insertIdx d k, n.vals.insertIdx d v, []⟩ : BNode K V) rh hrhh]
      exact hrhdead
    unfold InsGoPost
    rw [hcomp]
    refine ⟨by rw [hlook], by rw [hroot1]; rfl, by rw [hhlen1]; rfl, ?_, hfree2,
      [rh], by simp, ?_, ?_, ?_, ?_⟩
    · exact le_trans (le_of_eq (setNode_store_length m h _).symm) hslen1
    · intro j hj
      have hjrh : j = rh := by simpa using hj
      subst hjrh
      exact hrhdead0
    · intro j hj1 hj2
      have hjh : j ≠ h := fun hc => hj1 (by simp [hc])
      have hjrh : j ≠ rh := fun hc => hj2 (by simp [hc])
      rw [hframe j hjh hjrh]
      exact resolveN_setNode_ne m h _ j hjh
    · rw [hcount1]
      simp [BTM.setNode]
    · right
      refine ⟨mk2, mv2, rh, hsL, hsR, lL, lR, hsp2, by simp, hldec, hrepL, hrepR,
        hperm, ?_⟩
      intro j n2 hj hres2
      have hj2 : j = h ∨ j = rh := by
        have := hperm.mem_iff.mp hj
        simpa using this
      rcases hj2 with hjh | hjrh
      · subst hjh
        have := hcapL n2 hres2
        omega
      · subst hjrh
        have := hcapR n2 hres2
        omega

/-- Rebuilding the representation of an internal node after the subtree
under edge `d` was rewritten in place, the other subtrees untouched. -/
theorem rep_internal_replace_child (s s2 : List (Option (BNode K V)))
    (ht0 h : Nat) (n : BNode K V)
    (subs : List (List (K × V))) (subhs : List (List Nat)) (d : Nat)
    (lc : List (K × V)) (hsc : List Nat)
    (hres2 : s2.getD h none = some n)
    (helen : n.edges.length = n.keys.length + 1)
    (hvlen : n.vals.length = n.keys.length)
    (hslen : subs.length = n.edges.length)
    (hhslen : subhs.length = n.edges.length)
    (hch : ∀ i, i < n.edges.length →
      Rep s ht0 (n.edges.getD i 0) (subs.getD i []) (subhs.getD i []))
    (hd : d < n.edges.length)
    (hndflat : subhs.flatten.Nodup)
    (hchd : Rep s2 ht0 (n.edges.getD d 0) lc hsc)
    (hframe : ∀ x, x ∈ subhs.flatten → x ∉ subhs.getD d [] →
      s2.getD x none = s.getD x none) :
    Rep s2 (ht0 + 1) h (glue (n.keys.zip n.vals) (subs.set d lc))
      (h :: (subhs.set d hsc).flatten) := by
  refine Rep.internal ht0 h n (subs.set d lc) (subhs.set d hsc) hres2 helen hvlen
    (by rw [List.length_set]; exact hslen) (by rw [List.length_set]; exact hhslen) ?_
  intro i hi
  by_cases hid : i = d
  · subst hid
    rw [getD_set_self subs i lc [] (by omega), getD_set_self subhs i hsc [] (by omega)]
    exact hchd
  · rw [getD_set_ne subs d i lc [] (Ne.symm hid), getD_set_ne subhs d i hsc [] (Ne.symm hid)]
    apply (hch i hi).frame
    intro x hx
    apply hframe
    · refine List.mem_flatten.mpr ⟨subhs.getD i [], ?_, hx⟩
      have his : i < subhs.length := by omega
      rw [List.getD_eq_getElem?_getD, List.getElem?_eq_getElem his]
      exact List.getElem_mem his
    · intro hxd
      exact nodup_flatten_parts_disjoint subhs hndflat i d (by omega) (by omega) hid x hx hxd

/-- Rebuilding the representation of an internal node after the subtree
under edge `d` was split into two subtrees with a promoted median
absorbed into the node. -/
theorem rep_internal_absorb (s s2 : List (Option (BNode K V)))
    (ht0 h : Nat) (n : BNode K V)
    (subs : List (List (K × V))) (subhs : List (List Nat)) (d : Nat)
    (mk2 : K) (mv2 : V) (rh : Nat)
    (lL lR : List (K × V)) (hsL hsR : List Nat)
    (hres2 : s2.getD h none = some
      ⟨n.keys.insertIdx d mk2, n.vals.insertIdx d mv2, n.edges.insertIdx (d + 1) rh⟩)
    (helen : n.edges.length = n.keys.length + 1)
    (hvlen : n.vals.length = n.keys.length)
    (hslen : subs.length = n.edges.length)
    (hhslen : subhs.length = n.edges.length)
    (hch : ∀ i, i < n.edges.length →
      Rep s ht0 (n.edges.getD i 0) (subs.getD i []) (subhs.getD i []))
    (hd : d ≤ n.keys.length)
    (hndflat : subhs.flatten.Nodup)
    (hchL : Rep s2 ht0 (n.edges.getD d 0) lL hsL)
    (hchR : Rep s2 ht0 rh lR hsR)
    (hframe : ∀ x, x ∈ subhs.flatten → x ∉ subhs.getD d [] →
      s2.getD x none = s.getD x none) :
    Rep s2 (ht0 + 1) h
      (glue ((n.keys.insertIdx d mk2).zip (n.vals.insertIdx d mv2))
        (List.insertIdx (d + 1) lR (subs.set d lL)))
      (h :: (List.insertIdx (d + 1) hsR (subhs.set d hsL)).flatten) := by
  have hframe_other : ∀ i, i < n.edges.length → i ≠ d →
      Rep s2 ht0 (n.edges.getD i 0) (subs.getD i []) (subhs.getD i []) := by
    intro i hi hid
    apply (hch i hi).frame
    intro x hx
    apply hframe
    · refine List.mem_flatten.mpr ⟨subhs.getD i [], ?_, hx⟩
      have his : i < subhs.length := by omega
      rw [List.getD_eq_getElem?_getD, List.getElem?_eq_getElem his]
      exact List.getElem_mem his
    · intro hxd
      exact nodup_flatten_parts_disjoint subhs hndflat i d (by omega) (by omega) hid x hx hxd
  have hkl : (n.keys.insertIdx d mk2).length = n.keys.length + 1 :=
    List.length_insertIdx d n.keys hd
  have hvl : (n.vals.insertIdx d mv2).length = n.vals.length + 1 :=
    List.length_insertIdx d n.vals (by omega)
  have hel : (n.edges.insertIdx (d + 1) rh).length = n.edges.length + 1 :=
    List.length_insertIdx (d + 1) n.edges (by omega)
  have hsl : (List.insertIdx (d + 1) lR (subs.set d lL)).length = subs.length + 1 := by
    rw [List.length_insertIdx (d + 1) _ (by rw [List.length_set]; omega), List.length_set]
  have hhsl : (List.insertIdx (d + 1) hsR (subhs.set d hsL)).length = subhs.length + 1 := by
    rw [List.length_insertIdx (d + 1) _ (by rw [List.length_set]; omega), List.length_set]
  have hr := Rep.internal (s := s2) ht0 h
    ⟨n.keys.insertIdx d mk2, n.vals.insertIdx d mv2, n.edges.insertIdx (d + 1) rh⟩
    (List.insertIdx (d + 1) lR (subs.set d lL))
    (List.insertIdx (d + 1) hsR (subhs.set d hsL))
    hres2
    (by show (n.edges.insertIdx (d + 1) rh).length = (n.keys.insertIdx d mk2).length + 1
        rw [hel, hkl, helen])
    (by show (n.vals.insertIdx d mv2).length = (n.keys.insertIdx d mk2).length
        rw [hvl, hkl, hvlen])
    (by show (List.insertIdx (d + 1) lR (subs.set d lL)).length
          = (n.edges.insertIdx (d + 1) rh).length
        rw [hsl, hel, hslen])
    (by show (List.insertIdx (d + 1) hsR (subhs.set d hsL)).length
          = (n.edges.insertIdx (d + 1) rh).length
        rw [hhsl, hel, hhslen])
    ?_
  · exact hr
  · intro i hi
    have hie : i < (n.edges.insertIdx (d + 1) rh).length := hi
    rw [hel] at hie
    show Rep s2 ht0 ((n.edges.insertIdx (d + 1) rh).getD i 0)
      ((List.insertIdx (d + 1) lR (subs.set d lL)).getD i [])
      ((List.insertIdx (d + 1) hsR (subhs.set d hsL)).getD i [])
    rcases Nat.lt_trichotomy i (d + 1) with hcmp | hcmp | hcmp
    · -- i ≤ d: untouched children below the split point, or the left half at d
      rw [getD_insertIdx_lt rh 0 i (d + 1) n.edges hcmp,
        getD_insertIdx_lt lR [] i (d + 1) _ hcmp,
        getD_insertIdx_lt hsR [] i (d + 1) _ hcmp]
      by_cases hid : i = d
      · subst hid
        rw [getD_set_self subs i lL [] (by omega), getD_set_self subhs i hsL [] (by omega)]
        exact hchL
      · rw [getD_set_ne subs d i lL [] (Ne.symm hid), getD_set_ne subhs d i hsL [] (Ne.symm hid)]
        exact hframe_other i (by omega) hid
    · -- i = d + 1: the fresh right half
      subst hcmp
      rw [getD_insertIdx_self rh 0 (d + 1) n.edges (by omega),
        getD_insertIdx_self lR [] (d + 1) _ (by rw [List.length_set]; omega),
        getD_insertIdx_self hsR [] (d + 1) _ (by rw [List.length_set]; omega)]
      exact hchR
    · -- i > d + 1: untouched children above the split point, shifted by one
      rw [getD_insertIdx_gt rh 0 (d + 1) n.edges i hcmp,
        getD_insertIdx_gt lR [] (d + 1) _ i hcmp,
        getD_insertIdx_gt hsR [] (d + 1) _ i hcmp,
        getD_set_ne subs d (i - 1) lL [] (by omega),
        getD_set_ne subhs d (i - 1) hsL [] (by omega)]
      exact hframe_other (i - 1) (by omega) (by omega)

theorem insGo_internal_notfound (B : Nat) (hB : 2 ≤ B) (k : K) (v : V) (fuel : Nat)
    (ih : ∀ (m : BTM K V) (h ht : Nat) (l : List (K × V)) (hs : List Nat),
      Rep m.store ht h l hs →
      List.Pairwise (· < ·) (l.map Prod.fst) →
      hs.Nodup →
      ht < fuel →
      FreeOK m →
      SubCap B m h hs →
      InsGoPost B k v fuel m h ht l hs)
    (m : BTM K V) (h : Nat) (n : BNode K V) (ht0 : Nat)
    (subs : List (List (K × V))) (subhs : List (List Nat)) (d : Nat)
    (hresolve : m.resolveN h = some n)
    (helen : n.edges.length = n.keys.length + 1)
    (hvlen : n.vals.length = n.keys.length)
    (hslen : subs.length = n.edges.length)
    (hhslen : subhs.length = n.edges.length)
    (hch : ∀ i, i < n.edges.length →
      Rep m.store ht0 (n.edges.getD i 0) (subs.getD i []) (subhs.getD i []))
    (hsort : List.Pairwise (· < ·) ((glue (n.keys.zip n.vals) subs).map Prod.fst))
    (hnd : (h :: subhs.flatten).Nodup)
    (hf : ht0 + 1 < fuel + 1)
    (hfree : FreeOK m)
    (hfill : SubCap B m h (h :: subhs.flatten))
    (hlive : h < m.store.length)
    (hnotfree : h ∉ m.free)
    (hd2 : d ≤ n.keys.length)
    (hbelow : ∀ e, e < d → ∃ ke, n.keys.get? e = some ke ∧ ke < k)
    (hstop : d = n.keys.length ∨ ∃ kp, n.keys.get? d = some kp ∧ k < kp)
    (hflag : (scanKeys k n.keys 0).2 = false)
    (hd1 : (scanKeys k n.keys 0).1 = d) :
    InsGoPost B k v (fuel + 1) m h (ht0 + 1) (glue (n.keys.zip n.vals) subs)
      (h :: subhs.flatten) := by
  -- conditions of the computation path
  have hcond1 : ¬ ((scanKeys k n.keys 0).2 = true) := by
    rw [hflag]
    simp
  have hene : n.edges ≠ [] := by
    intro hc
    rw [hc] at helen
    simp at helen
  have hcond2 : ¬ (n.edges.isEmpty = true) := by
    cases hedges : n.edges with
    | nil => exact absurd hedges hene
    | cons a t => simp
  have hd2' : d < n.edges.length := by omega
  obtain ⟨c, hcget⟩ := get_of_lt n.edges d (by omega)
  have hcD : n.edges.getD d 0 = c := by
    rw [List.getD_eq_getElem?_getD, ← List.get?_eq_getElem?, hcget]
    rfl
  -- decomposition of the glued sequence around edge d
  have hxslen : (n.keys.zip n.vals).length = n.keys.length := by
    simp [List.length_zip, hvlen]
  obtain ⟨pre, post, heq, hset, hsplit, hpre, hpost⟩ :=
    glue_decompose k d (n.keys.zip n.vals) subs (by omega)
      (by rw [hslen, helen, hxslen])
      hsort
      (by
        intro e xe he hxe
        obtain ⟨ke, hke, hkelt⟩ := hbelow e he
        have h1 := zip_get_fst hxe
        rw [hke] at h1
        exact (Option.some.inj h1) ▸ hkelt)
      (by
        intro xd hxd
        rcases hstop with hcase | ⟨kp, hkp, hkplt⟩
        · have h2 := lt_length_of_get (zip_get_fst hxd)
          omega
        · have h1 := zip_get_fst hxd
          rw [hkp] at h1
          exact (Option.some.inj h1) ▸ hkplt)
  have hndflat : subhs.flatten.Nodup := (List.nodup_cons.mp hnd).2
  have hh_not_flat : h ∉ subhs.flatten := (List.nodup_cons.mp hnd).1
  have hds : d < subhs.length := by omega
  have hpartmem : subhs.getD d [] ∈ subhs := by
    rw [List.getD_eq_getElem?_getD, List.getElem?_eq_getElem hds]
    exact List.getElem_mem hds
  have hmemflat : ∀ x, x ∈ subhs.getD d [] → x ∈ subhs.flatten :=
    fun x hx => List.mem_flatten.mpr ⟨subhs.getD d [], hpartmem, hx⟩
  have hflat_live : ∀ x, x ∈ subhs.flatten → (m.resolveN x).isSome := by
    intro x hx
    obtain ⟨part, hpart, hxp⟩ := List.mem_flatten.mp hx
    obtain ⟨i, hi, hgi⟩ := List.mem_iff_getElem.mp hpart
    exact (hch i (by omega)).live x
      (by rw [List.getD_eq_getElem?_getD, List.getElem?_eq_getElem hi, hgi]; exact hxp)
  have hh_notc : h ∉ subhs.getD d [] := fun hc => hh_not_flat (hmemflat h hc)
  -- the child representation and its invariants
  have hrepc : Rep m.store ht0 c (subs.getD d []) (subhs.getD d []) := by
    rw [← hcD]
    exact hch d hd2'
  have hinmid : (subs.getD d []).Sublist (glue (n.keys.zip n.vals) subs) := by
    rw [heq]
    exact (List.sublist_append_right pre _).trans (List.sublist_append_left _ post)
  have hsortc : List.Pairwise (· < ·) ((subs.getD d []).map Prod.fst) :=
    List.Pairwise.sublist (hinmid.map Prod.fst) hsort
  have hndc : (subhs.getD d []).Nodup :=
    List.Nodup.sublist (part_sublist_flatten subhs d hds) hndflat
  have hsubcapc : SubCap B m c (subhs.getD d []) := by
    intro j n2 hj hres2
    have hjflat := hmemflat j hj
    have hjh : j ≠ h := fun hc => hh_not_flat (hc ▸ hjflat)
    have hb := hfill j n2 (by simp [hjflat]) hres2
    exact ⟨hb.1, fun _ => hb.2 hjh⟩
  have Hc := ih m c ht0 (subs.getD d []) (subhs.getD d []) hrepc hsortc hndc (by omega)
    hfree hsubcapc
  unfold InsGoPost at Hc
  obtain ⟨hval_c, hroot_c, hhlen_c, hslen_c, hfree_c, A_c, hAnd, hAdead, hAframe,
    hAcount, hcase⟩ := Hc
  -- lookup and ordered-insert locality
  have hlookloc : lookupKV k (glue (n.keys.zip n.vals) subs)
      = lookupKV k (subs.getD d []) := by
    rw [heq, List.append_assoc, lookupKV_append_left_lt k pre _ hpre,
      lookupKV_append_right_gt k _ post hpost]
  have hliloc : listInsert k v (glue (n.keys.zip n.vals) subs)
      = pre ++ listInsert k v (subs.getD d []) ++ post := by
    rw [heq, List.append_assoc, listInsert_append_left k v pre _ hpre,
      listInsert_append_right k v _ post hpost, ← List.append_assoc]
  -- the parent handle is outside the child subtree
  have hh_notA : h ∉ A_c := by
    intro hc
    rw [hAdead h hc] at hresolve
    exact Option.noConfusion hresolve
  have hreshn : (insGo B fuel m c k v).2.1.resolveN h = some n := by
    rw [hAframe h hh_notc hh_notA]
    exact hresolve
  have hliver : h < (insGo B fuel m c k v).2.1.store.length :=
    lt_of_lt_of_le hlive hslen_c
  -- frame from the initial state for handles outside the child subtree
  have hframe_mr : ∀ x, x ∈ subhs.flatten → x ∉ subhs.getD d [] →
      (insGo B fuel m c k v).2.1.resolveN x = m.resolveN x := by
    intro x hx hxc
    have hxA : x ∉ A_c := by
      intro hc
      have hdx := hAdead x hc
      have hlx := hflat_live x hx
      rw [hdx] at hlx
      simp at hlx
    exact hAframe x hxc hxA
  have hfill_flat : ∀ j n2, j ∈ subhs.flatten → m.resolveN j = some n2 →
      n2.keys.length ≤ 2 * B - 1 ∧ B - 1 ≤ n2.keys.length := by
    intro j n2 hj hres2
    have hjh : j ≠ h := fun hc => hh_not_flat (hc ▸ hj)
    have hb := hfill j n2 (by simp [hj]) hres2
    exact ⟨hb.1, hb.2 hjh⟩
  -- decomposition of the flattened handle parts around d
  obtain ⟨F1, F2, hfeq, hfset, hfins⟩ := flatten_set_decomp d subhs hds
  have hnd3 : (F1 ++ (subhs.getD d [] ++ F2)).Nodup := by
    rw [← List.append_assoc, ← hfeq]
    exact hndflat
  obtain ⟨hndF1, hnd5, hdisj1⟩ := List.nodup_append.mp hnd3
  obtain ⟨hndch0, hndF2, hdisj2⟩ := List.nodup_append.mp hnd5
  have hF1_flat : ∀ j, j ∈ F1 → j ∈ subhs.flatten := by
    intro j hj
    rw [hfeq]
    exact List.mem_append_left _ (List.mem_append_left _ hj)
  have hF2_flat : ∀ j, j ∈ F2 → j ∈ subhs.flatten := by
    intro j hj
    rw [hfeq]
    exact List.mem_append_right _ hj
  have hF1_notc : ∀ j, j ∈ F1 → j ∉ subhs.getD d [] := by
    intro j hj hjc
    exact hdisj1 hj (List.mem_append_left _ hjc)
  have hF2_notc : ∀ j, j ∈ F2 → j ∉ subhs.getD d [] := by
    intro j hj hjc
    exact hdisj2 hjc hj
  rcases hcase with ⟨hs2c, hpromoc, hrepc2, hpermc, hsubcapc2, hcaphc⟩ |
    ⟨mk2, mv2, rh, hsLc, hsRc, lLc, lRc, hpromoc, hrhA, hlic, hrepLc, hrepRc, hpermc,
      hcapallc⟩
  · -- the child absorbed the insert without promoting
    have hcomp : insGo B (fuel + 1) m h k v
        = ((insGo B fuel m c k v).1, (insGo B fuel m c k v).2.1, none) := by
      rw [insGo]
      simp only [hresolve]
      rw [if_neg hcond1, if_neg hcond2, hd1]
      simp only [hcget, hpromoc]
    have hframe_s : ∀ x, x ∈ subhs.flatten → x ∉ subhs.getD d [] →
        (insGo B fuel m c k v).2.1.store.getD x none = m.store.getD x none := by
      intro x hx hxc
      exact hframe_mr x hx hxc
    have hrepP : Rep (insGo B fuel m c k v).2.1.store (ht0 + 1) h
        (glue (n.keys.zip n.vals) (subs.set d (listInsert k v (subs.getD d []))))
        (h :: (subhs.set d hs2c).flatten) :=
      rep_internal_replace_child m.store (insGo B fuel m c k v).2.1.store ht0 h n
        subs subhs d (listInsert k v (subs.getD d [])) hs2c hreshn helen hvlen hslen
        hhslen hch hd2' hndflat (by rw [hcD]; exact hrepc2) hframe_s
    have hrepP2 : Rep (insGo B fuel m c k v).2.1.store (ht0 + 1) h
        (listInsert k v (glue (n.keys.zip n.vals) subs))
        (h :: (subhs.set d hs2c).flatten) := by
      rw [hliloc, ← hset (listInsert k v (subs.getD d []))]
      exact hrepP
    have hpermP : (h :: (subhs.set d hs2c).flatten).Perm
        ((h :: subhs.flatten) ++ A_c) := by
      rw [hfset hs2c]
      have hmid := perm_insert_mid F1 hs2c (subhs.getD d []) F2 A_c hpermc
      rw [← hfeq] at hmid
      exact hmid.cons h
    unfold InsGoPost
    rw [hcomp]
    refine ⟨by rw [hlookloc]; exact hval_c, hroot_c, hhlen_c, hslen_c, hfree_c,
      A_c, hAnd, hAdead, ?_, hAcount, ?_⟩
    · intro j hj1 hj2
      apply hAframe j _ hj2
      intro hjc
      exact hj1 (by simp [hmemflat j hjc])
    · left
      refine ⟨h :: (subhs.set d hs2c).flatten, rfl, hrepP2, hpermP, ?_, ?_⟩
      · -- fill bounds of the rebuilt subtree
        intro j n2 hj hres2
        rcases List.mem_cons.mp hj with rfl | hjf
        · rw [hreshn] at hres2
          rw [← Option.some.inj hres2]
          exact ⟨(hfill j n (by simp) hresolve).1, fun hc => absurd rfl hc⟩
        · rw [hfset hs2c] at hjf
          rcases List.mem_append.mp hjf with hj12 | hj3
          · rcases List.mem_append.mp hj12 with hj1 | hj2
            · have hjflat := hF1_flat j hj1
              rw [hframe_mr j hjflat (hF1_notc j hj1)] at hres2
              have hb := hfill_flat j n2 hjflat hres2
              exact ⟨hb.1, fun _ => hb.2⟩
            · by_cases hjc : j = c
              · subst hjc
                obtain ⟨hle, hmono⟩ := hcaphc n2 hres2
                refine ⟨hle, fun _ => ?_⟩
                have hcmem : j ∈ subhs.getD d [] := hrepc.head_mem
                have hjlive := hflat_live j (hmemflat j hcmem)
                rcases hres0 : m.resolveN j with _ | n0
                · rw [hres0] at hjlive
                  simp at hjlive
                · have hjh : j ≠ h := fun hc => hh_not_flat (hc ▸ hmemflat j hcmem)
                  have hb := (hfill j n0 (by simp [hmemflat j hcmem]) hres0).2 hjh
                  have hm := hmono n0 hres0
                  omega
              · have hb := hsubcapc2 j n2 hj2 hres2
                exact ⟨hb.1, fun _ => hb.2 hjc⟩
          · have hjflat := hF2_flat j hj3
            rw [hframe_mr j hjflat (hF2_notc j hj3)] at hres2
            have hb := hfill_flat j n2 hjflat hres2
            exact ⟨hb.1, fun _ => hb.2⟩
      · -- capacity of the node at h, unchanged
        intro n2 hres2
        rw [hreshn] at hres2
        rw [← Option.some.inj hres2]
        refine ⟨(hfill h n (by simp) hresolve).1, ?_⟩
        intro n0 hres0b
        rw [hresolve] at hres0b
        rw [← Option.some.inj hres0b]
  · -- the split of the child promotes a median into this node
    have hh_notLR : h ∉ hsLc ++ hsRc := by
      intro hc
      rcases List.mem_append.mp ((hpermc.mem_iff).mp hc) with h1 | h2
      · exact hh_notc h1
      · exact hh_notA h2
    have hLR_live : ∀ x, x ∈ hsLc ++ hsRc →
        ((insGo B fuel m c k v).2.1.resolveN x).isSome := by
      intro x hx
      rcases List.mem_append.mp hx with h1 | h2
      · exact hrepLc.live x h1
      · exact hrepRc.live x h2
    have hcomp : insGo B (fuel + 1) m h k v
        = ((insGo B fuel m c k v).1,
           (splitIfOver B ((insGo B fuel m c k v).2.1.setNode h
             ⟨n.keys.insertIdx d mk2, n.vals.insertIdx d mv2,
              n.edges.insertIdx (d + 1) rh⟩) h).1,
           (splitIfOver B ((insGo B fuel m c k v).2.1.setNode h
             ⟨n.keys.insertIdx d mk2, n.vals.insertIdx d mv2,
              n.edges.insertIdx (d + 1) rh⟩) h).2) := by
      rw [insGo]
      simp only [hresolve]
      rw [if_neg hcond1, if_neg hcond2, hd1]
      simp only [hcget, hpromoc, hreshn]
    have hrescomb : ((insGo B fuel m c k v).2.1.setNode h
        ⟨n.keys.insertIdx d mk2, n.vals.insertIdx d mv2,
         n.edges.insertIdx (d + 1) rh⟩).resolveN h
        = some ⟨n.keys.insertIdx d mk2, n.vals.insertIdx d mv2,
            n.edges.insertIdx (d + 1) rh⟩ :=
      resolveN_setNode_self _ h _ hliver
    have hframe_s2 : ∀ x, x ∈ subhs.flatten → x ∉ subhs.getD d [] →
        ((insGo B fuel m c k v).2.1.setNode h
          ⟨n.keys.insertIdx d mk2, n.vals.insertIdx d mv2,
           n.edges.insertIdx (d + 1) rh⟩).store.getD x none
          = m.store.getD x none := by
      intro x hx hxc
      have hxh : x ≠ h := fun hc => hh_not_flat (hc ▸ hx)
      exact (resolveN_setNode_ne _ h _ x hxh).trans (hframe_mr x hx hxc)
    have hchL2 : Rep ((insGo B fuel m c k v).2.1.setNode h
        ⟨n.keys.insertIdx d mk2, n.vals.insertIdx d mv2,
         n.edges.insertIdx (d + 1) rh⟩).store ht0 (n.edges.getD d 0) lLc hsLc := by
      rw [hcD]
      apply hrepLc.frame
      intro x hx
      have hxh : x ≠ h := fun hc => hh_notLR (hc ▸ List.mem_append_left hsRc hx)
      exact resolveN_setNode_ne _ h _ x hxh
    have hchR2 : Rep ((insGo B fuel m c k v).2.1.setNode h
        ⟨n.keys.insertIdx d mk2, n.vals.insertIdx d mv2,
         n.edges.insertIdx (d + 1) rh⟩).store ht0 rh lRc hsRc := by
      apply hrepRc.frame
      intro x hx
      have hxh : x ≠ h := fun hc => hh_notLR (hc ▸ List.mem_append_right hsLc hx)
      exact resolveN_setNode_ne _ h _ x hxh
    have hrepAbs := rep_internal_absorb m.store
      ((insGo B fuel m c k v).2.1.setNode h
        ⟨n.keys.insertIdx d mk2, n.vals.insertIdx d mv2,
         n.edges.insertIdx (d + 1) rh⟩).store
      ht0 h n subs subhs d mk2 mv2 rh lLc lRc hsLc hsRc
      hrescomb helen hvlen hslen hhslen hch hd2 hndflat hchL2 hchR2 hframe_s2
    have hglueAbs : glue ((n.keys.insertIdx d mk2).zip (n.vals.insertIdx d mv2))
        (List.insertIdx (d + 1) lRc (subs.set d lLc))
        = listInsert k v (glue (n.keys.zip n.vals) subs) := by
      rw [zip_insertIdx_both mk2 mv2 d n.keys n.vals hd2 hvlen,
        hsplit (mk2, mv2) lLc lRc, hliloc, hlic]
    have hrepPre : Rep ((insGo B fuel m c k v).2.1.setNode h
        ⟨n.keys.insertIdx d mk2, n.vals.insertIdx d mv2,
         n.edges.insertIdx (d + 1) rh⟩).store (ht0 + 1) h
        (listInsert k v (glue (n.keys.zip n.vals) subs))
        (h :: (List.insertIdx (d + 1) hsRc (subhs.set d hsLc)).flatten) := by
      rw [← hglueAbs]
      exact hrepAbs
    have hflatperm : ((List.insertIdx (d + 1) hsRc (subhs.set d hsLc)).flatten).Perm
        (subhs.flatten ++ A_c) := by
      rw [hfins hsLc hsRc]
      have hmid := perm_insert_mid F1 (hsLc ++ hsRc) (subhs.getD d []) F2 A_c hpermc
      rw [← hfeq] at hmid
      have hassoc : F1 ++ (hsLc ++ hsRc) ++ F2 = F1 ++ hsLc ++ hsRc ++ F2 := by
        simp [List.append_assoc]
      rw [hassoc] at hmid
      exact hmid
    have hACdisj : subhs.flatten.Disjoint A_c := by
      intro a ha haA
      have hdx := hAdead a haA
      have hlx := hflat_live a ha
      rw [hdx] at hlx
      simp at hlx
    have hndflat' : ((List.insertIdx (d + 1) hsRc (subhs.set d hsLc)).flatten).Nodup :=
      (hflatperm.nodup_iff).mpr (List.Nodup.append hndflat hAnd hACdisj)
    have hh_notflat' : h ∉ (List.insertIdx (d + 1) hsRc (subhs.set d hsLc)).flatten := by
      intro hc
      rcases List.mem_append.mp (hflatperm.mem_iff.mp hc) with h1 | h2
      · exact hh_not_flat h1
      · exact hh_notA h2
    have hnd' : (h :: (List.insertIdx (d + 1) hsRc (subhs.set d hsLc)).flatten).Nodup :=
      List.nodup_cons.mpr ⟨hh_notflat', hndflat'⟩
    have hcap' : (n.keys.insertIdx d mk2).length ≤ 2 * B := by
      rw [List.length_insertIdx d n.keys hd2]
      have hb := (hfill h n (by simp) hresolve).1
      omega
    have hh_notfree_r : h ∉ (insGo B fuel m c k v).2.1.free := by
      intro hc
      rw [hfree_c.2.1 h hc] at hreshn
      exact Option.noConfusion hreshn
    have hfree_m2 : FreeOK ((insGo B fuel m c k v).2.1.setNode h
        ⟨n.keys.insertIdx d mk2, n.vals.insertIdx d mv2,
         n.edges.insertIdx (d + 1) rh⟩) :=
      setNode_freeOK _ h _ hfree_c hh_notfree_r
    have hflat'_live : ∀ x, x ∈ (List.insertIdx (d + 1) hsRc (subhs.set d hsLc)).flatten →
        ((insGo B fuel m c k v).2.1.resolveN x).isSome := by
      intro x hx
      rw [hfins hsLc hsRc] at hx
      rcases List.mem_append.mp hx with h123 | h4
      · rcases List.mem_append.mp h123 with h12 | h3
        · rcases List.mem_append.mp h12 with h1 | h2
          · have hxflat := hF1_flat x h1
            rw [hframe_mr x hxflat (hF1_notc x h1)]
            exact hflat_live x hxflat
          · exact hLR_live x (List.mem_append_left _ h2)
        · exact hLR_live x (List.mem_append_right _ h3)
      · have hxflat := hF2_flat x h4
        rw [hframe_mr x hxflat (hF2_notc x h4)]
        exact hflat_live x hxflat
    have hflat'_bounds : ∀ j n2,
        j ∈ (List.insertIdx (d + 1) hsRc (subhs.set d hsLc)).flatten →
        (insGo B fuel m c k v).2.1.resolveN j = some n2 →
        B - 1 ≤ n2.keys.length ∧ n2.keys.length ≤ 2 * B - 1 := by
      intro j n2 hj hres2
      rw [hfins hsLc hsRc] at hj
      rcases List.mem_append.mp hj with h123 | h4
      · rcases List.mem_append.mp h123 with h12 | h3
        · rcases List.mem_append.mp h12 with h1 | h2
          · have hjflat := hF1_flat j h1
            rw [hframe_mr j hjflat (hF1_notc j h1)] at hres2
            have hb := hfill_flat j n2 hjflat hres2
            exact ⟨hb.2, hb.1⟩
          · exact hcapallc j n2 (List.mem_append_left _ h2) hres2
        · exact hcapallc j n2 (List.mem_append_right _ h3) hres2
      · have hjflat := hF2_flat j h4
        rw [hframe_mr j hjflat (hF2_notc j h4)] at hres2
        have hb := hfill_flat j n2 hjflat hres2
        exact ⟨hb.2, hb.1⟩
    rcases splitIfOver_spec B (by omega)
        ((insGo B fuel m c k v).2.1.setNode h
          ⟨n.keys.insertIdx d mk2, n.vals.insertIdx d mv2,
           n.edges.insertIdx (d + 1) rh⟩)
        h (ht0 + 1) (listInsert k v (glue (n.keys.zip n.vals) subs))
        (h :: (List.insertIdx (d + 1) hsRc (subhs.set d hsLc)).flatten)
        ⟨n.keys.insertIdx d mk2, n.vals.insertIdx d mv2, n.edges.insertIdx (d + 1) rh⟩
        hrescomb hrepPre hnd' hcap' hfree_m2 with
      ⟨hsp1, hsp2, hspcap⟩ |
      ⟨pk2, pv2, rh2, hsL2, hsR2, lL2, lR2, hsp2', hlen2B2, hldec2, hrepL2, hrepR2,
        hheadL2, hperm2, hrh2dead, hframe2, hroot2, hhlen2, hcount2, hslen2, hfree3,
        hcapL2, hcapR2⟩
    · -- the extended node still fits
      unfold InsGoPost
      rw [hcomp]
      refine ⟨by rw [hlookloc]; exact hval_c, ?_, ?_, ?_, ?_, A_c, hAnd, hAdead,
        ?_, ?_, ?_⟩
      · rw [hsp1]
        exact hroot_c
      · rw [hsp1]
        exact hhlen_c
      · rw [hsp1, setNode_store_length]
        exact hslen_c
      · rw [hsp1]
        exact hfree_m2
      · intro j hj1 hj2
        have hjh : j ≠ h := fun hc => hj1 (by simp [hc])
        rw [hsp1, resolveN_setNode_ne _ h _ j hjh]
        apply hAframe j _ hj2
        intro hjc
        exact hj1 (by simp [hmemflat j hjc])
      · rw [hsp1]
        exact hAcount
      · left
        refine ⟨h :: (List.insertIdx (d + 1) hsRc (subhs.set d hsLc)).flatten,
          hsp2, by rw [hsp1]; exact hrepPre, hflatperm.cons h, ?_, ?_⟩
        · intro j n2 hj hres2
          rw [hsp1] at hres2
          rcases List.mem_cons.mp hj with rfl | hjf
          · rw [hrescomb] at hres2
            rw [← Option.some.inj hres2]
            exact ⟨hspcap, fun hc => absurd rfl hc⟩
          · have hjh : j ≠ h := fun hc => hh_notflat' (hc ▸ hjf)
            rw [resolveN_setNode_ne _ h _ j hjh] at hres2
            have hb := hflat'_bounds j n2 hjf hres2
            exact ⟨hb.2, fun _ => hb.1⟩
        · intro n2 hres2
          rw [hsp1, hrescomb] at hres2
          rw [← Option.some.inj hres2]
          refine ⟨hspcap, ?_⟩
          intro n0 hres0b
          rw [hresolve] at hres0b
          rw [← Option.some.inj hres0b]
          show n.keys.length ≤ (n.keys.insertIdx d mk2).length
          rw [List.length_insertIdx d n.keys hd2]
          omega
    · -- the extended node splits again
      have hrh2_ne_h : rh2 ≠ h := by
        intro hc
        rw [hc, hrescomb] at hrh2dead
        exact Option.noConfusion hrh2dead
      have hrh2dead_r : (insGo B fuel m c k v).2.1.resolveN rh2 = none := by
        rw [← resolveN_setNode_ne (insGo B fuel m c k v).2.1 h
          (⟨n.keys.insertIdx d mk2, n.vals.insertIdx d mv2,
            n.edges.insertIdx (d + 1) rh⟩ : BNode K V) rh2 hrh2_ne_h]
        exact hrh2dead
      have hrh2_notA : rh2 ∉ A_c := by
        intro hc
        have hlx : ((insGo B fuel m c k v).2.1.resolveN rh2).isSome := by
          apply hLR_live
          exact (hpermc.mem_iff).mpr (List.mem_append_right _ hc)
        rw [hrh2dead_r] at hlx
        simp at hlx
      have hrh2_notc : rh2 ∉ subhs.getD d [] := by
        intro hcc
        have hlx := hLR_live rh2 ((hpermc.mem_iff).mpr (List.mem_append_left _ hcc))
        rw [hrh2dead_r] at hlx
        simp at hlx
      have hrh2dead_m : m.resolveN rh2 = none := by
        rw [← hAframe rh2 hrh2_notc hrh2_notA]
        exact hrh2dead_r
      unfold InsGoPost
      rw [hcomp]
      refine ⟨by rw [hlookloc]; exact hval_c, ?_, ?_, ?_, hfree3,
        A_c ++ [rh2], ?_, ?_, ?_, ?_, ?_⟩
      · rw [hroot2]
        exact hroot_c
      · rw [hhlen2]
        exact hhlen_c
      · have h1 : m.store.length ≤ (insGo B fuel m c k v).2.1.store.length := hslen_c
        have h2 := setNode_store_length (insGo B fuel m c k v).2.1 h
          (⟨n.keys.insertIdx d mk2, n.vals.insertIdx d mv2,
            n.edges.insertIdx (d + 1) rh⟩ : BNode K V)
        exact le_trans (le_trans h1 (le_of_eq h2.symm)) hslen2
      · refine List.Nodup.append hAnd (by simp) ?_
        intro a ha hamem
        have ha2 : a = rh2 := by simpa using hamem
        exact hrh2_notA (ha2 ▸ ha)
      · intro j hj
        rcases List.mem_append.mp hj with h1 | h2
        · exact hAdead j h1
        · have hj2 : j = rh2 := by simpa using h2
          rw [hj2]
          exact hrh2dead_m
      · intro j hj1 hj2
        have hjh : j ≠ h := fun hc => hj1 (by simp [hc])
        have hjrh2 : j ≠ rh2 := fun hc => hj2 (by rw [hc]; simp)
        have hjA : j ∉ A_c := fun hc => hj2 (List.mem_append_left _ hc)
        have hjc : j ∉ subhs.getD d [] := fun hc => hj1 (by simp [hmemflat j hc])
        rw [hframe2 j hjh hjrh2, resolveN_setNode_ne _ h _ j hjh]
        exact hAframe j hjc hjA
      · rw [hcount2,
          show ((insGo B fuel m c k v).2.1.setNode h
            (⟨n.keys.insertIdx d mk2, n.vals.insertIdx d mv2,
              n.edges.insertIdx (d + 1) rh⟩ : BNode K V)).nodeCount
            = m.nodeCount + A_c.length from hAcount, List.length_append]
        simp only [List.length_singleton]
        omega
      · right
        refine ⟨pk2, pv2, rh2, hsL2, hsR2, lL2, lR2, hsp2', by simp, hldec2,
          hrepL2, hrepR2, ?_, ?_⟩
        · have hstep : ((h :: (List.insertIdx (d + 1) hsRc (subhs.set d hsLc)).flatten)
              ++ [rh2]).Perm ((h :: subhs.flatten) ++ (A_c ++ [rh2])) := by
            have h1 : ((h :: (List.insertIdx (d + 1) hsRc (subhs.set d hsLc)).flatten)
                ++ [rh2]).Perm ((h :: (subhs.flatten ++ A_c)) ++ [rh2]) :=
              List.Perm.append (hflatperm.cons h) (List.Perm.refl [rh2])
            have h2 : (h :: (subhs.flatten ++ A_c)) ++ [rh2]
                = (h :: subhs.flatten) ++ (A_c ++ [rh2]) := by
              simp [List.append_assoc]
            rw [h2] at h1
            exact h1
          exact hperm2.trans hstep
        · intro j n2 hj hres2
          rcases List.mem_append.mp (hperm2.mem_iff.mp hj) with hj1 | hj2
          · rcases List.mem_cons.mp hj1 with rfl | hjf
            · have hc2 := hcapL2 n2 hres2
              omega
            · have hjh : j ≠ h := fun hc => hh_notflat' (hc ▸ hjf)
              have hjlive := hflat'_live j hjf
              have hjrh2 : j ≠ rh2 := by
                intro hc
                rw [hc, hrh2dead_r] at hjlive
                simp at hjlive
              rw [hframe2 j hjh hjrh2, resolveN_setNode_ne _ h _ j hjh] at hres2
              exact hflat'_bounds j n2 hjf hres2
          · have hj2' : j = rh2 := by simpa using hj2
            subst hj2'
            have hc2 := hcapR2 n2 hres2
            omega

theorem insGo_spec (B : Nat) (hB : 2 ≤ B) (k : K) (v : V) :
    ∀ (fuel : Nat) (m : BTM K V) (h ht : Nat) (l : List (K × V)) (hs : List Nat),
      Rep m.store ht h l hs →
      List.Pairwise (· < ·) (l.map Prod.fst) →
      hs.Nodup →
      ht < fuel →
      FreeOK m →
      SubCap B m h hs →
      InsGoPost B k v fuel m h ht l hs := by
  intro fuel
  induction fuel with
  | zero =>
    intro m h ht l hs _ _ _ hf
    omega
  | succ fuel ih =>
    intro m h ht l hs hrep hsort hnd hf hfree hfill
    have hex : ∃ n, m.resolveN h = some n := by
      cases hrep with
      | leaf h n hres0 hedge hvlen => exact ⟨n, hres0⟩
      | internal ht0 h n subs subhs hres0 helen hvlen hslen hhslen hch => exact ⟨n, hres0⟩
    obtain ⟨n, hresolve⟩ := hex
    have hlive : h < m.store.length := resolveN_lt_length m h n hresolve
    have hnotfree : h ∉ m.free := by
      intro hc
      rw [hfree.2.1 h hc] at hresolve
      exact Option.noConfusion hresolve
    have hhmem : h ∈ hs := hrep.head_mem
    obtain ⟨d, hd1, hd2, hbelow, htrue, hfalse⟩ := scanKeys_spec k n.keys 0
    have hd1w : (scanKeys k n.keys 0).1 = d := by omega
    rcases hflag : (scanKeys k n.keys 0).2 with _ | _
    · -- no exact match at this node
      cases hrep with
      | leaf h n0 hres0 hedge hvlen =>
        have hn0 : n = n0 := by
          have h2 : m.resolveN h = some n0 := hres0
          rw [hresolve] at h2
          exact Option.some.inj h2
        subst hn0
        exact insGo_leaf_notfound B hB k v fuel m h n d hresolve hedge hvlen
          hsort hfree hfill hlive hnotfree hd2 hbelow (hfalse hflag) hflag hd1w
      | internal ht0 h n0 subs subhs hres0 helen hvlen hslen hhslen hch =>
        have hn0 : n = n0 := by
          have h2 : m.resolveN h = some n0 := hres0
          rw [hresolve] at h2
          exact Option.some.inj h2
        subst hn0
        exact insGo_internal_notfound B hB k v fuel ih m h n ht0 subs subhs d
          hresolve helen hvlen hslen hhslen hch
          hsort hnd hf hfree hfill hlive hnotfree hd2 hbelow (hfalse hflag) hflag hd1w
    · -- exact match: overwrite in place
      have hkd : n.keys.get? d = some k := htrue hflag
      obtain ⟨⟨vOld, hvOld, hlook⟩, hrep2⟩ := overwrite_spec k v m h ht d l hs n
        hresolve hrep hnd hsort hkd
      have hcomp : insGo B (fuel + 1) m h k v
          = (n.vals.get? d, m.setNode h ⟨n.keys, n.vals.set d v, n.edges⟩, none) := by
        rw [insGo]
        simp only [hresolve, hflag, hd1w, if_pos]
      unfold InsGoPost
      rw [hcomp]
      refine ⟨by rw [hvOld, hlook], rfl, rfl, by rw [setNode_store_length], ?_,
        [], ?_, ?_, ?_, ?_, ?_⟩
      · exact setNode_freeOK m h _ hfree hnotfree
      · simp
      · intro j hj
        simp at hj
      · intro j hj _
        exact resolveN_setNode_ne m h _ j (fun hc => hj (hc ▸ hhmem))
      · simp [BTM.setNode]
      · left
        refine ⟨hs, rfl, hrep2, by simp, ?_, ?_⟩
        · intro j n2 hjhs hres2
          by_cases hjh : j = h
          · subst hjh
            rw [resolveN_setNode_self m j _ hlive] at hres2
            rw [← Option.some.inj hres2]
            refine ⟨(hfill j n hjhs hresolve).1, ?_⟩
            intro hc
            exact absurd rfl hc
          · rw [resolveN_setNode_ne m h _ j hjh] at hres2
            exact hfill j n2 hjhs hres2
        · intro n2 hres2
          rw [resolveN_setNode_self m h _ hlive] at hres2
          rw [← Option.some.inj hres2]
          refine ⟨(hfill h n hhmem hresolve).1, ?_⟩
          intro n0 hres0b
          rw [hresolve] at hres0b
          rw [← Option.some.inj hres0b]

end InsertProof

section RemoveHelpers

variable {K V : Type} [LinearOrder K]

theorem getD_eraseIdx_lt {A : Type} (d0 : A) :
    ∀ (i t : Nat) (l : List A), i < t →
      (l.eraseIdx t).getD i d0 = l.getD i d0 := by
  intro i
  induction i with
  | zero =>
    intro t l hit
    cases t with
    | zero => omega
    | succ t2 =>
      cases l with
      | nil => simp
      | cons a l2 => simp [List.eraseIdx]
  | succ i ih =>
    intro t l hit
    cases t with
    | zero => omega
    | succ t2 =>
      cases l with
      | nil => simp
      | cons a l2 =>
        simp only [List.eraseIdx, List.getD_cons_succ]
        exact ih t2 l2 (by omega)

theorem getD_eraseIdx_ge {A : Type} (d0 : A) :
    ∀ (t : Nat) (l : List A) (i : Nat), t ≤ i →
      (l.eraseIdx t).getD i d0 = l.getD (i + 1) d0 := by
  intro t
  induction t with
  | zero =>
    intro l i _
    cases l with
    | nil => simp
    | cons a l2 => simp [List.eraseIdx]
  | succ t ih =>
    intro l i hti
    cases l with
    | nil => simp
    | cons a l2 =>
      cases i with
      | zero => omega
      | succ i2 =>
        simp only [List.eraseIdx, List.getD_cons_succ]
        exact ih l2 i2 (by omega)

theorem getD_append_left {A : Type} (l1 l2 : List A) (i : Nat) (d : A)
    (hi : i < l1.length) : (l1 ++ l2).getD i d = l1.getD i d := by
  rw [List.getD_eq_getElem?_getD, List.getD_eq_getElem?_getD,
    List.getElem?_append_left hi]

theorem getD_append_right {A : Type} (l1 l2 : List A) (i : Nat) (d : A)
    (hi : l1.length ≤ i) : (l1 ++ l2).getD i d = l2.getD (i - l1.length) d := by
  rw [List.getD_eq_getElem?_getD, List.getD_eq_getElem?_getD,
    List.getElem?_append_right hi]

theorem getLast_decomp {A : Type} (l : List A) (hl : l ≠ []) :
    ∃ a, l.getLast? = some a ∧ l = l.dropLast ++ [a] := by
  refine ⟨l.getLast hl, List.getLast?_eq_getLast l hl, ?_⟩
  exact (List.dropLast_append_getLast hl).symm

theorem head_decomp {A : Type} (l : List A) (hl : l ≠ []) :
    ∃ a, l.head? = some a ∧ l = a :: l.tail := by
  refine ⟨l.head hl, List.head?_eq_head hl, ?_⟩
  exact (List.head_cons_tail l hl).symm

/-- Glueing distributes over an adjacent split of separators and
children. -/
theorem glue_append {A : Type} :
    ∀ (xs1 : List A) (ss1 : List (List A)) (x : A) (xs2 : List A) (ss2 : List (List A)),
      ss1.length = xs1.length + 1 →
      glue (xs1 ++ x :: xs2) (ss1 ++ ss2) = glue xs1 ss1 ++ x :: glue xs2 ss2 := by
  intro xs1
  induction xs1 with
  | nil =>
    intro ss1 x xs2 ss2 hl
    cases ss1 with
    | nil => simp at hl
    | cons s0 ss1t =>
      have hnil : ss1t = [] := by
        cases ss1t with
        | nil => rfl
        | cons a t => simp at hl
      subst hnil
      rfl
  | cons x0 xs1t ih =>
    intro ss1 x xs2 ss2 hl
    cases ss1 with
    | nil => simp at hl
    | cons s0 ss1t =>
      simp only [List.cons_append]
      rw [glue_cons_eq, glue_cons_eq]
      rw [ih ss1t x xs2 ss2 (by simpa using hl)]
      simp [List.append_assoc]

/-- Decomposition of a glued sequence around separator `q` with its two
adjacent children: stable under rewriting both children and the
separator, and under merging the two children while erasing the
separator. -/
theorem glue_adj_decompose {A : Type} :
    ∀ (q : Nat) (xs : List A) (ss : List (List A)),
      q < xs.length → ss.length = xs.length + 1 →
      ∃ P1 P2 xq, xs.get? q = some xq
        ∧ glue xs ss = P1 ++ (ss.getD q [] ++ xq :: (ss.getD (q + 1) [] ++ P2))
        ∧ (∀ a y b, glue (xs.set q y) ((ss.set q a).set (q + 1) b)
            = P1 ++ (a ++ y :: (b ++ P2)))
        ∧ (∀ mc, glue (xs.eraseIdx q) ((ss.set q mc).eraseIdx (q + 1))
            = P1 ++ (mc ++ P2)) := by
  intro q
  induction q with
  | zero =>
    intro xs ss hq hl
    cases xs with
    | nil => simp at hq
    | cons x0 xs2 =>
      cases ss with
      | nil => simp at hl
      | cons s0 ss2 =>
        cases ss2 with
        | nil => simp at hl
        | cons s1 ss3 =>
          have hcl : ∀ s : List A, glue xs2 (s :: ss3) = s ++ glue xs2 ([] :: ss3) := by
            intro s
            cases xs2 with
            | nil => simp [glue]
            | cons x1 xs3 => simp [glue_cons_eq]
          refine ⟨[], glue xs2 ([] :: ss3), x0, by simp, ?_, ?_, ?_⟩
          · show glue (x0 :: xs2) (s0 :: s1 :: ss3)
              = [] ++ (s0 ++ x0 :: (s1 ++ glue xs2 ([] :: ss3)))
            rw [glue_cons_eq, hcl s1]
            simp
          · intro a y b
            show glue (y :: xs2) (a :: b :: ss3)
              = [] ++ (a ++ y :: (b ++ glue xs2 ([] :: ss3)))
            rw [glue_cons_eq, hcl b]
            simp
          · intro mc
            show glue xs2 (mc :: ss3) = [] ++ (mc ++ glue xs2 ([] :: ss3))
            rw [hcl mc]
            simp
  | succ q ih =>
    intro xs ss hq hl
    cases xs with
    | nil => simp at hq
    | cons x0 xs2 =>
      cases ss with
      | nil => simp at hl
      | cons s0 ss2 =>
        obtain ⟨P1, P2, xq, hxq, hmain, hset, herase⟩ :=
          ih xs2 ss2 (by simpa using hq) (by simpa using hl)
        refine ⟨s0 ++ x0 :: P1, P2, xq, by simpa using hxq, ?_, ?_, ?_⟩
        · rw [glue_cons_eq, hmain]
          simp only [List.getD_cons_succ]
          simp [List.append_assoc]
        · intro a y b
          rw [show (x0 :: xs2).set (q + 1) y = x0 :: xs2.set q y from rfl,
            show ((s0 :: ss2).set (q + 1) a).set (q + 1 + 1) b
              = s0 :: ((ss2.set q a).set (q + 1) b) from rfl,
            glue_cons_eq, hset a y b]
          simp [List.append_assoc]
        · intro mc
          rw [show (x0 :: xs2).eraseIdx (q + 1) = x0 :: xs2.eraseIdx q from rfl,
            show ((s0 :: ss2).set (q + 1) mc).eraseIdx (q + 1 + 1)
              = s0 :: ((ss2.set q mc).eraseIdx (q + 1)) from rfl,
            glue_cons_eq, herase mc]
          simp [List.append_assoc]

/-- Decomposition of flattened parts around two adjacent indices:
stable under rewriting both parts and under merging them. -/
theorem flatten_adj_decomp {A : Type} :
    ∀ (q : Nat) (L : List (List A)), q + 1 < L.length →
      ∃ G1 G2, L.flatten = G1 ++ (L.getD q [] ++ (L.getD (q + 1) [] ++ G2))
        ∧ (∀ a b, (((L.set q a).set (q + 1) b)).flatten = G1 ++ (a ++ (b ++ G2)))
        ∧ (∀ mc, ((L.set q mc).eraseIdx (q + 1)).flatten = G1 ++ (mc ++ G2)) := by
  intro q
  induction q with
  | zero =>
    intro L hq
    cases L with
    | nil => simp at hq
    | cons c0 L2 =>
      cases L2 with
      | nil => simp at hq
      | cons c1 L3 =>
        refine ⟨[], L3.flatten, by simp, ?_, ?_⟩
        · intro a b
          simp
        · intro mc
          simp [List.eraseIdx]
  | succ q ih =>
    intro L hq
    cases L with
    | nil => simp at hq
    | cons c0 L2 =>
      obtain ⟨G1, G2, hmain, hset, herase⟩ := ih L2 (by simpa using hq)
      refine ⟨c0 ++ G1, G2, ?_, ?_, ?_⟩
      · rw [List.flatten_cons, hmain]
        simp [List.append_assoc]
      · intro a b
        rw [show ((c0 :: L2).set (q + 1) a).set (q + 1 + 1) b
            = c0 :: ((L2.set q a).set (q + 1) b) from rfl,
          List.flatten_cons, hset a b]
        simp [List.append_assoc]
      · intro mc
        rw [show ((c0 :: L2).set (q + 1) mc).eraseIdx (q + 1 + 1)
            = c0 :: ((L2.set q mc).eraseIdx (q + 1)) from rfl,
          List.flatten_cons, herase mc]
        simp [List.append_assoc]

end RemoveHelpers

section RepSurgery

variable {K V : Type}

theorem getD_tail {A : Type} (l : List A) (i : Nat) (d : A) :
    l.tail.getD i d = l.getD (i + 1) d := by
  cases l with
  | nil => simp
  | cons a l2 => simp [List.getD_cons_succ]

theorem zip_tail_both (ks : List K) (vs : List V) :
    ks.tail.zip vs.tail = (ks.zip vs).tail := by
  cases ks with
  | nil => simp
  | cons k ks2 =>
    cases vs with
    | nil => simp
    | cons v vs2 => simp

theorem rep_nonempty {s : List (Option (BNode K V))} {ht h : Nat}
    {l : List (K × V)} {hs : List Nat} (hr : Rep s ht h l hs)
    (hk : ∀ n0, s.getD h none = some n0 → 1 ≤ n0.keys.length) : l ≠ [] := by
  cases hr with
  | leaf h n hres hedge hvlen =>
    have h1 := hk n hres
    intro hc
    rw [List.zip_eq_nil_iff] at hc
    rcases hc with hc | hc
    · rw [hc] at h1
      simp at h1
    · rw [hc] at hvlen
      simp at hvlen
      omega
  | internal ht h n subs subhs hres helen hvlen hslen hhslen hch =>
    have h1 := hk n hres
    have hzlen : (n.keys.zip n.vals).length = n.keys.length := by
      simp [List.length_zip, hvlen]
    intro hc
    rcases hx : n.keys.zip n.vals with _ | ⟨x0, xs2⟩
    · rw [hx] at hzlen
      simp at hzlen
      omega
    · rw [hx, glue] at hc
      simp at hc

theorem Rep.head_eq {s : List (Option (BNode K V))} {ht h : Nat}
    {l : List (K × V)} {hs : List Nat} (hr : Rep s ht h l hs) :
    hs = h :: hs.tail := by
  cases hr with
  | leaf h n hres hedge hvlen => rfl
  | internal ht h n subs subhs hres helen hvlen hslen hhslen hch => rfl

/-- Parent rebuild after a rotation through separator `q`: both adjacent
children rewritten, the separator replaced, everything else untouched. -/
theorem rep_internal_replace_two (s s2 : List (Option (BNode K V)))
    (ht0 h : Nat) (n : BNode K V)
    (subs : List (List (K × V))) (subhs : List (List Nat)) (q : Nat)
    (bk : K) (bv : V)
    (lcA : List (K × V)) (hsA : List Nat) (lcB : List (K × V)) (hsB : List Nat)
    (hres2 : s2.getD h none = some ⟨n.keys.set q bk, n.vals.set q bv, n.edges⟩)
    (helen : n.edges.length = n.keys.length + 1)
    (hvlen : n.vals.length = n.keys.length)
    (hslen : subs.length = n.edges.length)
    (hhslen : subhs.length = n.edges.length)
    (hch : ∀ i, i < n.edges.length →
      Rep s ht0 (n.edges.getD i 0) (subs.getD i []) (subhs.getD i []))
    (hq : q + 1 < n.edges.length)
    (hndflat : subhs.flatten.Nodup)
    (hchA : Rep s2 ht0 (n.edges.getD q 0) lcA hsA)
    (hchB : Rep s2 ht0 (n.edges.getD (q + 1) 0) lcB hsB)
    (hframe : ∀ x, x ∈ subhs.flatten → x ∉ subhs.getD q [] → x ∉ subhs.getD (q + 1) [] →
      s2.getD x none = s.getD x none) :
    Rep s2 (ht0 + 1) h
      (glue ((n.keys.set q bk).zip (n.vals.set q bv)) ((subs.set q lcA).set (q + 1) lcB))
      (h :: ((subhs.set q hsA).set (q + 1) hsB).flatten) := by
  have hr := Rep.internal (s := s2) ht0 h
    ⟨n.keys.set q bk, n.vals.set q bv, n.edges⟩
    ((subs.set q lcA).set (q + 1) lcB) ((subhs.set q hsA).set (q + 1) hsB)
    hres2
    (by show n.edges.length = (n.keys.set q bk).length + 1
        rw [List.length_set, helen])
    (by show (n.vals.set q bv).length = (n.keys.set q bk).length
        rw [List.length_set, List.length_set, hvlen])
    (by show ((subs.set q lcA).set (q + 1) lcB).length = n.edges.length
        rw [List.length_set, List.length_set, hslen])
    (by show ((subhs.set q hsA).set (q + 1) hsB).length = n.edges.length
        rw [List.length_set, List.length_set, hhslen])
    ?_
  · exact hr
  · intro i hi
    have hie : i < n.edges.length := hi
    show Rep s2 ht0 (n.edges.getD i 0) (((subs.set q lcA).set (q + 1) lcB).getD i [])
      (((subhs.set q hsA).set (q + 1) hsB).getD i [])
    by_cases hiq : i = q
    · rw [hiq]
      rw [getD_set_ne _ (q + 1) q lcB [] (by omega),
        getD_set_self subs q lcA [] (by omega),
        getD_set_ne _ (q + 1) q hsB [] (by omega),
        getD_set_self subhs q hsA [] (by omega)]
      exact hchA
    · by_cases hiq1 : i = q + 1
      · rw [hiq1]
        rw [getD_set_self _ (q + 1) lcB [] (by rw [List.length_set]; omega),
          getD_set_self _ (q + 1) hsB [] (by rw [List.length_set]; omega)]
        exact hchB
      · rw [getD_set_ne _ (q + 1) i lcB [] (fun hc => hiq1 hc.symm),
          getD_set_ne subs q i lcA [] (fun hc => hiq hc.symm),
          getD_set_ne _ (q + 1) i hsB [] (fun hc => hiq1 hc.symm),
          getD_set_ne subhs q i hsA [] (fun hc => hiq hc.symm)]
        apply (hch i hie).frame
        intro x hx
        apply hframe
        · refine List.mem_flatten.mpr ⟨subhs.getD i [], ?_, hx⟩
          have his : i < subhs.length := by omega
          rw [List.getD_eq_getElem?_getD, List.getElem?_eq_getElem his]
          exact List.getElem_mem his
        · intro hxd
          exact nodup_flatten_parts_disjoint subhs hndflat i q (by omega) (by omega)
            hiq x hx hxd
        · intro hxd
          exact nodup_flatten_parts_disjoint subhs hndflat i (q + 1) (by omega) (by omega)
            hiq1 x hx hxd

/-- Parent rebuild after a merge of the children adjacent to separator
`q`: the separator and the right child edge disappear, the left edge now
carries the merged subtree. -/
theorem rep_internal_merge_parent (s s2 : List (Option (BNode K V)))
    (ht0 h : Nat) (n : BNode K V)
    (subs : List (List (K × V))) (subhs : List (List Nat)) (q : Nat)
    (lcM : List (K × V)) (hsM : List Nat)
    (hres2 : s2.getD h none
      = some ⟨n.keys.eraseIdx q, n.vals.eraseIdx q, n.edges.eraseIdx (q + 1)⟩)
    (helen : n.edges.length = n.keys.length + 1)
    (hvlen : n.vals.length = n.keys.length)
    (hslen : subs.length = n.edges.length)
    (hhslen : subhs.length = n.edges.length)
    (hch : ∀ i, i < n.edges.length →
      Rep s ht0 (n.edges.getD i 0) (subs.getD i []) (subhs.getD i []))
    (hq : q + 1 < n.edges.length)
    (hndflat : subhs.flatten.Nodup)
    (hchM : Rep s2 ht0 (n.edges.getD q 0) lcM hsM)
    (hframe : ∀ x, x ∈ subhs.flatten → x ∉ subhs.getD q [] → x ∉ subhs.getD (q + 1) [] →
      s2.getD x none = s.getD x none) :
    Rep s2 (ht0 + 1) h
      (glue ((n.keys.eraseIdx q).zip (n.vals.eraseIdx q))
        ((subs.set q lcM).eraseIdx (q + 1)))
      (h :: ((subhs.set q hsM).eraseIdx (q + 1)).flatten) := by
  have hkq : q < n.keys.length := by omega
  have hklen : (n.keys.eraseIdx q).length = n.keys.length - 1 :=
    List.length_eraseIdx_of_lt hkq
  have hvlen2 : (n.vals.eraseIdx q).length = n.vals.length - 1 :=
    List.length_eraseIdx_of_lt (by omega)
  have helen2 : (n.edges.eraseIdx (q + 1)).length = n.edges.length - 1 :=
    List.length_eraseIdx_of_lt (by omega)
  have hr := Rep.internal (s := s2) ht0 h
    ⟨n.keys.eraseIdx q, n.vals.eraseIdx q, n.edges.eraseIdx (q + 1)⟩
    ((subs.set q lcM).eraseIdx (q + 1)) ((subhs.set q hsM).eraseIdx (q + 1))
    hres2
    (by show (n.edges.eraseIdx (q + 1)).length = (n.keys.eraseIdx q).length + 1
        rw [helen2, hklen, helen]
        omega)
    (by show (n.vals.eraseIdx q).length = (n.keys.eraseIdx q).length
        rw [hvlen2, hklen, hvlen])
    (by show ((subs.set q lcM).eraseIdx (q + 1)).length = (n.edges.eraseIdx (q + 1)).length
        rw [List.length_eraseIdx_of_lt (by rw [List.length_set]; omega),
          List.length_set, helen2, hslen])
    (by show ((subhs.set q hsM).eraseIdx (q + 1)).length = (n.edges.eraseIdx (q + 1)).length
        rw [List.length_eraseIdx_of_lt (by rw [List.length_set]; omega),
          List.length_set, helen2, hhslen])
    ?_
  · exact hr
  · intro i hi
    have hie : i < (n.edges.eraseIdx (q + 1)).length := hi
    rw [helen2] at hie
    show Rep s2 ht0 ((n.edges.eraseIdx (q + 1)).getD i 0)
      (((subs.set q lcM).eraseIdx (q + 1)).getD i [])
      (((subhs.set q hsM).eraseIdx (q + 1)).getD i [])
    rcases Nat.lt_trichotomy i q with hcmp | hcmp | hcmp
    · rw [getD_eraseIdx_lt 0 i (q + 1) _ (by omega),
        getD_eraseIdx_lt [] i (q + 1) _ (by omega),
        getD_eraseIdx_lt [] i (q + 1) _ (by omega),
        getD_set_ne subs q i lcM [] (by omega),
        getD_set_ne subhs q i hsM [] (by omega)]
      apply (hch i (by omega)).frame
      intro x hx
      apply hframe
      · refine List.mem_flatten.mpr ⟨subhs.getD i [], ?_, hx⟩
        have his : i < subhs.length := by omega
        rw [List.getD_eq_getElem?_getD, List.getElem?_eq_getElem his]
        exact List.getElem_mem his
      · intro hxd
        exact nodup_flatten_parts_disjoint subhs hndflat i q (by omega) (by omega)
          (by omega) x hx hxd
      · intro hxd
        exact nodup_flatten_parts_disjoint subhs hndflat i (q + 1) (by omega) (by omega)
          (by omega) x hx hxd
    · subst hcmp
      rw [getD_eraseIdx_lt 0 i (i + 1) _ (by omega),
        getD_eraseIdx_lt [] i (i + 1) _ (by omega),
        getD_eraseIdx_lt [] i (i + 1) _ (by omega),
        getD_set_self subs i lcM [] (by omega),
        getD_set_self subhs i hsM [] (by omega)]
      exact hchM
    · rw [getD_eraseIdx_ge 0 (q + 1) _ i (by omega),
        getD_eraseIdx_ge [] (q + 1) _ i (by omega),
        getD_eraseIdx_ge [] (q + 1) _ i (by omega),
        getD_set_ne subs q (i + 1) lcM [] (by omega),
        getD_set_ne subhs q (i + 1) hsM [] (by omega)]
      apply (hch (i + 1) (by omega)).frame
      intro x hx
      apply hframe
      · refine List.mem_flatten.mpr ⟨subhs.getD (i + 1) [], ?_, hx⟩
        have his : i + 1 < subhs.length := by omega
        rw [List.getD_eq_getElem?_getD, List.getElem?_eq_getElem his]
        exact List.getElem_mem his
      · intro hxd
        exact nodup_flatten_parts_disjoint subhs hndflat (i + 1) q (by omega) (by omega)
          (by omega) x hx hxd
      · intro hxd
        exact nodup_flatten_parts_disjoint subhs hndflat (i + 1) (q + 1) (by omega)
          (by omega) (by omega) x hx hxd

end RepSurgery

section ChildSurgery

variable {K V : Type}

/-- A subtree moved in from the left sibling becomes the new first child
after a left rotation. -/
theorem rep_child_extend_left (s2 : List (Option (BNode K V)))
    (ht0 c : Nat) (cn : BNode K V) (sk : K) (sv : V) (be : Nat)
    (csubs : List (List (K × V))) (csubhs : List (List Nat))
    (A0 : List (K × V)) (H0 : List Nat)
    (hres2 : s2.getD c none = some ⟨sk :: cn.keys, sv :: cn.vals, be :: cn.edges⟩)
    (helen : cn.edges.length = cn.keys.length + 1)
    (hvlen : cn.vals.length = cn.keys.length)
    (hslen : csubs.length = cn.edges.length)
    (hhslen : csubhs.length = cn.edges.length)
    (hch : ∀ i, i < cn.edges.length →
      Rep s2 ht0 (cn.edges.getD i 0) (csubs.getD i []) (csubhs.getD i []))
    (hb : Rep s2 ht0 be A0 H0) :
    Rep s2 (ht0 + 1) c (A0 ++ (sk, sv) :: glue (cn.keys.zip cn.vals) csubs)
      (c :: (H0 :: csubhs).flatten) := by
  have hr := Rep.internal (s := s2) ht0 c
    ⟨sk :: cn.keys, sv :: cn.vals, be :: cn.edges⟩
    (A0 :: csubs) (H0 :: csubhs)
    hres2
    (by show (be :: cn.edges).length = (sk :: cn.keys).length + 1
        simp [helen])
    (by show (sv :: cn.vals).length = (sk :: cn.keys).length
        simp [hvlen])
    (by show (A0 :: csubs).length = (be :: cn.edges).length
        simp [hslen])
    (by show (H0 :: csubhs).length = (be :: cn.edges).length
        simp [hhslen])
    ?_
  · have hg : glue ((sk :: cn.keys).zip (sv :: cn.vals)) (A0 :: csubs)
        = A0 ++ (sk, sv) :: glue (cn.keys.zip cn.vals) csubs := by
      rw [List.zip_cons_cons, glue_cons_eq]
    rw [hg] at hr
    exact hr
  · intro i hi
    show Rep s2 ht0 ((be :: cn.edges).getD i 0) ((A0 :: csubs).getD i [])
      ((H0 :: csubhs).getD i [])
    cases i with
    | zero => simpa using hb
    | succ i2 =>
      simp only [List.getD_cons_succ]
      exact hch i2 (by simpa using hi)

/-- A subtree moved in from the right sibling becomes the new last child
after a right rotation. -/
theorem rep_child_extend_right (s2 : List (Option (BNode K V)))
    (ht0 c : Nat) (cn : BNode K V) (sk : K) (sv : V) (be : Nat)
    (csubs : List (List (K × V))) (csubhs : List (List Nat))
    (A0 : List (K × V)) (H0 : List Nat)
    (hres2 : s2.getD c none = some ⟨cn.keys ++ [sk], cn.vals ++ [sv], cn.edges ++ [be]⟩)
    (helen : cn.edges.length = cn.keys.length + 1)
    (hvlen : cn.vals.length = cn.keys.length)
    (hslen : csubs.length = cn.edges.length)
    (hhslen : csubhs.length = cn.edges.length)
    (hch : ∀ i, i < cn.edges.length →
      Rep s2 ht0 (cn.edges.getD i 0) (csubs.getD i []) (csubhs.getD i []))
    (hb : Rep s2 ht0 be A0 H0) :
    Rep s2 (ht0 + 1) c (glue (cn.keys.zip cn.vals) csubs ++ (sk, sv) :: A0)
      (c :: (csubhs ++ [H0]).flatten) := by
  have hr := Rep.internal (s := s2) ht0 c
    ⟨cn.keys ++ [sk], cn.vals ++ [sv], cn.edges ++ [be]⟩
    (csubs ++ [A0]) (csubhs ++ [H0])
    hres2
    (by show (cn.edges ++ [be]).length = (cn.keys ++ [sk]).length + 1
        simp [helen])
    (by show (cn.vals ++ [sv]).length = (cn.keys ++ [sk]).length
        simp [hvlen])
    (by show (csubs ++ [A0]).length = (cn.edges ++ [be]).length
        simp [hslen])
    (by show (csubhs ++ [H0]).length = (cn.edges ++ [be]).length
        simp [hhslen])
    ?_
  · have hz : (cn.keys ++ [sk]).zip (cn.vals ++ [sv])
        = cn.keys.zip cn.vals ++ [(sk, sv)] := by
      rw [List.zip_append hvlen.symm]
      rfl
    have hg : glue (cn.keys.zip cn.vals ++ [(sk, sv)]) (csubs ++ [A0])
        = glue (cn.keys.zip cn.vals) csubs ++ (sk, sv) :: A0 := by
      have hga := glue_append (cn.keys.zip cn.vals) csubs (sk, sv) [] [A0]
        (by rw [hslen, helen]; simp [List.length_zip, hvlen])
      simpa [glue] using hga
    rw [hz, hg] at hr
    exact hr
  · intro i hi
    have hie : i < (cn.edges ++ [be]).length := hi
    rw [List.length_append, List.length_singleton] at hie
    show Rep s2 ht0 ((cn.edges ++ [be]).getD i 0) ((csubs ++ [A0]).getD i [])
      ((csubhs ++ [H0]).getD i [])
    by_cases hilt : i < cn.edges.length
    · rw [getD_append_left _ _ i 0 hilt, getD_append_left _ _ i [] (by omega),
        getD_append_left _ _ i [] (by omega)]
      exact hch i hilt
    · have hieq : i = cn.edges.length := by omega
      rw [hieq, getD_append_right _ _ _ 0 (le_refl _),
        getD_append_right _ _ _ [] (by omega), getD_append_right _ _ _ [] (by omega),
        hslen, hhslen]
      simpa using hb

/-- Truncation of the left sibling: its last key, value and edge leave. -/
theorem rep_child_drop_last (s2 : List (Option (BNode K V)))
    (ht0 c : Nat) (cn : BNode K V)
    (csubs : List (List (K × V))) (csubhs : List (List Nat))
    (hres2 : s2.getD c none
      = some ⟨cn.keys.dropLast, cn.vals.dropLast, cn.edges.dropLast⟩)
    (helen : cn.edges.length = cn.keys.length + 1)
    (hvlen : cn.vals.length = cn.keys.length)
    (hslen : csubs.length = cn.edges.length)
    (hhslen : csubhs.length = cn.edges.length)
    (hch : ∀ i, i < cn.edges.length →
      Rep s2 ht0 (cn.edges.getD i 0) (csubs.getD i []) (csubhs.getD i []))
    (hkn : 1 ≤ cn.keys.length) :
    Rep s2 (ht0 + 1) c
      (glue (cn.keys.dropLast.zip cn.vals.dropLast) csubs.dropLast)
      (c :: csubhs.dropLast.flatten) := by
  have hr := Rep.internal (s := s2) ht0 c
    ⟨cn.keys.dropLast, cn.vals.dropLast, cn.edges.dropLast⟩
    csubs.dropLast csubhs.dropLast
    hres2
    (by show cn.edges.dropLast.length = cn.keys.dropLast.length + 1
        rw [List.length_dropLast, List.length_dropLast, helen]
        omega)
    (by show cn.vals.dropLast.length = cn.keys.dropLast.length
        rw [List.length_dropLast, List.length_dropLast, hvlen])
    (by show csubs.dropLast.length = cn.edges.dropLast.length
        rw [List.length_dropLast, List.length_dropLast, hslen])
    (by show csubhs.dropLast.length = cn.edges.dropLast.length
        rw [List.length_dropLast, List.length_dropLast, hhslen])
    ?_
  · exact hr
  · intro i hi
    have hie : i < cn.edges.dropLast.length := hi
    rw [List.length_dropLast] at hie
    show Rep s2 ht0 (cn.edges.dropLast.getD i 0) (csubs.dropLast.getD i [])
      (csubhs.dropLast.getD i [])
    rw [List.dropLast_eq_take, getD_take _ _ i 0 (by omega),
      List.dropLast_eq_take, getD_take _ _ i [] (by rw [hslen]; omega),
      List.dropLast_eq_take, getD_take _ _ i [] (by rw [hhslen]; omega)]
    exact hch i (by omega)

/-- Truncation of the right sibling: its first key, value and edge
leave. -/
theorem rep_child_drop_head (s2 : List (Option (BNode K V)))
    (ht0 c : Nat) (cn : BNode K V)
    (csubs : List (List (K × V))) (csubhs : List (List Nat))
    (hres2 : s2.getD c none = some ⟨cn.keys.tail, cn.vals.tail, cn.edges.tail⟩)
    (helen : cn.edges.length = cn.keys.length + 1)
    (hvlen : cn.vals.length = cn.keys.length)
    (hslen : csubs.length = cn.edges.length)
    (hhslen : csubhs.length = cn.edges.length)
    (hch : ∀ i, i < cn.edges.length →
      Rep s2 ht0 (cn.edges.getD i 0) (csubs.getD i []) (csubhs.getD i []))
    (hkn : 1 ≤ cn.keys.length) :
    Rep s2 (ht0 + 1) c
      (glue (cn.keys.tail.zip cn.vals.tail) csubs.tail)
      (c :: csubhs.tail.flatten) := by
  have hr := Rep.internal (s := s2) ht0 c
    ⟨cn.keys.tail, cn.vals.tail, cn.edges.tail⟩
    csubs.tail csubhs.tail
    hres2
    (by show cn.edges.tail.length = cn.keys.tail.length + 1
        rw [List.length_tail, List.length_tail, helen]
        omega)
    (by show cn.vals.tail.length = cn.keys.tail.length
        rw [List.length_tail, List.length_tail, hvlen])
    (by show csubs.tail.length = cn.edges.tail.length
        rw [List.length_tail, List.length_tail, hslen])
    (by show csubhs.tail.length = cn.edges.tail.length
        rw [List.length_tail, List.length_tail, hhslen])
    ?_
  · exact hr
  · intro i hi
    have hie : i < cn.edges.tail.length := hi
    rw [List.length_tail] at hie
    show Rep s2 ht0 (cn.edges.tail.getD i 0) (csubs.tail.getD i [])
      (csubhs.tail.getD i [])
    rw [getD_tail, getD_tail, getD_tail]
    exact hch (i + 1) (by omega)

/-- Merging two sibling subtrees through their parent separator. -/
theorem rep_merge_nodes (s2 : List (Option (BNode K V)))
    (ht0 c : Nat) (n1 n2 : BNode K V) (sk : K) (sv : V)
    (subs1 subs2 : List (List (K × V))) (subhs1 subhs2 : List (List Nat))
    (hres2 : s2.getD c none
      = some ⟨n1.keys ++ sk :: n2.keys, n1.vals ++ sv :: n2.vals, n1.edges ++ n2.edges⟩)
    (helen1 : n1.edges.length = n1.keys.length + 1)
    (hvlen1 : n1.vals.length = n1.keys.length)
    (hslen1 : subs1.length = n1.edges.length)
    (hhslen1 : subhs1.length = n1.edges.length)
    (hch1 : ∀ i, i < n1.edges.length →
      Rep s2 ht0 (n1.edges.getD i 0) (subs1.getD i []) (subhs1.getD i []))
    (helen2 : n2.edges.length = n2.keys.length + 1)
    (hvlen2 : n2.vals.length = n2.keys.length)
    (hslen2 : subs2.length = n2.edges.length)
    (hhslen2 : subhs2.length = n2.edges.length)
    (hch2 : ∀ i, i < n2.edges.length →
      Rep s2 ht0 (n2.edges.getD i 0) (subs2.getD i []) (subhs2.getD i [])) :
    Rep s2 (ht0 + 1) c
      (glue (n1.keys.zip n1.vals) subs1 ++ (sk, sv) :: glue (n2.keys.zip n2.vals) subs2)
      (c :: (subhs1 ++ subhs2).flatten) := by
  have hr := Rep.internal (s := s2) ht0 c
    ⟨n1.keys ++ sk :: n2.keys, n1.vals ++ sv :: n2.vals, n1.edges ++ n2.edges⟩
    (subs1 ++ subs2) (subhs1 ++ subhs2)
    hres2
    (by show (n1.edges ++ n2.edges).length = (n1.keys ++ sk :: n2.keys).length + 1
        simp [helen1, helen2]
        omega)
    (by show (n1.vals ++ sv :: n2.vals).length = (n1.keys ++ sk :: n2.keys).length
        simp [hvlen1, hvlen2])
    (by show (subs1 ++ subs2).length = (n1.edges ++ n2.edges).length
        simp [hslen1, hslen2])
    (by show (subhs1 ++ subhs2).length = (n1.edges ++ n2.edges).length
        simp [hhslen1, hhslen2])
    ?_
  · have hz : (n1.keys ++ sk :: n2.keys).zip (n1.vals ++ sv :: n2.vals)
        = n1.keys.zip n1.vals ++ (sk, sv) :: n2.keys.zip n2.vals := by
      rw [List.zip_append hvlen1.symm]
      rfl
    have hg : glue (n1.keys.zip n1.vals ++ (sk, sv) :: n2.keys.zip n2.vals)
        (subs1 ++ subs2)
        = glue (n1.keys.zip n1.vals) subs1 ++ (sk, sv) :: glue (n2.keys.zip n2.vals) subs2 :=
      glue_append _ subs1 (sk, sv) _ subs2
        (by rw [hslen1, helen1]; simp [List.length_zip, hvlen1])
    rw [hz, hg] at hr
    exact hr
  · intro i hi
    have hie : i < (n1.edges ++ n2.edges).length := hi
    rw [List.length_append] at hie
    show Rep s2 ht0 ((n1.edges ++ n2.edges).getD i 0) ((subs1 ++ subs2).getD i [])
      ((subhs1 ++ subhs2).getD i [])
    by_cases hilt : i < n1.edges.length
    · rw [getD_append_left _ _ i 0 hilt, getD_append_left _ _ i [] (by omega),
        getD_append_left _ _ i [] (by omega)]
      exact hch1 i hilt
    · rw [getD_append_right _ _ i 0 (by omega), getD_append_right _ _ i [] (by omega),
        getD_append_right _ _ i [] (by omega), hslen1, hhslen1]
      exact hch2 (i - n1.edges.length) (by omega)

end ChildSurgery

section FixChildProof

variable {K V : Type} [LinearOrder K]

theorem resolveN_setNode3_ne (m : BTM K V) (a b c2 : Nat)
    (na nb nc : BNode K V) (j : Nat)
    (hja : j ≠ a) (hjb : j ≠ b) (hjc : j ≠ c2) :
    (((m.setNode a na).setNode b nb).setNode c2 nc).resolveN j = m.resolveN j := by
  rw [resolveN_setNode_ne _ c2 _ j hjc, resolveN_setNode_ne _ b _ j hjb,
    resolveN_setNode_ne _ a _ j hja]

theorem resolveN_setNode3_third (m : BTM K V) (a b c2 : Nat)
    (na nb nc : BNode K V) (hlt : c2 < m.store.length) :
    (((m.setNode a na).setNode b nb).setNode c2 nc).resolveN c2 = some nc := by
  apply resolveN_setNode_self
  rw [setNode_store_length, setNode_store_length]
  exact hlt

theorem resolveN_setNode3_second (m : BTM K V) (a b c2 : Nat)
    (na nb nc : BNode K V) (hne : c2 ≠ b) (hlt : b < m.store.length) :
    (((m.setNode a na).setNode b nb).setNode c2 nc).resolveN b = some nb := by
  rw [resolveN_setNode_ne _ c2 _ b (Ne.symm hne)]
  apply resolveN_setNode_self
  rw [setNode_store_length]
  exact hlt

theorem resolveN_setNode3_first (m : BTM K V) (a b c2 : Nat)
    (na nb nc : BNode K V) (hne1 : b ≠ a) (hne2 : c2 ≠ a) (hlt : a < m.store.length) :
    (((m.setNode a na).setNode b nb).setNode c2 nc).resolveN a = some na := by
  rw [resolveN_setNode_ne _ c2 _ a (Ne.symm hne2), resolveN_setNode_ne _ b _ a (Ne.symm hne1)]
  exact resolveN_setNode_self m a na hlt

theorem setNode3_fields (m : BTM K V) (a b c2 : Nat) (na nb nc : BNode K V) :
    (((m.setNode a na).setNode b nb).setNode c2 nc).root = m.root
    ∧ (((m.setNode a na).setNode b nb).setNode c2 nc).hlen = m.hlen
    ∧ (((m.setNode a na).setNode b nb).setNode c2 nc).nodeCount = m.nodeCount
    ∧ (((m.setNode a na).setNode b nb).setNode c2 nc).free = m.free
    ∧ (((m.setNode a na).setNode b nb).setNode c2 nc).store.length = m.store.length := by
  refine ⟨rfl, rfl, rfl, rfl, ?_⟩
  rw [setNode_store_length, setNode_store_length, setNode_store_length]

theorem setNode3_freeOK (m : BTM K V) (a b c2 : Nat) (na nb nc : BNode K V)
    (hf : FreeOK m) (ha : a ∉ m.free) (hb : b ∉ m.free) (hc : c2 ∉ m.free) :
    FreeOK (((m.setNode a na).setNode b nb).setNode c2 nc) := by
  apply setNode_freeOK
  · apply setNode_freeOK
    · exact setNode_freeOK m a na hf ha
    · exact hb
  · exact hc

theorem resolveN_md_ne (m : BTM K V) (a b d : Nat) (na nb : BNode K V) (j : Nat)
    (hja : j ≠ a) (hjb : j ≠ b) (hjd : j ≠ d) :
    (((m.setNode a na).setNode b nb).deallocate d).resolveN j = m.resolveN j := by
  show ((((m.setNode a na).setNode b nb).deallocate d).store.getD j none) = m.resolveN j
  simp only [BTM.deallocate]
  rw [show (((m.setNode a na).setNode b nb).store.set d none).getD j none
      = (((m.setNode a na).setNode b nb).store.set d none).getD j none from rfl]
  rw [List.getD_eq_getElem?_getD, List.getElem?_set_ne (Ne.symm hjd),
    ← List.getD_eq_getElem?_getD]
  show (((m.setNode a na).setNode b nb)).resolveN j = m.resolveN j
  rw [resolveN_setNode_ne _ b _ j hjb, resolveN_setNode_ne _ a _ j hja]

theorem resolveN_md_dealloc (m : BTM K V) (a b d : Nat) (na nb : BNode K V)
    (hlt : d < m.store.length) :
    (((m.setNode a na).setNode b nb).deallocate d).resolveN d = none := by
  show ((((m.setNode a na).setNode b nb).deallocate d).store.getD d none) = none
  simp only [BTM.deallocate]
  rw [List.getD_eq_getElem?_getD, List.getElem?_set_self
    (by rw [setNode_store_length, setNode_store_length]; simpa using hlt)]
  rfl

theorem resolveN_md_second (m : BTM K V) (a b d : Nat) (na nb : BNode K V)
    (hne : d ≠ b) (hlt : b < m.store.length) :
    (((m.setNode a na).setNode b nb).deallocate d).resolveN b = some nb := by
  show ((((m.setNode a na).setNode b nb).deallocate d).store.getD b none) = some nb
  simp only [BTM.deallocate]
  rw [List.getD_eq_getElem?_getD, List.getElem?_set_ne hne, ← List.getD_eq_getElem?_getD]
  show (((m.setNode a na).setNode b nb)).resolveN b = some nb
  apply resolveN_setNode_self
  rw [setNode_store_length]
  exact hlt

theorem resolveN_md_first (m : BTM K V) (a b d : Nat) (na nb : BNode K V)
    (hne1 : b ≠ a) (hne2 : d ≠ a) (hlt : a < m.store.length) :
    (((m.setNode a na).setNode b nb).deallocate d).resolveN a = some na := by
  show ((((m.setNode a na).setNode b nb).deallocate d).store.getD a none) = some na
  simp only [BTM.deallocate]
  rw [List.getD_eq_getElem?_getD, List.getElem?_set_ne hne2, ← List.getD_eq_getElem?_getD]
  show (((m.setNode a na).setNode b nb)).resolveN a = some na
  rw [resolveN_setNode_ne _ b _ a (Ne.symm hne1)]
  exact resolveN_setNode_self m a na hlt

theorem md_fields (m : BTM K V) (a b d : Nat) (na nb : BNode K V) :
    (((m.setNode a na).setNode b nb).deallocate d).root = m.root
    ∧ (((m.setNode a na).setNode b nb).deallocate d).hlen = m.hlen
    ∧ (((m.setNode a na).setNode b nb).deallocate d).nodeCount = m.nodeCount - 1
    ∧ (((m.setNode a na).setNode b nb).deallocate d).store.length = m.store.length := by
  refine ⟨rfl, rfl, rfl, ?_⟩
  simp only [BTM.deallocate, List.length_set]
  rw [setNode_store_length, setNode_store_length]

theorem md_freeOK (m : BTM K V) (a b d : Nat) (na nb : BNode K V) (nd : BNode K V)
    (hf : FreeOK m) (ha : a ∉ m.free) (hb : b ∉ m.free)
    (hres : (((m.setNode a na).setNode b nb)).resolveN d = some nd) :
    FreeOK (((m.setNode a na).setNode b nb).deallocate d) := by
  have hf2 : FreeOK ((m.setNode a na).setNode b nb) := by
    apply setNode_freeOK
    · exact setNode_freeOK m a na hf ha
    · exact hb
  exact (deallocate_spec ((m.setNode a na).setNode b nb) d nd hres hf2).2.2.2.2.2.2

/-- Moving one middle element to the back is a permutation. -/
theorem perm_extract_middle {A : Type} (l1 l2 : List A) (a : A) :
    (l1 ++ a :: l2).Perm ((l1 ++ l2) ++ [a]) := by
  have h1 : (l1 ++ a :: l2).Perm (a :: (l1 ++ l2)) := List.perm_middle
  exact h1.trans (cons_perm_append_singleton a (l1 ++ l2))

/-- `fixChild` repair through the left sibling (0 < p): borrow or merge. -/
theorem fixChild_left_spec (B : Nat) (hB : 2 ≤ B) (m : BTM K V) (h p : Nat)
    (n : BNode K V) (ht0 : Nat)
    (subs : List (List (K × V))) (subhs : List (List Nat))
    (hres : m.resolveN h = some n)
    (helen : n.edges.length = n.keys.length + 1)
    (hvlen : n.vals.length = n.keys.length)
    (hslen : subs.length = n.edges.length)
    (hhslen : subhs.length = n.edges.length)
    (hch : ∀ i, i < n.edges.length →
      Rep m.store ht0 (n.edges.getD i 0) (subs.getD i []) (subhs.getD i []))
    (hp : p < n.edges.length)
    (hkn : 1 ≤ n.keys.length)
    (hnd : (h :: subhs.flatten).Nodup)
    (hfree : FreeOK m)
    (hcb : (h :: subhs.flatten).length ≤ m.nodeCount)
    (hfillO : ∀ j n2, j ∈ subhs.flatten → j ≠ n.edges.getD p 0 →
      m.resolveN j = some n2 → B - 1 ≤ n2.keys.length ∧ n2.keys.length ≤ 2 * B - 1)
    (hfillC : ∀ n2, m.resolveN (n.edges.getD p 0) = some n2 →
      B - 2 ≤ n2.keys.length ∧ n2.keys.length ≤ 2 * B - 1)
    (c ls : Nat) (cn0 lsn : BNode K V)
    (hcget : n.edges.get? p = some c)
    (hcres : m.resolveN c = some cn0)
    (hclen : cn0.keys.length = B - 2)
    (hunder : ¬ B - 1 ≤ cn0.keys.length)
    (hppos : 0 < p)
    (hlsget : n.edges.get? (p - 1) = some ls)
    (hlsres : m.resolveN ls = some lsn) :
    ∃ hs2 D,
      Rep (fixChild B m h p).store (ht0 + 1) h (glue (n.keys.zip n.vals) subs) hs2
      ∧ (h :: subhs.flatten).Perm (hs2 ++ D)
      ∧ (∀ j, j ∈ D → (fixChild B m h p).resolveN j = none)
      ∧ (∀ j, j ∉ h :: subhs.flatten → (fixChild B m h p).resolveN j = m.resolveN j)
      ∧ (fixChild B m h p).root = m.root
      ∧ (fixChild B m h p).hlen = m.hlen
      ∧ (fixChild B m h p).store.length = m.store.length
      ∧ FreeOK (fixChild B m h p)
      ∧ (fixChild B m h p).nodeCount + D.length = m.nodeCount
      ∧ (∀ j n2, j ∈ hs2 → j ≠ h → (fixChild B m h p).resolveN j = some n2 →
          B - 1 ≤ n2.keys.length ∧ n2.keys.length ≤ 2 * B - 1)
      ∧ (∀ n2, (fixChild B m h p).resolveN h = some n2 →
          n2.keys.length = n.keys.length ∨ n2.keys.length + 1 = n.keys.length) := by
  -- shared facts about the parent and the child at edge p
  have hndflat : subhs.flatten.Nodup := (List.nodup_cons.mp hnd).2
  have hh_not_flat : h ∉ subhs.flatten := (List.nodup_cons.mp hnd).1
  have hmemflat : ∀ i, i < n.edges.length → ∀ x, x ∈ subhs.getD i [] →
      x ∈ subhs.flatten := by
    intro i hi x hx
    refine List.mem_flatten.mpr ⟨subhs.getD i [], ?_, hx⟩
    have his : i < subhs.length := by omega
    rw [List.getD_eq_getElem?_getD, List.getElem?_eq_getElem his]
    exact List.getElem_mem his
  have hcD : n.edges.getD p 0 = c := by
    rw [List.getD_eq_getElem?_getD, ← List.get?_eq_getElem?, hcget]
    rfl
  have hchC : Rep m.store ht0 c (subs.getD p []) (subhs.getD p []) := by
    rw [← hcD]
    exact hch p hp
  have hheadC : subhs.getD p [] = c :: (subhs.getD p []).tail := hchC.head_eq
  have hcmem : c ∈ subhs.flatten := by
    apply hmemflat p hp
    rw [hheadC]
    simp
  have hc_ne_h : c ≠ h := fun hc => hh_not_flat (hc ▸ hcmem)
  have hlive : h < m.store.length := resolveN_lt_length m h n hres
  have hnotfree : h ∉ m.free := by
    intro hc
    rw [hfree.2.1 h hc] at hres
    exact Option.noConfusion hres
  have hq : p - 1 < n.keys.length := by omega
  have hqe : p - 1 + 1 = p := by omega
  have hlsD : n.edges.getD (p - 1) 0 = ls := by
    rw [List.getD_eq_getElem?_getD, ← List.get?_eq_getElem?, hlsget]
    rfl
  have hchS : Rep m.store ht0 ls (subs.getD (p - 1) []) (subhs.getD (p - 1) []) := by
    rw [← hlsD]
    exact hch (p - 1) (by omega)
  have hheadS : subhs.getD (p - 1) [] = ls :: (subhs.getD (p - 1) []).tail :=
    hchS.head_eq
  have hlsmem : ls ∈ subhs.flatten := by
    apply hmemflat (p - 1) (by omega)
    rw [hheadS]
    simp
  have hls_ne_h : ls ≠ h := fun hc => hh_not_flat (hc ▸ hlsmem)
  have hls_ne_c : ls ≠ c := by
    intro hc
    exact nodup_flatten_parts_disjoint subhs hndflat (p - 1) p (by omega) (by omega)
      (by omega) ls (by rw [hheadS]; simp) (by rw [hc, hheadC]; simp)
  obtain ⟨sk, hskget⟩ := get_of_lt n.keys (p - 1) (by omega)
  obtain ⟨sv, hsvget⟩ := get_of_lt n.vals (p - 1) (by omega)
  have hlsfill := hfillO ls lsn hlsmem (by rw [hcD]; exact hls_ne_c) hlsres
  obtain ⟨P1, P2, xq, hxq, hmain, hsetc, herasec⟩ :=
    glue_adj_decompose (p - 1) (n.keys.zip n.vals) subs
      (by rw [List.length_zip, hvlen]; omega)
      (by simp [hslen, helen, List.length_zip, hvlen])
  have hxq2 : xq = (sk, sv) := by
    have h2 := zip_get_of_parts hskget hsvget
    rw [hxq] at h2
    exact Option.some.inj h2
  subst hxq2
  obtain ⟨G1, G2, hgmain, hgset, hgerase⟩ := flatten_adj_decomp (p - 1) subhs
    (by omega)
  rw [hqe] at hmain hsetc herasec hgmain hgset hgerase
  have hlivels : ls < m.store.length := resolveN_lt_length m ls lsn hlsres
  have hlivec : c < m.store.length := resolveN_lt_length m c cn0 hcres
  have hfreels : ls ∉ m.free := by
    intro hc
    rw [hfree.2.1 ls hc] at hlsres
    exact Option.noConfusion hlsres
  have hfreec : c ∉ m.free := by
    intro hc
    rw [hfree.2.1 c hc] at hcres
    exact Option.noConfusion hcres
  -- the inner handle segments are pairwise disjoint
  have hnds : (G1 ++ (subhs.getD (p - 1) [] ++ (subhs.getD p [] ++ G2))).Nodup := by
    rw [← hgmain]
    exact hndflat
  by_cases hborrow : B ≤ lsn.keys.length
  · -- borrow the last entry of the left sibling through the separator
    have hlkne : lsn.keys ≠ [] := by
      intro hc
      rw [hc] at hborrow
      simp at hborrow
      omega
    obtain ⟨bk, hbk, hbkdec⟩ := getLast_decomp lsn.keys hlkne
    revert hchS
    generalize hAs : subs.getD (p - 1) [] = Als at hnds
    generalize hHs : subhs.getD (p - 1) [] = Hls at hnds
    intro hchS
    cases hchS with
    | leaf ls2 lsn2 hres2 hedge2 hvlen2 =>
      have hinj : lsn2 = lsn := by
        have h2 : m.resolveN ls = some lsn2 := hres2
        rw [hlsres] at h2
        exact (Option.some.inj h2).symm
      rw [hinj] at hres2 hedge2 hvlen2 hAs
      revert hchC
      generalize hAcv : subs.getD p [] = Acv at hnds
      generalize hHcv : subhs.getD p [] = Hcv at hnds
      intro hchC
      cases hchC with
      | leaf c2 cn2 hresc2 hedgec2 hvlenc2 =>
        have hinjc : cn2 = cn0 := by
          have h2 : m.resolveN c = some cn2 := hresc2
          rw [hcres] at h2
          exact (Option.some.inj h2).symm
        rw [hinjc] at hresc2 hedgec2 hvlenc2 hAcv
        have hvne : lsn.vals ≠ [] := by
          intro hc
          apply hlkne
          rw [hc] at hvlen2
          simp at hvlen2
          cases hke : lsn.keys with
          | nil => rfl
          | cons a t => rw [hke] at hvlen2; simp at hvlen2
        obtain ⟨bv, hbv, hbvdec⟩ := getLast_decomp lsn.vals hvne
        have hbegl : lsn.edges.getLast? = none := by
          rw [hedge2]
          rfl
        have hcomp : fixChild B m h p
            = ((m.setNode ls
                ⟨lsn.keys.dropLast, lsn.vals.dropLast, lsn.edges.dropLast⟩).setNode c
                ⟨sk :: cn0.keys, sv :: cn0.vals, cn0.edges⟩).setNode h
                ⟨n.keys.set (p - 1) bk, n.vals.set (p - 1) bv, n.edges⟩ := by
          unfold fixChild
          simp only [hres, hcget, hcres]
          rw [if_neg hunder, if_pos hppos]
          simp only [hlsget, hlsres, hskget, hsvget]
          rw [if_pos hborrow]
          simp only [hbk, hbv, hbegl]
        rw [hcomp]
        -- the rotated sibling and child as leaves
        have hresls3 := resolveN_setNode3_first m ls c h
          (⟨lsn.keys.dropLast, lsn.vals.dropLast, lsn.edges.dropLast⟩ : BNode K V)
          (⟨sk :: cn0.keys, sv :: cn0.vals, cn0.edges⟩ : BNode K V)
          (⟨n.keys.set (p - 1) bk, n.vals.set (p - 1) bv, n.edges⟩ : BNode K V)
          (Ne.symm hls_ne_c) (Ne.symm hls_ne_h) hlivels
        have hresc3 := resolveN_setNode3_second m ls c h
          (⟨lsn.keys.dropLast, lsn.vals.dropLast, lsn.edges.dropLast⟩ : BNode K V)
          (⟨sk :: cn0.keys, sv :: cn0.vals, cn0.edges⟩ : BNode K V)
          (⟨n.keys.set (p - 1) bk, n.vals.set (p - 1) bv, n.edges⟩ : BNode K V)
          (Ne.symm hc_ne_h) hlivec
        have hresh3 := resolveN_setNode3_third m ls c h
          (⟨lsn.keys.dropLast, lsn.vals.dropLast, lsn.edges.dropLast⟩ : BNode K V)
          (⟨sk :: cn0.keys, sv :: cn0.vals, cn0.edges⟩ : BNode K V)
          (⟨n.keys.set (p - 1) bk, n.vals.set (p - 1) bv, n.edges⟩ : BNode K V)
          hlive
        have hrepA : Rep (((m.setNode ls
            ⟨lsn.keys.dropLast, lsn.vals.dropLast, lsn.edges.dropLast⟩).setNode c
            ⟨sk :: cn0.keys, sv :: cn0.vals, cn0.edges⟩).setNode h
            ⟨n.keys.set (p - 1) bk, n.vals.set (p - 1) bv, n.edges⟩).store 0
            (n.edges.getD (p - 1) 0)
            (lsn.keys.dropLast.zip lsn.vals.dropLast) [ls] := by
          rw [hlsD]
          exact Rep.leaf ls _ hresls3 (by rw [hedge2]; rfl)
            (by show lsn.vals.dropLast.length = lsn.keys.dropLast.length
                rw [List.length_dropLast, List.length_dropLast, hvlen2])
        have hrepB : Rep (((m.setNode ls
            ⟨lsn.keys.dropLast, lsn.vals.dropLast, lsn.edges.dropLast⟩).setNode c
            ⟨sk :: cn0.keys, sv :: cn0.vals, cn0.edges⟩).setNode h
            ⟨n.keys.set (p - 1) bk, n.vals.set (p - 1) bv, n.edges⟩).store 0
            (n.edges.getD p 0)
            ((sk, sv) :: cn0.keys.zip cn0.vals) [c] := by
          rw [hcD]
          have hr := Rep.leaf (s := (((m.setNode ls
            ⟨lsn.keys.dropLast, lsn.vals.dropLast, lsn.edges.dropLast⟩).setNode c
            ⟨sk :: cn0.keys, sv :: cn0.vals, cn0.edges⟩).setNode h
            ⟨n.keys.set (p - 1) bk, n.vals.set (p - 1) bv, n.edges⟩).store) c
            (⟨sk :: cn0.keys, sv :: cn0.vals, cn0.edges⟩ : BNode K V)
            hresc3 (by show cn0.edges = []; exact hedgec2)
            (by show (sv :: cn0.vals).length = (sk :: cn0.keys).length
                simp [hvlenc2])
          exact hr
        have hrepP := rep_internal_replace_two m.store
          (((m.setNode ls
            ⟨lsn.keys.dropLast, lsn.vals.dropLast, lsn.edges.dropLast⟩).setNode c
            ⟨sk :: cn0.keys, sv :: cn0.vals, cn0.edges⟩).setNode h
            ⟨n.keys.set (p - 1) bk, n.vals.set (p - 1) bv, n.edges⟩).store
          0 h n subs subhs (p - 1) bk bv
          (lsn.keys.dropLast.zip lsn.vals.dropLast) [ls]
          ((sk, sv) :: cn0.keys.zip cn0.vals) [c]
          hresh3 helen hvlen hslen hhslen hch (by omega) hndflat
          hrepA
          (by rw [hqe]; exact hrepB)
          (by
            intro x hx hx1 hx2
            rw [hqe] at hx2
            have hxls : x ≠ ls := fun hc => hx1 (by rw [hc, hheadS]; simp)
            have hxc : x ≠ c := fun hc => hx2 (by rw [hc, hheadC]; simp)
            have hxh : x ≠ h := fun hc => hh_not_flat (hc ▸ hx)
            exact resolveN_setNode3_ne m ls c h _ _ _ x hxls hxc hxh)
        rw [hqe] at hrepP
        -- the rotated abstract sequence equals the original one
        have hAdec : lsn.keys.zip lsn.vals
            = lsn.keys.dropLast.zip lsn.vals.dropLast ++ [(bk, bv)] := by
          conv_lhs => rw [hbkdec, hbvdec]
          rw [List.zip_append
            (by rw [List.length_dropLast, List.length_dropLast, hvlen2])]
          rfl
        have habs : glue ((n.keys.zip n.vals).set (p - 1) (bk, bv))
            ((subs.set (p - 1) (lsn.keys.dropLast.zip lsn.vals.dropLast)).set p
              ((sk, sv) :: cn0.keys.zip cn0.vals))
            = glue (n.keys.zip n.vals) subs := by
          rw [hsetc, hmain, hAs, hAcv, hAdec]
          simp [List.append_assoc]
        rw [zip_set_both, habs] at hrepP
        -- the handle lists coincide
        have hfl_eq : ((subhs.set (p - 1) [ls]).set p [c]).flatten
            = subhs.flatten := by
          rw [hgset, hgmain, hHs, hHcv]
        refine ⟨h :: ((subhs.set (p - 1) [ls]).set p [c]).flatten, [], hrepP,
          by rw [hfl_eq]; simp, by simp, ?_, rfl, rfl,
          (setNode3_fields m ls c h _ _ _).2.2.2.2, ?_, rfl, ?_, ?_⟩
        · intro j hj
          have hjh : j ≠ h := fun hc => hj (by simp [hc])
          have hjc : j ≠ c := fun hc => hj (by simp [hc ▸ hcmem])
          have hjls : j ≠ ls := fun hc => hj (by simp [hc ▸ hlsmem])
          exact resolveN_setNode3_ne m ls c h _ _ _ j hjls hjc hjh
        · exact setNode3_freeOK m ls c h _ _ _ hfree hfreels hfreec hnotfree
        · -- fill bounds of the rebuilt subtree
          intro j n2 hj hjh hres3
          rw [hfl_eq] at hj
          rcases List.mem_cons.mp hj with hc | hjf
          · exact absurd hc hjh
          · obtain ⟨hndG1, hnd5, hdj1⟩ := List.nodup_append.mp hnds
            obtain ⟨hndls1, hnd6, hdj2⟩ := List.nodup_append.mp hnd5
            obtain ⟨hndc1, hndG2, hdj3⟩ := List.nodup_append.mp hnd6
            have hjf2 : j ∈ G1 ++ ([ls] ++ ([c] ++ G2)) := by
              rw [← hHs, ← hHcv, ← hgmain]
              exact hjf
            by_cases hjls : j = ls
            · rw [hjls, hresls3] at hres3
              rw [← Option.some.inj hres3]
              show B - 1 ≤ lsn.keys.dropLast.length ∧ lsn.keys.dropLast.length ≤ 2 * B - 1
              rw [List.length_dropLast]
              omega
            · by_cases hjc : j = c
              · rw [hjc, hresc3] at hres3
                rw [← Option.some.inj hres3]
                show B - 1 ≤ (sk :: cn0.keys).length ∧ (sk :: cn0.keys).length ≤ 2 * B - 1
                simp only [List.length_cons]
                omega
              · have hres4 : m.resolveN j = some n2 := by
                  rw [← resolveN_setNode3_ne m ls c h _ _ _ j
                    (fun hc => hjls hc) (fun hc => hjc hc) (fun hc => hjh hc)]
                  exact hres3
                exact ⟨(hfillO j n2 hjf (by rw [hcD]; exact hjc) hres4).1,
                  (hfillO j n2 hjf (by rw [hcD]; exact hjc) hres4).2⟩
        · intro n2 hres3
          rw [hresh3] at hres3
          rw [← Option.some.inj hres3]
          left
          show (n.keys.set (p - 1) bk).length = n.keys.length
          rw [List.length_set]
    | internal d0 ls2 lsn2 subsS subhsS hres2 helen2 hvlen2 hslen2 hhslen2 hchS3 =>
      have hinj : lsn2 = lsn := by
        have h2 : m.resolveN ls = some lsn2 := hres2
        rw [hlsres] at h2
        exact (Option.some.inj h2).symm
      rw [hinj] at hres2 helen2 hvlen2 hslen2 hhslen2 hchS3 hAs
      revert hchC
      generalize hAcv : subs.getD p [] = Acv at hnds
      generalize hHcv : subhs.getD p [] = Hcv at hnds
      intro hchC
      cases hchC with
      | internal d0c c2 cn2 subsC subhsC hresc2 helenc2 hvlenc2 hslenc2 hhslenc2 hchC3 =>
        have hinjc : cn2 = cn0 := by
          have h2 : m.resolveN c = some cn2 := hresc2
          rw [hcres] at h2
          exact (Option.some.inj h2).symm
        rw [hinjc] at hresc2 helenc2 hvlenc2 hslenc2 hhslenc2 hchC3 hAcv
        have hvne : lsn.vals ≠ [] := by
          intro hc
          apply hlkne
          rw [hc] at hvlen2
          simp at hvlen2
          cases hke : lsn.keys with
          | nil => rfl
          | cons a t => rw [hke] at hvlen2; simp at hvlen2
        obtain ⟨bv, hbv, hbvdec⟩ := getLast_decomp lsn.vals hvne
        have hedne : lsn.edges ≠ [] := by
          intro hc
          rw [hc] at helen2
          simp at helen2
        obtain ⟨be, hbe, hbedec⟩ := getLast_decomp lsn.edges hedne
        obtain ⟨lastS, hlastS, hsubdec⟩ := getLast_decomp subsS (by
          intro hc
          rw [hc] at hslen2
          rw [helen2] at hslen2
          simp at hslen2)
        obtain ⟨lastH, hlastH, hsubhdec⟩ := getLast_decomp subhsS (by
          intro hc
          rw [hc] at hhslen2
          rw [helen2] at hhslen2
          simp at hhslen2)
        have hziplen : (lsn.keys.zip lsn.vals).length = lsn.keys.length := by
          simp [List.length_zip, hvlen2]
        obtain ⟨zl, hzl, hzipdec⟩ := getLast_decomp (lsn.keys.zip lsn.vals) (by
          intro hc
          apply hlkne
          rw [hc] at hziplen
          simp at hziplen
          cases hke : lsn.keys with
          | nil => rfl
          | cons a t => rw [hke] at hziplen; simp at hziplen)
        have hzl2 : zl = (bk, bv) := by
          have h2 := zip_getLast_both lsn.keys lsn.vals bk bv hvlen2 hbk hbv
          rw [hzl] at h2
          exact Option.some.inj h2
        rw [hzl2] at hzipdec
        -- index form of the last child of the sibling
        have hdropElen : lsn.edges.dropLast.length = lsn.keys.length := by
          rw [List.length_dropLast, helen2]
          omega
        have hdropSlen : subsS.dropLast.length = lsn.keys.length := by
          rw [List.length_dropLast, hslen2, helen2]
          omega
        have hdropHlen : subhsS.dropLast.length = lsn.keys.length := by
          rw [List.length_dropLast, hhslen2, helen2]
          omega
        have hbeD : lsn.edges.getD lsn.keys.length 0 = be := by
          conv_lhs => rw [hbedec]
          rw [getD_append_right _ _ _ _ (le_of_eq hdropElen),
            hdropElen]
          simp
        have hA0 : subsS.getD lsn.keys.length [] = lastS := by
          conv_lhs => rw [hsubdec]
          rw [getD_append_right _ _ _ _ (le_of_eq hdropSlen),
            hdropSlen]
          simp
        have hH0 : subhsS.getD lsn.keys.length [] = lastH := by
          conv_lhs => rw [hsubhdec]
          rw [getD_append_right _ _ _ _ (le_of_eq hdropHlen),
            hdropHlen]
          simp
        -- splitting the sibling's glued sequence at its last separator
        have hAsplit : glue (lsn.keys.zip lsn.vals) subsS
            = glue (lsn.keys.zip lsn.vals).dropLast subsS.dropLast
              ++ ((bk, bv) :: lastS) := by
          conv_lhs => rw [hzipdec, hsubdec]
          rw [glue_append _ _ _ _ _ (by
            rw [hdropSlen, List.length_dropLast, hziplen]
            omega)]
          rfl
        have hHflatdec : subhsS.flatten = subhsS.dropLast.flatten ++ lastH := by
          conv_lhs => rw [hsubhdec]
          rw [List.flatten_append]
          simp
        -- membership of the sibling and child grandchildren
        have hmemSS : ∀ x, x ∈ subhsS.flatten → x ∈ subhs.flatten := by
          intro x hx
          apply hmemflat (p - 1) (by omega)
          rw [hHs]
          exact List.mem_cons_of_mem ls hx
        have hmemCC : ∀ x, x ∈ subhsC.flatten → x ∈ subhs.flatten := by
          intro x hx
          apply hmemflat p hp
          rw [hHcv]
          exact List.mem_cons_of_mem c hx
        have hSSne : ∀ x, x ∈ subhsS.flatten → x ≠ ls ∧ x ≠ c ∧ x ≠ h := by
          intro x hx
          refine ⟨?_, ?_, fun hc2 => hh_not_flat (hc2 ▸ hmemSS x hx)⟩
          · intro hc2
            have hnp : (subhs.getD (p - 1) []).Nodup :=
              List.Nodup.sublist (part_sublist_flatten subhs (p - 1) (by omega))
                hndflat
            rw [hHs] at hnp
            exact (List.nodup_cons.mp hnp).1 (hc2 ▸ hx)
          · intro hc2
            apply nodup_flatten_parts_disjoint subhs hndflat (p - 1) p (by omega)
              (by omega) (by omega) x
              (by rw [hHs]; exact List.mem_cons_of_mem ls hx)
              (by rw [hc2, hHcv]; simp)
        have hCCne : ∀ x, x ∈ subhsC.flatten → x ≠ ls ∧ x ≠ c ∧ x ≠ h := by
          intro x hx
          refine ⟨?_, ?_, fun hc2 => hh_not_flat (hc2 ▸ hmemCC x hx)⟩
          · intro hc2
            apply nodup_flatten_parts_disjoint subhs hndflat p (p - 1) (by omega)
              (by omega) (by omega) x
              (by rw [hHcv]; exact List.mem_cons_of_mem c hx)
              (by rw [hc2, hHs]; simp)
          · intro hc2
            have hnp : (subhs.getD p []).Nodup :=
              List.Nodup.sublist (part_sublist_flatten subhs p (by omega)) hndflat
            rw [hHcv] at hnp
            exact (List.nodup_cons.mp hnp).1 (hc2 ▸ hx)
        -- computation path
        have hcomp : fixChild B m h p
            = ((m.setNode ls
                ⟨lsn.keys.dropLast, lsn.vals.dropLast, lsn.edges.dropLast⟩).setNode c
                ⟨sk :: cn0.keys, sv :: cn0.vals, be :: cn0.edges⟩).setNode h
                ⟨n.keys.set (p - 1) bk, n.vals.set (p - 1) bv, n.edges⟩ := by
          unfold fixChild
          simp only [hres, hcget, hcres]
          rw [if_neg hunder, if_pos hppos]
          simp only [hlsget, hlsres, hskget, hsvget]
          rw [if_pos hborrow]
          simp only [hbk, hbv, hbe]
        rw [hcomp]
        have hresls3 := resolveN_setNode3_first m ls c h
          (⟨lsn.keys.dropLast, lsn.vals.dropLast, lsn.edges.dropLast⟩ : BNode K V)
          (⟨sk :: cn0.keys, sv :: cn0.vals, be :: cn0.edges⟩ : BNode K V)
          (⟨n.keys.set (p - 1) bk, n.vals.set (p - 1) bv, n.edges⟩ : BNode K V)
          (Ne.symm hls_ne_c) (Ne.symm hls_ne_h) hlivels
        have hresc3 := resolveN_setNode3_second m ls c h
          (⟨lsn.keys.dropLast, lsn.vals.dropLast, lsn.edges.dropLast⟩ : BNode K V)
          (⟨sk :: cn0.keys, sv :: cn0.vals, be :: cn0.edges⟩ : BNode K V)
          (⟨n.keys.set (p - 1) bk, n.vals.set (p - 1) bv, n.edges⟩ : BNode K V)
          (Ne.symm hc_ne_h) hlivec
        have hresh3 := resolveN_setNode3_third m ls c h
          (⟨lsn.keys.dropLast, lsn.vals.dropLast, lsn.edges.dropLast⟩ : BNode K V)
          (⟨sk :: cn0.keys, sv :: cn0.vals, be :: cn0.edges⟩ : BNode K V)
          (⟨n.keys.set (p - 1) bk, n.vals.set (p - 1) bv, n.edges⟩ : BNode K V)
          hlive
        have hframex : ∀ x, x ≠ ls → x ≠ c → x ≠ h →
            (((m.setNode ls
              ⟨lsn.keys.dropLast, lsn.vals.dropLast, lsn.edges.dropLast⟩).setNode c
              ⟨sk :: cn0.keys, sv :: cn0.vals, be :: cn0.edges⟩).setNode h
              ⟨n.keys.set (p - 1) bk, n.vals.set (p - 1) bv, n.edges⟩).resolveN x
              = m.resolveN x :=
          fun x h1 h2 h3 => resolveN_setNode3_ne m ls c h _ _ _ x h1 h2 h3
        -- the sibling's children survive in the new state
        have hchS3' : ∀ i, i < lsn.edges.length →
            Rep (((m.setNode ls
              ⟨lsn.keys.dropLast, lsn.vals.dropLast, lsn.edges.dropLast⟩).setNode c
              ⟨sk :: cn0.keys, sv :: cn0.vals, be :: cn0.edges⟩).setNode h
              ⟨n.keys.set (p - 1) bk, n.vals.set (p - 1) bv, n.edges⟩).store d0
              (lsn.edges.getD i 0) (subsS.getD i []) (subhsS.getD i []) := by
          intro i hi
          apply (hchS3 i hi).frame
          intro x hx
          have hxS : x ∈ subhsS.flatten := by
            refine List.mem_flatten.mpr ⟨subhsS.getD i [], ?_, hx⟩
            have his : i < subhsS.length := by omega
            rw [List.getD_eq_getElem?_getD, List.getElem?_eq_getElem his]
            exact List.getElem_mem his
          obtain ⟨h1, h2, h3⟩ := hSSne x hxS
          exact hframex x h1 h2 h3
        have hchC3' : ∀ i, i < cn0.edges.length →
            Rep (((m.setNode ls
              ⟨lsn.keys.dropLast, lsn.vals.dropLast, lsn.edges.dropLast⟩).setNode c
              ⟨sk :: cn0.keys, sv :: cn0.vals, be :: cn0.edges⟩).setNode h
              ⟨n.keys.set (p - 1) bk, n.vals.set (p - 1) bv, n.edges⟩).store d0
              (cn0.edges.getD i 0) (subsC.getD i []) (subhsC.getD i []) := by
          intro i hi
          apply (hchC3 i hi).frame
          intro x hx
          have hxC : x ∈ subhsC.flatten := by
            refine List.mem_flatten.mpr ⟨subhsC.getD i [], ?_, hx⟩
            have his : i < subhsC.length := by omega
            rw [List.getD_eq_getElem?_getD, List.getElem?_eq_getElem his]
            exact List.getElem_mem his
          obtain ⟨h1, h2, h3⟩ := hCCne x hxC
          exact hframex x h1 h2 h3
        -- the moved subtree
        have hbsub : Rep (((m.setNode ls
            ⟨lsn.keys.dropLast, lsn.vals.dropLast, lsn.edges.dropLast⟩).setNode c
            ⟨sk :: cn0.keys, sv :: cn0.vals, be :: cn0.edges⟩).setNode h
            ⟨n.keys.set (p - 1) bk, n.vals.set (p - 1) bv, n.edges⟩).store d0
            be lastS lastH := by
          have hb0 := hchS3 lsn.keys.length (by omega)
          rw [hbeD, hA0, hH0] at hb0
          apply hb0.frame
          intro x hx
          have hxS : x ∈ subhsS.flatten := by
            rw [hHflatdec]
            exact List.mem_append_right _ hx
          obtain ⟨h1, h2, h3⟩ := hSSne x hxS
          exact hframex x h1 h2 h3
        -- the truncated sibling
        have hrepA : Rep (((m.setNode ls
            ⟨lsn.keys.dropLast, lsn.vals.dropLast, lsn.edges.dropLast⟩).setNode c
            ⟨sk :: cn0.keys, sv :: cn0.vals, be :: cn0.edges⟩).setNode h
            ⟨n.keys.set (p - 1) bk, n.vals.set (p - 1) bv, n.edges⟩).store (d0 + 1)
            (n.edges.getD (p - 1) 0)
            (glue (lsn.keys.zip lsn.vals).dropLast subsS.dropLast)
            (ls :: subhsS.dropLast.flatten) := by
          rw [hlsD]
          have hr := rep_child_drop_last _ d0 ls lsn subsS subhsS hresls3
            helen2 hvlen2 hslen2 hhslen2 hchS3' (by omega)
          rw [zip_dropLast_both lsn.keys lsn.vals hvlen2] at hr
          exact hr
        -- the extended child
        have hrepB : Rep (((m.setNode ls
            ⟨lsn.keys.dropLast, lsn.vals.dropLast, lsn.edges.dropLast⟩).setNode c
            ⟨sk :: cn0.keys, sv :: cn0.vals, be :: cn0.edges⟩).setNode h
            ⟨n.keys.set (p - 1) bk, n.vals.set (p - 1) bv, n.edges⟩).store (d0 + 1)
            (n.edges.getD p 0)
            (lastS ++ (sk, sv) :: glue (cn0.keys.zip cn0.vals) subsC)
            (c :: (lastH :: subhsC).flatten) := by
          rw [hcD]
          exact rep_child_extend_left _ d0 c cn0 sk sv be subsC subhsC lastS lastH
            hresc3 helenc2 hvlenc2 hslenc2 hhslenc2 hchC3' hbsub
        have hrepP := rep_internal_replace_two m.store
          (((m.setNode ls
            ⟨lsn.keys.dropLast, lsn.vals.dropLast, lsn.edges.dropLast⟩).setNode c
            ⟨sk :: cn0.keys, sv :: cn0.vals, be :: cn0.edges⟩).setNode h
            ⟨n.keys.set (p - 1) bk, n.vals.set (p - 1) bv, n.edges⟩).store
          (d0 + 1) h n subs subhs (p - 1) bk bv
          (glue (lsn.keys.zip lsn.vals).dropLast subsS.dropLast)
          (ls :: subhsS.dropLast.flatten)
          (lastS ++ (sk, sv) :: glue (cn0.keys.zip cn0.vals) subsC)
          (c :: (lastH :: subhsC).flatten)
          hresh3 helen hvlen hslen hhslen hch (by omega) hndflat
          hrepA
          (by rw [hqe]; exact hrepB)
          (by
            intro x hx hx1 hx2
            rw [hqe] at hx2
            have hxls : x ≠ ls := fun hc2 => hx1 (by rw [hc2, hheadS]; simp)
            have hxc : x ≠ c := fun hc2 => hx2 (by rw [hc2, hheadC]; simp)
            have hxh : x ≠ h := fun hc2 => hh_not_flat (hc2 ▸ hx)
            exact hframex x hxls hxc hxh)
        rw [hqe] at hrepP
        have habs : glue ((n.keys.zip n.vals).set (p - 1) (bk, bv))
            ((subs.set (p - 1)
              (glue (lsn.keys.zip lsn.vals).dropLast subsS.dropLast)).set p
              (lastS ++ (sk, sv) :: glue (cn0.keys.zip cn0.vals) subsC))
            = glue (n.keys.zip n.vals) subs := by
          rw [hsetc, hmain, hAs, hAcv, hAsplit]
          simp [List.append_assoc]
        rw [zip_set_both, habs] at hrepP
        -- handle permutation: one subtree moved between two siblings
        have hcore : ((ls :: subhsS.dropLast.flatten)
            ++ (c :: (lastH :: subhsC).flatten)).Perm
            ((ls :: subhsS.flatten) ++ (c :: subhsC.flatten)) := by
          rw [hHflatdec]
          show (ls :: (subhsS.dropLast.flatten ++ (c :: (lastH :: subhsC).flatten))).Perm
            (ls :: ((subhsS.dropLast.flatten ++ lastH) ++ (c :: subhsC.flatten)))
          apply List.Perm.cons ls
          have hmid : (c :: (lastH ++ subhsC.flatten)).Perm
              (lastH ++ (c :: subhsC.flatten)) := List.perm_middle.symm
          have h2 := hmid.append_left subhsS.dropLast.flatten
          have h3 : subhsS.dropLast.flatten ++ (lastH ++ (c :: subhsC.flatten))
              = (subhsS.dropLast.flatten ++ lastH) ++ (c :: subhsC.flatten) := by
            simp [List.append_assoc]
          rw [h3] at h2
          have h4 : (lastH :: subhsC).flatten = lastH ++ subhsC.flatten := by
            simp
          rw [h4]
          exact h2
        have hflatperm : (((subhs.set (p - 1) (ls :: subhsS.dropLast.flatten)).set p
            (c :: (lastH :: subhsC).flatten)).flatten).Perm subhs.flatten := by
          rw [hgset]
          have h1 : ∀ (X Y : List Nat), G1 ++ (X ++ (Y ++ G2)) = G1 ++ ((X ++ Y) ++ G2) := by
            intro X Y
            simp [List.append_assoc]
          rw [h1]
          have h5 : subhs.flatten
              = G1 ++ (((ls :: subhsS.flatten) ++ (c :: subhsC.flatten)) ++ G2) := by
            rw [hgmain, hHs, hHcv, ← h1]
          rw [h5]
          exact List.Perm.append_left G1 (hcore.append_right G2)
        refine ⟨h :: ((subhs.set (p - 1) (ls :: subhsS.dropLast.flatten)).set p
            (c :: (lastH :: subhsC).flatten)).flatten, [], hrepP,
          ?_, by simp, ?_, rfl, rfl,
          (setNode3_fields m ls c h _ _ _).2.2.2.2, ?_, rfl, ?_, ?_⟩
        · have h6 := hflatperm.symm.cons h
          simpa using h6
        · intro j hj
          have hjh : j ≠ h := fun hc2 => hj (by simp [hc2])
          have hjc : j ≠ c := fun hc2 => hj (by simp [hc2 ▸ hcmem])
          have hjls : j ≠ ls := fun hc2 => hj (by simp [hc2 ▸ hlsmem])
          exact hframex j hjls hjc hjh
        · exact setNode3_freeOK m ls c h _ _ _ hfree hfreels hfreec hnotfree
        · -- fill bounds of the rebuilt subtree
          intro j n2 hj hjh hres3
          rcases List.mem_cons.mp hj with hc2 | hjf
          · exact absurd hc2 hjh
          · have hjf2 : j ∈ subhs.flatten := hflatperm.mem_iff.mp hjf
            by_cases hjls : j = ls
            · rw [hjls, hresls3] at hres3
              rw [← Option.some.inj hres3]
              show B - 1 ≤ lsn.keys.dropLast.length
                ∧ lsn.keys.dropLast.length ≤ 2 * B - 1
              rw [List.length_dropLast]
              omega
            · by_cases hjc : j = c
              · rw [hjc, hresc3] at hres3
                rw [← Option.some.inj hres3]
                show B - 1 ≤ (sk :: cn0.keys).length
                  ∧ (sk :: cn0.keys).length ≤ 2 * B - 1
                simp only [List.length_cons]
                omega
              · have hres4 : m.resolveN j = some n2 := by
                  rw [← hframex j hjls hjc hjh]
                  exact hres3
                exact hfillO j n2 hjf2 (by rw [hcD]; exact hjc) hres4
        · intro n2 hres3
          rw [hresh3] at hres3
          rw [← Option.some.inj hres3]
          left
          show (n.keys.set (p - 1) bk).length = n.keys.length
          rw [List.length_set]
  · -- merge the child into the left sibling
    have hlslen : lsn.keys.length = B - 1 := by omega
    have hcomp : fixChild B m h p
        = ((m.setNode ls ⟨lsn.keys ++ sk :: cn0.keys, lsn.vals ++ sv :: cn0.vals,
            lsn.edges ++ cn0.edges⟩).setNode h
            ⟨n.keys.eraseIdx (p - 1), n.vals.eraseIdx (p - 1),
             n.edges.eraseIdx p⟩).deallocate c := by
      unfold fixChild
      simp only [hres, hcget, hcres]
      rw [if_neg hunder, if_pos hppos]
      simp only [hlsget, hlsres, hskget, hsvget]
      rw [if_neg hborrow]
    rw [hcomp]
    have hresls3 := resolveN_md_first m ls h c
      (⟨lsn.keys ++ sk :: cn0.keys, lsn.vals ++ sv :: cn0.vals,
        lsn.edges ++ cn0.edges⟩ : BNode K V)
      (⟨n.keys.eraseIdx (p - 1), n.vals.eraseIdx (p - 1), n.edges.eraseIdx p⟩ : BNode K V)
      (Ne.symm hls_ne_h) (Ne.symm hls_ne_c) hlivels
    have hresh3 := resolveN_md_second m ls h c
      (⟨lsn.keys ++ sk :: cn0.keys, lsn.vals ++ sv :: cn0.vals,
        lsn.edges ++ cn0.edges⟩ : BNode K V)
      (⟨n.keys.eraseIdx (p - 1), n.vals.eraseIdx (p - 1), n.edges.eraseIdx p⟩ : BNode K V)
      hc_ne_h hlive
    have hdeadc := resolveN_md_dealloc m ls h c
      (⟨lsn.keys ++ sk :: cn0.keys, lsn.vals ++ sv :: cn0.vals,
        lsn.edges ++ cn0.edges⟩ : BNode K V)
      (⟨n.keys.eraseIdx (p - 1), n.vals.eraseIdx (p - 1), n.edges.eraseIdx p⟩ : BNode K V)
      hlivec
    have hframex : ∀ x, x ≠ ls → x ≠ h → x ≠ c →
        (((m.setNode ls ⟨lsn.keys ++ sk :: cn0.keys, lsn.vals ++ sv :: cn0.vals,
          lsn.edges ++ cn0.edges⟩).setNode h
          ⟨n.keys.eraseIdx (p - 1), n.vals.eraseIdx (p - 1),
           n.edges.eraseIdx p⟩).deallocate c).resolveN x = m.resolveN x :=
      fun x h1 h2 h3 => resolveN_md_ne m ls h c _ _ x h1 h2 h3
    have hfreeOK3 : FreeOK (((m.setNode ls
        ⟨lsn.keys ++ sk :: cn0.keys, lsn.vals ++ sv :: cn0.vals,
          lsn.edges ++ cn0.edges⟩).setNode h
        ⟨n.keys.eraseIdx (p - 1), n.vals.eraseIdx (p - 1),
         n.edges.eraseIdx p⟩).deallocate c) := by
      apply md_freeOK m ls h c _ _ cn0 hfree hfreels hnotfree
      rw [resolveN_setNode_ne _ h _ c hc_ne_h,
        resolveN_setNode_ne _ ls _ c (Ne.symm hls_ne_c)]
      exact hcres
    have hcount3 : (((m.setNode ls
        ⟨lsn.keys ++ sk :: cn0.keys, lsn.vals ++ sv :: cn0.vals,
          lsn.edges ++ cn0.edges⟩).setNode h
        ⟨n.keys.eraseIdx (p - 1), n.vals.eraseIdx (p - 1),
         n.edges.eraseIdx p⟩).deallocate c).nodeCount + 1 = m.nodeCount := by
      have h1 := (md_fields m ls h c
        (⟨lsn.keys ++ sk :: cn0.keys, lsn.vals ++ sv :: cn0.vals,
          lsn.edges ++ cn0.edges⟩ : BNode K V)
        (⟨n.keys.eraseIdx (p - 1), n.vals.eraseIdx (p - 1),
          n.edges.eraseIdx p⟩ : BNode K V)).2.2.1
      rw [h1]
      have h2 : 1 ≤ m.nodeCount := by
        have := hcb
        simp only [List.length_cons] at this
        omega
      omega
    revert hchS
    generalize hAs : subs.getD (p - 1) [] = Als at hnds
    generalize hHs : subhs.getD (p - 1) [] = Hls at hnds
    intro hchS
    cases hchS with
    | leaf ls2 lsn2 hres2 hedge2 hvlen2 =>
      have hinj : lsn2 = lsn := by
        have h2 : m.resolveN ls = some lsn2 := hres2
        rw [hlsres] at h2
        exact (Option.some.inj h2).symm
      rw [hinj] at hres2 hedge2 hvlen2 hAs
      revert hchC
      generalize hAcv : subs.getD p [] = Acv at hnds
      generalize hHcv : subhs.getD p [] = Hcv at hnds
      intro hchC
      cases hchC with
      | leaf c2 cn2 hresc2 hedgec2 hvlenc2 =>
        have hinjc : cn2 = cn0 := by
          have h2 : m.resolveN c = some cn2 := hresc2
          rw [hcres] at h2
          exact (Option.some.inj h2).symm
        rw [hinjc] at hresc2 hedgec2 hvlenc2 hAcv
        have hzipm : (lsn.keys ++ sk :: cn0.keys).zip (lsn.vals ++ sv :: cn0.vals)
            = lsn.keys.zip lsn.vals ++ (sk, sv) :: cn0.keys.zip cn0.vals := by
          rw [List.zip_append hvlen2.symm]
          rfl
        have hchM : Rep (((m.setNode ls
            ⟨lsn.keys ++ sk :: cn0.keys, lsn.vals ++ sv :: cn0.vals,
              lsn.edges ++ cn0.edges⟩).setNode h
            ⟨n.keys.eraseIdx (p - 1), n.vals.eraseIdx (p - 1),
             n.edges.eraseIdx p⟩).deallocate c).store 0
            (n.edges.getD (p - 1) 0)
            (lsn.keys.zip lsn.vals ++ (sk, sv) :: cn0.keys.zip cn0.vals) [ls] := by
          rw [hlsD]
          have hr := Rep.leaf (s := (((m.setNode ls
            ⟨lsn.keys ++ sk :: cn0.keys, lsn.vals ++ sv :: cn0.vals,
              lsn.edges ++ cn0.edges⟩).setNode h
            ⟨n.keys.eraseIdx (p - 1), n.vals.eraseIdx (p - 1),
             n.edges.eraseIdx p⟩).deallocate c).store) ls
            (⟨lsn.keys ++ sk :: cn0.keys, lsn.vals ++ sv :: cn0.vals,
              lsn.edges ++ cn0.edges⟩ : BNode K V)
            hresls3
            (by show lsn.edges ++ cn0.edges = []
                rw [hedge2, hedgec2]
                rfl)
            (by show (lsn.vals ++ sv :: cn0.vals).length
                  = (lsn.keys ++ sk :: cn0.keys).length
                simp [hvlen2, hvlenc2])
          rw [show (⟨lsn.keys ++ sk :: cn0.keys, lsn.vals ++ sv :: cn0.vals,
              lsn.edges ++ cn0.edges⟩ : BNode K V).keys
              = lsn.keys ++ sk :: cn0.keys from rfl,
            show (⟨lsn.keys ++ sk :: cn0.keys, lsn.vals ++ sv :: cn0.vals,
              lsn.edges ++ cn0.edges⟩ : BNode K V).vals
              = lsn.vals ++ sv :: cn0.vals from rfl, hzipm] at hr
          exact hr
        have hrepP := rep_internal_merge_parent m.store
          (((m.setNode ls
            ⟨lsn.keys ++ sk :: cn0.keys, lsn.vals ++ sv :: cn0.vals,
              lsn.edges ++ cn0.edges⟩).setNode h
            ⟨n.keys.eraseIdx (p - 1), n.vals.eraseIdx (p - 1),
             n.edges.eraseIdx p⟩).deallocate c).store
          0 h n subs subhs (p - 1)
          (lsn.keys.zip lsn.vals ++ (sk, sv) :: cn0.keys.zip cn0.vals) [ls]
          (by rw [hqe]; exact hresh3)
          helen hvlen hslen hhslen hch (by omega) hndflat
          hchM
          (by
            intro x hx hx1 hx2
            rw [hqe] at hx2
            have hxls : x ≠ ls := fun hc2 => hx1 (by rw [hc2, hheadS]; simp)
            have hxc : x ≠ c := fun hc2 => hx2 (by rw [hc2, hheadC]; simp)
            have hxh : x ≠ h := fun hc2 => hh_not_flat (hc2 ▸ hx)
            exact hframex x hxls hxh hxc)
        rw [hqe] at hrepP
        have habs : glue ((n.keys.eraseIdx (p - 1)).zip (n.vals.eraseIdx (p - 1)))
            ((subs.set (p - 1)
              (lsn.keys.zip lsn.vals ++ (sk, sv) :: cn0.keys.zip cn0.vals)).eraseIdx p)
            = glue (n.keys.zip n.vals) subs := by
          rw [zip_eraseIdx_both (p - 1) n.keys n.vals hvlen, herasec, hmain, hAs, hAcv]
          simp [List.append_assoc]
        rw [habs] at hrepP
        have hflatperm2 : subhs.flatten.Perm
            (((subhs.set (p - 1) [ls]).eraseIdx p).flatten ++ [c]) := by
          rw [hgerase, hgmain, hHs, hHcv]
          have h1 : G1 ++ ([ls] ++ ([c] ++ G2)) = (G1 ++ [ls]) ++ (c :: G2) := by
            simp [List.append_assoc]
          have h2 : G1 ++ ([ls] ++ G2) ++ [c] = ((G1 ++ [ls]) ++ G2) ++ [c] := by
            simp [List.append_assoc]
          rw [h1, h2]
          exact perm_extract_middle (G1 ++ [ls]) G2 c
        have hnd7 : ((((subhs.set (p - 1) [ls]).eraseIdx p).flatten) ++ [c]).Nodup :=
          (hflatperm2.nodup_iff).mp hndflat
        have hcnot : c ∉ (((subhs.set (p - 1) [ls]).eraseIdx p).flatten) := by
          intro hc2
          exact (List.nodup_append.mp hnd7).2.2 hc2 (by simp)
        refine ⟨h :: (((subhs.set (p - 1) [ls]).eraseIdx p).flatten), [c], hrepP,
          ?_, ?_, ?_, (md_fields m ls h c _ _).1, (md_fields m ls h c _ _).2.1,
          (md_fields m ls h c _ _).2.2.2, hfreeOK3, ?_, ?_, ?_⟩
        · have h6 := hflatperm2.cons h
          refine h6.trans (List.Perm.of_eq ?_)
          simp
        · intro j hj
          have hj2 : j = c := by simpa using hj
          rw [hj2]
          exact hdeadc
        · intro j hj
          have hjh : j ≠ h := fun hc2 => hj (by simp [hc2])
          have hjc : j ≠ c := fun hc2 => hj (by simp [hc2 ▸ hcmem])
          have hjls : j ≠ ls := fun hc2 => hj (by simp [hc2 ▸ hlsmem])
          exact hframex j hjls hjh hjc
        · simpa using hcount3
        · intro j n2 hj hjh hres3
          rcases List.mem_cons.mp hj with hc2 | hjf
          · exact absurd hc2 hjh
          · have hjc : j ≠ c := fun hc2 => hcnot (hc2 ▸ hjf)
            have hjmem : j ∈ subhs.flatten :=
              hflatperm2.symm.mem_iff.mp (List.mem_append_left _ hjf)
            by_cases hjls : j = ls
            · rw [hjls, hresls3] at hres3
              rw [← Option.some.inj hres3]
              show B - 1 ≤ (lsn.keys ++ sk :: cn0.keys).length
                ∧ (lsn.keys ++ sk :: cn0.keys).length ≤ 2 * B - 1
              simp only [List.length_append, List.length_cons]
              omega
            · have hres4 : m.resolveN j = some n2 := by
                rw [← hframex j hjls hjh hjc]
                exact hres3
              exact hfillO j n2 hjmem (by rw [hcD]; exact hjc) hres4
        · intro n2 hres3
          rw [hresh3] at hres3
          rw [← Option.some.inj hres3]
          right
          show (n.keys.eraseIdx (p - 1)).length + 1 = n.keys.length
          rw [List.length_eraseIdx_of_lt (by omega)]
          omega
    | internal d0 ls2 lsn2 subsS subhsS hres2 helen2 hvlen2 hslen2 hhslen2 hchS3 =>
      have hinj : lsn2 = lsn := by
        have h2 : m.resolveN ls = some lsn2 := hres2
        rw [hlsres] at h2
        exact (Option.some.inj h2).symm
      rw [hinj] at hres2 helen2 hvlen2 hslen2 hhslen2 hchS3 hAs
      revert hchC
      generalize hAcv : subs.getD p [] = Acv at hnds
      generalize hHcv : subhs.getD p [] = Hcv at hnds
      intro hchC
      cases hchC with
      | internal d0c c2 cn2 subsC subhsC hresc2 helenc2 hvlenc2 hslenc2 hhslenc2 hchC3 =>
        have hinjc : cn2 = cn0 := by
          have h2 : m.resolveN c = some cn2 := hresc2
          rw [hcres] at h2
          exact (Option.some.inj h2).symm
        rw [hinjc] at hresc2 helenc2 hvlenc2 hslenc2 hhslenc2 hchC3 hAcv
        have hmemSS : ∀ x, x ∈ subhsS.flatten → x ∈ subhs.flatten := by
          intro x hx
          apply hmemflat (p - 1) (by omega)
          rw [hHs]
          exact List.mem_cons_of_mem ls hx
        have hmemCC : ∀ x, x ∈ subhsC.flatten → x ∈ subhs.flatten := by
          intro x hx
          apply hmemflat p hp
          rw [hHcv]
          exact List.mem_cons_of_mem c hx
        have hSSne : ∀ x, x ∈ subhsS.flatten → x ≠ ls ∧ x ≠ c ∧ x ≠ h := by
          intro x hx
          refine ⟨?_, ?_, fun hc2 => hh_not_flat (hc2 ▸ hmemSS x hx)⟩
          · intro hc2
            have hnp : (subhs.getD (p - 1) []).Nodup :=
              List.Nodup.sublist (part_sublist_flatten subhs (p - 1) (by omega))
                hndflat
            rw [hHs] at hnp
            exact (List.nodup_cons.mp hnp).1 (hc2 ▸ hx)
          · intro hc2
            apply nodup_flatten_parts_disjoint subhs hndflat (p - 1) p (by omega)
              (by omega) (by omega) x
              (by rw [hHs]; exact List.mem_cons_of_mem ls hx)
              (by rw [hc2, hHcv]; simp)
        have hCCne : ∀ x, x ∈ subhsC.flatten → x ≠ ls ∧ x ≠ c ∧ x ≠ h := by
          intro x hx
          refine ⟨?_, ?_, fun hc2 => hh_not_flat (hc2 ▸ hmemCC x hx)⟩
          · intro hc2
            apply nodup_flatten_parts_disjoint subhs hndflat p (p - 1) (by omega)
              (by omega) (by omega) x
              (by rw [hHcv]; exact List.mem_cons_of_mem c hx)
              (by rw [hc2, hHs]; simp)
          · intro hc2
            have hnp : (subhs.getD p []).Nodup :=
              List.Nodup.sublist (part_sublist_flatten subhs p (by omega)) hndflat
            rw [hHcv] at hnp
            exact (List.nodup_cons.mp hnp).1 (hc2 ▸ hx)
        have hchS3' : ∀ i, i < lsn.edges.length →
            Rep (((m.setNode ls
              ⟨lsn.keys ++ sk :: cn0.keys, lsn.vals ++ sv :: cn0.vals,
                lsn.edges ++ cn0.edges⟩).setNode h
              ⟨n.keys.eraseIdx (p - 1), n.vals.eraseIdx (p - 1),
               n.edges.eraseIdx p⟩).deallocate c).store d0
              (lsn.edges.getD i 0) (subsS.getD i []) (subhsS.getD i []) := by
          intro i hi
          apply (hchS3 i hi).frame
          intro x hx
          have hxS : x ∈ subhsS.flatten := by
            refine List.mem_flatten.mpr ⟨subhsS.getD i [], ?_, hx⟩
            have his : i < subhsS.length := by omega
            rw [List.getD_eq_getElem?_getD, List.getElem?_eq_getElem his]
            exact List.getElem_mem his
          obtain ⟨h1, h2, h3⟩ := hSSne x hxS
          exact hframex x h1 h3 h2
        have hchC3' : ∀ i, i < cn0.edges.length →
            Rep (((m.setNode ls
              ⟨lsn.keys ++ sk :: cn0.keys, lsn.vals ++ sv :: cn0.vals,
                lsn.edges ++ cn0.edges⟩).setNode h
              ⟨n.keys.eraseIdx (p - 1), n.vals.eraseIdx (p - 1),
               n.edges.eraseIdx p⟩).deallocate c).store d0
              (cn0.edges.getD i 0) (subsC.getD i []) (subhsC.getD i []) := by
          intro i hi
          apply (hchC3 i hi).frame
          intro x hx
          have hxC : x ∈ subhsC.flatten := by
            refine List.mem_flatten.mpr ⟨subhsC.getD i [], ?_, hx⟩
            have his : i < subhsC.length := by omega
            rw [List.getD_eq_getElem?_getD, List.getElem?_eq_getElem his]
            exact List.getElem_mem his
          obtain ⟨h1, h2, h3⟩ := hCCne x hxC
          exact hframex x h1 h3 h2
        have hchM : Rep (((m.setNode ls
            ⟨lsn.keys ++ sk :: cn0.keys, lsn.vals ++ sv :: cn0.vals,
              lsn.edges ++ cn0.edges⟩).setNode h
            ⟨n.keys.eraseIdx (p - 1), n.vals.eraseIdx (p - 1),
             n.edges.eraseIdx p⟩).deallocate c).store (d0 + 1)
            (n.edges.getD (p - 1) 0)
            (glue (lsn.keys.zip lsn.vals) subsS
              ++ (sk, sv) :: glue (cn0.keys.zip cn0.vals) subsC)
            (ls :: (subhsS ++ subhsC).flatten) := by
          rw [hlsD]
          exact rep_merge_nodes _ d0 ls lsn cn0 sk sv subsS subsC subhsS subhsC
            hresls3 helen2 hvlen2 hslen2 hhslen2 hchS3'
            helenc2 hvlenc2 hslenc2 hhslenc2 hchC3'
        have hrepP := rep_internal_merge_parent m.store
          (((m.setNode ls
            ⟨lsn.keys ++ sk :: cn0.keys, lsn.vals ++ sv :: cn0.vals,
              lsn.edges ++ cn0.edges⟩).setNode h
            ⟨n.keys.eraseIdx (p - 1), n.vals.eraseIdx (p - 1),
             n.edges.eraseIdx p⟩).deallocate c).store
          (d0 + 1) h n subs subhs (p - 1)
          (glue (lsn.keys.zip lsn.vals) subsS
            ++ (sk, sv) :: glue (cn0.keys.zip cn0.vals) subsC)
          (ls :: (subhsS ++ subhsC).flatten)
          (by rw [hqe]; exact hresh3)
          helen hvlen hslen hhslen hch (by omega) hndflat
          hchM
          (by
            intro x hx hx1 hx2
            rw [hqe] at hx2
            have hxls : x ≠ ls := fun hc2 => hx1 (by rw [hc2, hheadS]; simp)
            have hxc : x ≠ c := fun hc2 => hx2 (by rw [hc2, hheadC]; simp)
            have hxh : x ≠ h := fun hc2 => hh_not_flat (hc2 ▸ hx)
            exact hframex x hxls hxh hxc)
        rw [hqe] at hrepP
        have habs : glue ((n.keys.eraseIdx (p - 1)).zip (n.vals.eraseIdx (p - 1)))
            ((subs.set (p - 1)
              (glue (lsn.keys.zip lsn.vals) subsS
                ++ (sk, sv) :: glue (cn0.keys.zip cn0.vals) subsC)).eraseIdx p)
            = glue (n.keys.zip n.vals) subs := by
          rw [zip_eraseIdx_both (p - 1) n.keys n.vals hvlen, herasec, hmain, hAs, hAcv]
          simp [List.append_assoc]
        rw [habs] at hrepP
        have hflatperm2 : subhs.flatten.Perm
            (((subhs.set (p - 1) (ls :: (subhsS ++ subhsC).flatten)).eraseIdx p).flatten
              ++ [c]) := by
          rw [hgerase, hgmain, hHs, hHcv]
          have h1 : G1 ++ ((ls :: subhsS.flatten) ++ ((c :: subhsC.flatten) ++ G2))
              = (G1 ++ (ls :: subhsS.flatten)) ++ (c :: (subhsC.flatten ++ G2)) := by
            simp [List.append_assoc]
          have h2 : G1 ++ ((ls :: (subhsS ++ subhsC).flatten) ++ G2) ++ [c]
              = ((G1 ++ (ls :: subhsS.flatten)) ++ (subhsC.flatten ++ G2)) ++ [c] := by
            rw [List.flatten_append]
            simp [List.append_assoc]
          rw [h1, h2]
          exact perm_extract_middle (G1 ++ (ls :: subhsS.flatten))
            (subhsC.flatten ++ G2) c
        have hnd7 : ((((subhs.set (p - 1)
            (ls :: (subhsS ++ subhsC).flatten)).eraseIdx p).flatten) ++ [c]).Nodup :=
          (hflatperm2.nodup_iff).mp hndflat
        have hcnot : c ∉ (((subhs.set (p - 1)
            (ls :: (subhsS ++ subhsC).flatten)).eraseIdx p).flatten) := by
          intro hc2
          exact (List.nodup_append.mp hnd7).2.2 hc2 (by simp)
        refine ⟨h :: (((subhs.set (p - 1)
            (ls :: (subhsS ++ subhsC).flatten)).eraseIdx p).flatten), [c], hrepP,
          ?_, ?_, ?_, (md_fields m ls h c _ _).1, (md_fields m ls h c _ _).2.1,
          (md_fields m ls h c _ _).2.2.2, hfreeOK3, ?_, ?_, ?_⟩
        · have h6 := hflatperm2.cons h
          refine h6.trans (List.Perm.of_eq ?_)
          simp
        · intro j hj
          have hj2 : j = c := by simpa using hj
          rw [hj2]
          exact hdeadc
        · intro j hj
          have hjh : j ≠ h := fun hc2 => hj (by simp [hc2])
          have hjc : j ≠ c := fun hc2 => hj (by simp [hc2 ▸ hcmem])
          have hjls : j ≠ ls := fun hc2 => hj (by simp [hc2 ▸ hlsmem])
          exact hframex j hjls hjh hjc
        · simpa using hcount3
        · intro j n2 hj hjh hres3
          rcases List.mem_cons.mp hj with hc2 | hjf
          · exact absurd hc2 hjh
          · have hjc : j ≠ c := fun hc2 => hcnot (hc2 ▸ hjf)
            have hjmem : j ∈ subhs.flatten :=
              hflatperm2.symm.mem_iff.mp (List.mem_append_left _ hjf)
            by_cases hjls : j = ls
            · rw [hjls, hresls3] at hres3
              rw [← Option.some.inj hres3]
              show B - 1 ≤ (lsn.keys ++ sk :: cn0.keys).length
                ∧ (lsn.keys ++ sk :: cn0.keys).length ≤ 2 * B - 1
              simp only [List.length_append, List.length_cons]
              omega
            · have hres4 : m.resolveN j = some n2 := by
                rw [← hframex j hjls hjh hjc]
                exact hres3
              exact hfillO j n2 hjmem (by rw [hcD]; exact hjc) hres4
        · intro n2 hres3
          rw [hresh3] at hres3
          rw [← Option.some.inj hres3]
          right
          show (n.keys.eraseIdx (p - 1)).length + 1 = n.keys.length
          rw [List.length_eraseIdx_of_lt (by omega)]
          omega

/-- `fixChild` repair through the right sibling (p = 0): borrow or merge. -/
theorem fixChild_right_spec (B : Nat) (hB : 2 ≤ B) (m : BTM K V) (h p : Nat)
    (n : BNode K V) (ht0 : Nat)
    (subs : List (List (K × V))) (subhs : List (List Nat))
    (hres : m.resolveN h = some n)
    (helen : n.edges.length = n.keys.length + 1)
    (hvlen : n.vals.length = n.keys.length)
    (hslen : subs.length = n.edges.length)
    (hhslen : subhs.length = n.edges.length)
    (hch : ∀ i, i < n.edges.length →
      Rep m.store ht0 (n.edges.getD i 0) (subs.getD i []) (subhs.getD i []))
    (hp : p < n.edges.length)
    (hkn : 1 ≤ n.keys.length)
    (hnd : (h :: subhs.flatten).Nodup)
    (hfree : FreeOK m)
    (hcb : (h :: subhs.flatten).length ≤ m.nodeCount)
    (hfillO : ∀ j n2, j ∈ subhs.flatten → j ≠ n.edges.getD p 0 →
      m.resolveN j = some n2 → B - 1 ≤ n2.keys.length ∧ n2.keys.length ≤ 2 * B - 1)
    (hfillC : ∀ n2, m.resolveN (n.edges.getD p 0) = some n2 →
      B - 2 ≤ n2.keys.length ∧ n2.keys.length ≤ 2 * B - 1)
    (c rs : Nat) (cn0 rsn : BNode K V)
    (hcget : n.edges.get? p = some c)
    (hcres : m.resolveN c = some cn0)
    (hclen : cn0.keys.length = B - 2)
    (hunder : ¬ B - 1 ≤ cn0.keys.length)
    (hppos : ¬ 0 < p)
    (hrsget : n.edges.get? (p + 1) = some rs)
    (hrsres : m.resolveN rs = some rsn) :
    ∃ hs2 D,
      Rep (fixChild B m h p).store (ht0 + 1) h (glue (n.keys.zip n.vals) subs) hs2
      ∧ (h :: subhs.flatten).Perm (hs2 ++ D)
      ∧ (∀ j, j ∈ D → (fixChild B m h p).resolveN j = none)
      ∧ (∀ j, j ∉ h :: subhs.flatten → (fixChild B m h p).resolveN j = m.resolveN j)
      ∧ (fixChild B m h p).root = m.root
      ∧ (fixChild B m h p).hlen = m.hlen
      ∧ (fixChild B m h p).store.length = m.store.length
      ∧ FreeOK (fixChild B m h p)
      ∧ (fixChild B m h p).nodeCount + D.length = m.nodeCount
      ∧ (∀ j n2, j ∈ hs2 → j ≠ h → (fixChild B m h p).resolveN j = some n2 →
          B - 1 ≤ n2.keys.length ∧ n2.keys.length ≤ 2 * B - 1)
      ∧ (∀ n2, (fixChild B m h p).resolveN h = some n2 →
          n2.keys.length = n.keys.length ∨ n2.keys.length + 1 = n.keys.length) := by
  -- shared facts about the parent and the child at edge p
  have hndflat : subhs.flatten.Nodup := (List.nodup_cons.mp hnd).2
  have hh_not_flat : h ∉ subhs.flatten := (List.nodup_cons.mp hnd).1
  have hmemflat : ∀ i, i < n.edges.length → ∀ x, x ∈ subhs.getD i [] →
      x ∈ subhs.flatten := by
    intro i hi x hx
    refine List.mem_flatten.mpr ⟨subhs.getD i [], ?_, hx⟩
    have his : i < subhs.length := by omega
    rw [List.getD_eq_getElem?_getD, List.getElem?_eq_getElem his]
    exact List.getElem_mem his
  have hcD : n.edges.getD p 0 = c := by
    rw [List.getD_eq_getElem?_getD, ← List.get?_eq_getElem?, hcget]
    rfl
  have hchC : Rep m.store ht0 c (subs.getD p []) (subhs.getD p []) := by
    rw [← hcD]
    exact hch p hp
  have hheadC : subhs.getD p [] = c :: (subhs.getD p []).tail := hchC.head_eq
  have hcmem : c ∈ subhs.flatten := by
    apply hmemflat p hp
    rw [hheadC]
    simp
  have hc_ne_h : c ≠ h := fun hc => hh_not_flat (hc ▸ hcmem)
  have hlive : h < m.store.length := resolveN_lt_length m h n hres
  have hnotfree : h ∉ m.free := by
    intro hc
    rw [hfree.2.1 h hc] at hres
    exact Option.noConfusion hres
  have hp1 : p + 1 < n.edges.length := by omega
  have hrsD : n.edges.getD (p + 1) 0 = rs := by
    rw [List.getD_eq_getElem?_getD, ← List.get?_eq_getElem?, hrsget]
    rfl
  have hchS : Rep m.store ht0 rs (subs.getD (p + 1) []) (subhs.getD (p + 1) []) := by
    rw [← hrsD]
    exact hch (p + 1) hp1
  have hheadS : subhs.getD (p + 1) [] = rs :: (subhs.getD (p + 1) []).tail :=
    hchS.head_eq
  have hrsmem : rs ∈ subhs.flatten := by
    apply hmemflat (p + 1) hp1
    rw [hheadS]
    simp
  have hrs_ne_h : rs ≠ h := fun hc => hh_not_flat (hc ▸ hrsmem)
  have hrs_ne_c : rs ≠ c := by
    intro hc
    exact nodup_flatten_parts_disjoint subhs hndflat (p + 1) p (by omega) (by omega)
      (by omega) rs (by rw [hheadS]; simp) (by rw [hc, hheadC]; simp)
  obtain ⟨sk, hskget⟩ := get_of_lt n.keys p (by omega)
  obtain ⟨sv, hsvget⟩ := get_of_lt n.vals p (by omega)
  have hrsfill := hfillO rs rsn hrsmem (by rw [hcD]; exact hrs_ne_c) hrsres
  obtain ⟨P1, P2, xq, hxq, hmain, hsetc, herasec⟩ :=
    glue_adj_decompose p (n.keys.zip n.vals) subs
      (by rw [List.length_zip, hvlen]; omega)
      (by simp [hslen, helen, List.length_zip, hvlen])
  have hxq2 : xq = (sk, sv) := by
    have h2 := zip_get_of_parts hskget hsvget
    rw [hxq] at h2
    exact Option.some.inj h2
  subst hxq2
  obtain ⟨G1, G2, hgmain, hgset, hgerase⟩ := flatten_adj_decomp p subhs (by omega)
  have hlivers : rs < m.store.length := resolveN_lt_length m rs rsn hrsres
  have hlivec : c < m.store.length := resolveN_lt_length m c cn0 hcres
  have hfreers : rs ∉ m.free := by
    intro hc
    rw [hfree.2.1 rs hc] at hrsres
    exact Option.noConfusion hrsres
  have hfreec : c ∉ m.free := by
    intro hc
    rw [hfree.2.1 c hc] at hcres
    exact Option.noConfusion hcres
  by_cases hborrow : B ≤ rsn.keys.length
  · -- borrow the first entry of the right sibling through the separator
    have hrkne : rsn.keys ≠ [] := by
      intro hc
      rw [hc] at hborrow
      simp at hborrow
      omega
    obtain ⟨bk, hbk, hbkdec⟩ := head_decomp rsn.keys hrkne
    revert hchS
    generalize hAs : subs.getD (p + 1) [] = Als
    generalize hHs : subhs.getD (p + 1) [] = Hls
    intro hchS
    cases hchS with
    | leaf rs2 rsn2 hres2 hedge2 hvlen2 =>
      have hinj : rsn2 = rsn := by
        have h2 : m.resolveN rs = some rsn2 := hres2
        rw [hrsres] at h2
        exact (Option.some.inj h2).symm
      rw [hinj] at hres2 hedge2 hvlen2 hAs
      revert hchC
      generalize hAcv : subs.getD p [] = Acv
      generalize hHcv : subhs.getD p [] = Hcv
      intro hchC
      cases hchC with
      | leaf c2 cn2 hresc2 hedgec2 hvlenc2 =>
        have hinjc : cn2 = cn0 := by
          have h2 : m.resolveN c = some cn2 := hresc2
          rw [hcres] at h2
          exact (Option.some.inj h2).symm
        rw [hinjc] at hresc2 hedgec2 hvlenc2 hAcv
        have hvne : rsn.vals ≠ [] := by
          intro hc
          apply hrkne
          rw [hc] at hvlen2
          simp at hvlen2
          cases hke : rsn.keys with
          | nil => rfl
          | cons a t => rw [hke] at hvlen2; simp at hvlen2
        obtain ⟨bv, hbv, hbvdec⟩ := head_decomp rsn.vals hvne
        have hbehd : rsn.edges.head? = none := by
          rw [hedge2]
          rfl
        have hcomp : fixChild B m h p
            = ((m.setNode rs
                ⟨rsn.keys.tail, rsn.vals.tail, rsn.edges.tail⟩).setNode c
                ⟨cn0.keys ++ [sk], cn0.vals ++ [sv], cn0.edges⟩).setNode h
                ⟨n.keys.set p bk, n.vals.set p bv, n.edges⟩ := by
          unfold fixChild
          simp only [hres, hcget, hcres]
          rw [if_neg hunder, if_neg hppos]
          simp only [hrsget, hrsres, hskget, hsvget]
          rw [if_pos hborrow]
          simp only [hbk, hbv, hbehd]
        rw [hcomp]
        have hresrs3 := resolveN_setNode3_first m rs c h
          (⟨rsn.keys.tail, rsn.vals.tail, rsn.edges.tail⟩ : BNode K V)
          (⟨cn0.keys ++ [sk], cn0.vals ++ [sv], cn0.edges⟩ : BNode K V)
          (⟨n.keys.set p bk, n.vals.set p bv, n.edges⟩ : BNode K V)
          (Ne.symm hrs_ne_c) (Ne.symm hrs_ne_h) hlivers
        have hresc3 := resolveN_setNode3_second m rs c h
          (⟨rsn.keys.tail, rsn.vals.tail, rsn.edges.tail⟩ : BNode K V)
          (⟨cn0.keys ++ [sk], cn0.vals ++ [sv], cn0.edges⟩ : BNode K V)
          (⟨n.keys.set p bk, n.vals.set p bv, n.edges⟩ : BNode K V)
          (Ne.symm hc_ne_h) hlivec
        have hresh3 := resolveN_setNode3_third m rs c h
          (⟨rsn.keys.tail, rsn.vals.tail, rsn.edges.tail⟩ : BNode K V)
          (⟨cn0.keys ++ [sk], cn0.vals ++ [sv], cn0.edges⟩ : BNode K V)
          (⟨n.keys.set p bk, n.vals.set p bv, n.edges⟩ : BNode K V)
          hlive
        have hframex : ∀ x, x ≠ rs → x ≠ c → x ≠ h →
            (((m.setNode rs
              ⟨rsn.keys.tail, rsn.vals.tail, rsn.edges.tail⟩).setNode c
              ⟨cn0.keys ++ [sk], cn0.vals ++ [sv], cn0.edges⟩).setNode h
              ⟨n.keys.set p bk, n.vals.set p bv, n.edges⟩).resolveN x
              = m.resolveN x :=
          fun x h1 h2 h3 => resolveN_setNode3_ne m rs c h _ _ _ x h1 h2 h3
        have hzipc : (cn0.keys ++ [sk]).zip (cn0.vals ++ [sv])
            = cn0.keys.zip cn0.vals ++ [(sk, sv)] := by
          rw [List.zip_append hvlenc2.symm]
          rfl
        have hrepA : Rep (((m.setNode rs
            ⟨rsn.keys.tail, rsn.vals.tail, rsn.edges.tail⟩).setNode c
            ⟨cn0.keys ++ [sk], cn0.vals ++ [sv], cn0.edges⟩).setNode h
            ⟨n.keys.set p bk, n.vals.set p bv, n.edges⟩).store 0
            (n.edges.getD p 0)
            (cn0.keys.zip cn0.vals ++ [(sk, sv)]) [c] := by
          rw [hcD]
          have hr := Rep.leaf (s := (((m.setNode rs
            ⟨rsn.keys.tail, rsn.vals.tail, rsn.edges.tail⟩).setNode c
            ⟨cn0.keys ++ [sk], cn0.vals ++ [sv], cn0.edges⟩).setNode h
            ⟨n.keys.set p bk, n.vals.set p bv, n.edges⟩).store) c
            (⟨cn0.keys ++ [sk], cn0.vals ++ [sv], cn0.edges⟩ : BNode K V)
            hresc3 (by show cn0.edges = []; exact hedgec2)
            (by show (cn0.vals ++ [sv]).length = (cn0.keys ++ [sk]).length
                simp [hvlenc2])
          rw [show (⟨cn0.keys ++ [sk], cn0.vals ++ [sv], cn0.edges⟩ : BNode K V).keys
              = cn0.keys ++ [sk] from rfl,
            show (⟨cn0.keys ++ [sk], cn0.vals ++ [sv], cn0.edges⟩ : BNode K V).vals
              = cn0.vals ++ [sv] from rfl, hzipc] at hr
          exact hr
        have hrepB : Rep (((m.setNode rs
            ⟨rsn.keys.tail, rsn.vals.tail, rsn.edges.tail⟩).setNode c
            ⟨cn0.keys ++ [sk], cn0.vals ++ [sv], cn0.edges⟩).setNode h
            ⟨n.keys.set p bk, n.vals.set p bv, n.edges⟩).store 0
            (n.edges.getD (p + 1) 0)
            (rsn.keys.tail.zip rsn.vals.tail) [rs] := by
          rw [hrsD]
          exact Rep.leaf rs _ hresrs3 (by rw [hedge2]; rfl)
            (by show rsn.vals.tail.length = rsn.keys.tail.length
                rw [List.length_tail, List.length_tail, hvlen2])
        have hrepP := rep_internal_replace_two m.store
          (((m.setNode rs
            ⟨rsn.keys.tail, rsn.vals.tail, rsn.edges.tail⟩).setNode c
            ⟨cn0.keys ++ [sk], cn0.vals ++ [sv], cn0.edges⟩).setNode h
            ⟨n.keys.set p bk, n.vals.set p bv, n.edges⟩).store
          0 h n subs subhs p bk bv
          (cn0.keys.zip cn0.vals ++ [(sk, sv)]) [c]
          (rsn.keys.tail.zip rsn.vals.tail) [rs]
          hresh3 helen hvlen hslen hhslen hch (by omega) hndflat
          hrepA hrepB
          (by
            intro x hx hx1 hx2
            have hxc : x ≠ c := fun hc2 => hx1 (by rw [hc2, hheadC]; simp)
            have hxrs : x ≠ rs := fun hc2 => hx2 (by rw [hc2, hheadS]; simp)
            have hxh : x ≠ h := fun hc2 => hh_not_flat (hc2 ▸ hx)
            exact hframex x hxrs hxc hxh)
        have hAdec : rsn.keys.zip rsn.vals
            = (bk, bv) :: rsn.keys.tail.zip rsn.vals.tail := by
          conv_lhs => rw [hbkdec, hbvdec]
          rfl
        have habs : glue ((n.keys.zip n.vals).set p (bk, bv))
            ((subs.set p (cn0.keys.zip cn0.vals ++ [(sk, sv)])).set (p + 1)
              (rsn.keys.tail.zip rsn.vals.tail))
            = glue (n.keys.zip n.vals) subs := by
          rw [hsetc, hmain, hAcv, hAs, hAdec]
          simp [List.append_assoc]
        rw [zip_set_both, habs] at hrepP
        have hfl_eq : ((subhs.set p [c]).set (p + 1) [rs]).flatten
            = subhs.flatten := by
          rw [hgset, hgmain, hHcv, hHs]
        refine ⟨h :: ((subhs.set p [c]).set (p + 1) [rs]).flatten, [], hrepP,
          by rw [hfl_eq]; simp, by simp, ?_, rfl, rfl,
          (setNode3_fields m rs c h _ _ _).2.2.2.2, ?_, rfl, ?_, ?_⟩
        · intro j hj
          have hjh : j ≠ h := fun hc2 => hj (by simp [hc2])
          have hjc : j ≠ c := fun hc2 => hj (by simp [hc2 ▸ hcmem])
          have hjrs : j ≠ rs := fun hc2 => hj (by simp [hc2 ▸ hrsmem])
          exact hframex j hjrs hjc hjh
        · exact setNode3_freeOK m rs c h _ _ _ hfree hfreers hfreec hnotfree
        · intro j n2 hj hjh hres3
          rw [hfl_eq] at hj
          rcases List.mem_cons.mp hj with hc2 | hjf
          · exact absurd hc2 hjh
          · by_cases hjrs : j = rs
            · rw [hjrs, hresrs3] at hres3
              rw [← Option.some.inj hres3]
              show B - 1 ≤ rsn.keys.tail.length ∧ rsn.keys.tail.length ≤ 2 * B - 1
              rw [List.length_tail]
              omega
            · by_cases hjc : j = c
              · rw [hjc, hresc3] at hres3
                rw [← Option.some.inj hres3]
                show B - 1 ≤ (cn0.keys ++ [sk]).length
                  ∧ (cn0.keys ++ [sk]).length ≤ 2 * B - 1
                simp only [List.length_append, List.length_singleton]
                omega
              · have hres4 : m.resolveN j = some n2 := by
                  rw [← hframex j hjrs hjc hjh]
                  exact hres3
                exact hfillO j n2 hjf (by rw [hcD]; exact hjc) hres4
        · intro n2 hres3
          rw [hresh3] at hres3
          rw [← Option.some.inj hres3]
          left
          show (n.keys.set p bk).length = n.keys.length
          rw [List.length_set]
    | internal d0 rs2 rsn2 subsS subhsS hres2 helen2 hvlen2 hslen2 hhslen2 hchS3 =>
      have hinj : rsn2 = rsn := by
        have h2 : m.resolveN rs = some rsn2 := hres2
        rw [hrsres] at h2
        exact (Option.some.inj h2).symm
      rw [hinj] at hres2 helen2 hvlen2 hslen2 hhslen2 hchS3 hAs
      revert hchC
      generalize hAcv : subs.getD p [] = Acv
      generalize hHcv : subhs.getD p [] = Hcv
      intro hchC
      cases hchC with
      | internal d0c c2 cn2 subsC subhsC hresc2 helenc2 hvlenc2 hslenc2 hhslenc2 hchC3 =>
        have hinjc : cn2 = cn0 := by
          have h2 : m.resolveN c = some cn2 := hresc2
          rw [hcres] at h2
          exact (Option.some.inj h2).symm
        rw [hinjc] at hresc2 helenc2 hvlenc2 hslenc2 hhslenc2 hchC3 hAcv
        have hvne : rsn.vals ≠ [] := by
          intro hc
          apply hrkne
          rw [hc] at hvlen2
          simp at hvlen2
          cases hke : rsn.keys with
          | nil => rfl
          | cons a t => rw [hke] at hvlen2; simp at hvlen2
        obtain ⟨bv, hbv, hbvdec⟩ := head_decomp rsn.vals hvne
        have hedne : rsn.edges ≠ [] := by
          intro hc
          rw [hc] at helen2
          simp at helen2
        obtain ⟨be, hbe, hbedec⟩ := head_decomp rsn.edges hedne
        obtain ⟨firstS, hfirstS, hsubdec⟩ := head_decomp subsS (by
          intro hc
          rw [hc] at hslen2
          rw [helen2] at hslen2
          simp at hslen2)
        obtain ⟨firstH, hfirstH, hsubhdec⟩ := head_decomp subhsS (by
          intro hc
          rw [hc] at hhslen2
          rw [helen2] at hhslen2
          simp at hhslen2)
        have hbeD : rsn.edges.getD 0 0 = be := by
          conv_lhs => rw [hbedec]
          rfl
        have hA0 : subsS.getD 0 [] = firstS := by
          conv_lhs => rw [hsubdec]
          rfl
        have hH0 : subhsS.getD 0 [] = firstH := by
          conv_lhs => rw [hsubhdec]
          rfl
        have hAsplit : glue (rsn.keys.zip rsn.vals) subsS
            = firstS ++ ((bk, bv) :: glue (rsn.keys.zip rsn.vals).tail subsS.tail) := by
          conv_lhs => rw [hbkdec, hbvdec, hsubdec]
          rw [show (bk :: rsn.keys.tail).zip (bv :: rsn.vals.tail)
              = (bk, bv) :: rsn.keys.tail.zip rsn.vals.tail from rfl]
          rw [glue_cons_eq, zip_tail_both]
        have hHflatdec : subhsS.flatten = firstH ++ subhsS.tail.flatten := by
          conv_lhs => rw [hsubhdec]
          simp
        have hmemSS : ∀ x, x ∈ subhsS.flatten → x ∈ subhs.flatten := by
          intro x hx
          apply hmemflat (p + 1) hp1
          rw [hHs]
          exact List.mem_cons_of_mem rs hx
        have hmemCC : ∀ x, x ∈ subhsC.flatten → x ∈ subhs.flatten := by
          intro x hx
          apply hmemflat p hp
          rw [hHcv]
          exact List.mem_cons_of_mem c hx
        have hSSne : ∀ x, x ∈ subhsS.flatten → x ≠ rs ∧ x ≠ c ∧ x ≠ h := by
          intro x hx
          refine ⟨?_, ?_, fun hc2 => hh_not_flat (hc2 ▸ hmemSS x hx)⟩
          · intro hc2
            have hnp : (subhs.getD (p + 1) []).Nodup :=
              List.Nodup.sublist (part_sublist_flatten subhs (p + 1) (by omega))
                hndflat
            rw [hHs] at hnp
            exact (List.nodup_cons.mp hnp).1 (hc2 ▸ hx)
          · intro hc2
            apply nodup_flatten_parts_disjoint subhs hndflat (p + 1) p (by omega)
              (by omega) (by omega) x
              (by rw [hHs]; exact List.mem_cons_of_mem rs hx)
              (by rw [hc2, hHcv]; simp)
        have hCCne : ∀ x, x ∈ subhsC.flatten → x ≠ rs ∧ x ≠ c ∧ x ≠ h := by
          intro x hx
          refine ⟨?_, ?_, fun hc2 => hh_not_flat (hc2 ▸ hmemCC x hx)⟩
          · intro hc2
            apply nodup_flatten_parts_disjoint subhs hndflat p (p + 1) (by omega)
              (by omega) (by omega) x
              (by rw [hHcv]; exact List.mem_cons_of_mem c hx)
              (by rw [hc2, hHs]; simp)
          · intro hc2
            have hnp : (subhs.getD p []).Nodup :=
              List.Nodup.sublist (part_sublist_flatten subhs p (by omega)) hndflat
            rw [hHcv] at hnp
            exact (List.nodup_cons.mp hnp).1 (hc2 ▸ hx)
        have hcomp : fixChild B m h p
            = ((m.setNode rs
                ⟨rsn.keys.tail, rsn.vals.tail, rsn.edges.tail⟩).setNode c
                ⟨cn0.keys ++ [sk], cn0.vals ++ [sv], cn0.edges ++ [be]⟩).setNode h
                ⟨n.keys.set p bk, n.vals.set p bv, n.edges⟩ := by
          unfold fixChild
          simp only [hres, hcget, hcres]
          rw [if_neg hunder, if_neg hppos]
          simp only [hrsget, hrsres, hskget, hsvget]
          rw [if_pos hborrow]
          simp only [hbk, hbv, hbe]
        rw [hcomp]
        have hresrs3 := resolveN_setNode3_first m rs c h
          (⟨rsn.keys.tail, rsn.vals.tail, rsn.edges.tail⟩ : BNode K V)
          (⟨cn0.keys ++ [sk], cn0.vals ++ [sv], cn0.edges ++ [be]⟩ : BNode K V)
          (⟨n.keys.set p bk, n.vals.set p bv, n.edges⟩ : BNode K V)
          (Ne.symm hrs_ne_c) (Ne.symm hrs_ne_h) hlivers
        have hresc3 := resolveN_setNode3_second m rs c h
          (⟨rsn.keys.tail, rsn.vals.tail, rsn.edges.tail⟩ : BNode K V)
          (⟨cn0.keys ++ [sk], cn0.vals ++ [sv], cn0.edges ++ [be]⟩ : BNode K V)
          (⟨n.keys.set p bk, n.vals.set p bv, n.edges⟩ : BNode K V)
          (Ne.symm hc_ne_h) hlivec
        have hresh3 := resolveN_setNode3_third m rs c h
          (⟨rsn.keys.tail, rsn.vals.tail, rsn.edges.tail⟩ : BNode K V)
          (⟨cn0.keys ++ [sk], cn0.vals ++ [sv], cn0.edges ++ [be]⟩ : BNode K V)
          (⟨n.keys.set p bk, n.vals.set p bv, n.edges⟩ : BNode K V)
          hlive
        have hframex : ∀ x, x ≠ rs → x ≠ c → x ≠ h →
            (((m.setNode rs
              ⟨rsn.keys.tail, rsn.vals.tail, rsn.edges.tail⟩).setNode c
              ⟨cn0.keys ++ [sk], cn0.vals ++ [sv], cn0.edges ++ [be]⟩).setNode h
              ⟨n.keys.set p bk, n.vals.set p bv, n.edges⟩).resolveN x
              = m.resolveN x :=
          fun x h1 h2 h3 => resolveN_setNode3_ne m rs c h _ _ _ x h1 h2 h3
        have hchS3' : ∀ i, i < rsn.edges.length →
            Rep (((m.setNode rs
              ⟨rsn.keys.tail, rsn.vals.tail, rsn.edges.tail⟩).setNode c
              ⟨cn0.keys ++ [sk], cn0.vals ++ [sv], cn0.edges ++ [be]⟩).setNode h
              ⟨n.keys.set p bk, n.vals.set p bv, n.edges⟩).store d0
              (rsn.edges.getD i 0) (subsS.getD i []) (subhsS.getD i []) := by
          intro i hi
          apply (hchS3 i hi).frame
          intro x hx
          have hxS : x ∈ subhsS.flatten := by
            refine List.mem_flatten.mpr ⟨subhsS.getD i [], ?_, hx⟩
            have his : i < subhsS.length := by omega
            rw [List.getD_eq_getElem?_getD, List.getElem?_eq_getElem his]
            exact List.getElem_mem his
          obtain ⟨h1, h2, h3⟩ := hSSne x hxS
          exact hframex x h1 h2 h3
        have hchC3' : ∀ i, i < cn0.edges.length →
            Rep (((m.setNode rs
              ⟨rsn.keys.tail, rsn.vals.tail, rsn.edges.tail⟩).setNode c
              ⟨cn0.keys ++ [sk], cn0.vals ++ [sv], cn0.edges ++ [be]⟩).setNode h
              ⟨n.keys.set p bk, n.vals.set p bv, n.edges⟩).store d0
              (cn0.edges.getD i 0) (subsC.getD i []) (subhsC.getD i []) := by
          intro i hi
          apply (hchC3 i hi).frame
          intro x hx
          have hxC : x ∈ subhsC.flatten := by
            refine List.mem_flatten.mpr ⟨subhsC.getD i [], ?_, hx⟩
            have his : i < subhsC.length := by omega
            rw [List.getD_eq_getElem?_getD, List.getElem?_eq_getElem his]
            exact List.getElem_mem his
          obtain ⟨h1, h2, h3⟩ := hCCne x hxC
          exact hframex x h1 h2 h3
        have hbsub : Rep (((m.setNode rs
            ⟨rsn.keys.tail, rsn.vals.tail, rsn.edges.tail⟩).setNode c
            ⟨cn0.keys ++ [sk], cn0.vals ++ [sv], cn0.edges ++ [be]⟩).setNode h
            ⟨n.keys.set p bk, n.vals.set p bv, n.edges⟩).store d0
            be firstS firstH := by
          have hb0 := hchS3 0 (by omega)
          rw [hbeD, hA0, hH0] at hb0
          apply hb0.frame
          intro x hx
          have hxS : x ∈ subhsS.flatten := by
            rw [hHflatdec]
            exact List.mem_append_left _ hx
          obtain ⟨h1, h2, h3⟩ := hSSne x hxS
          exact hframex x h1 h2 h3
        have hrepA : Rep (((m.setNode rs
            ⟨rsn.keys.tail, rsn.vals.tail, rsn.edges.tail⟩).setNode c
            ⟨cn0.keys ++ [sk], cn0.vals ++ [sv], cn0.edges ++ [be]⟩).setNode h
            ⟨n.keys.set p bk, n.vals.set p bv, n.edges⟩).store (d0 + 1)
            (n.edges.getD p 0)
            (glue (cn0.keys.zip cn0.vals) subsC ++ (sk, sv) :: firstS)
            (c :: (subhsC ++ [firstH]).flatten) := by
          rw [hcD]
          exact rep_child_extend_right _ d0 c cn0 sk sv be subsC subhsC firstS firstH
            hresc3 helenc2 hvlenc2 hslenc2 hhslenc2 hchC3' hbsub
        have hrepB : Rep (((m.setNode rs
            ⟨rsn.keys.tail, rsn.vals.tail, rsn.edges.tail⟩).setNode c
            ⟨cn0.keys ++ [sk], cn0.vals ++ [sv], cn0.edges ++ [be]⟩).setNode h
            ⟨n.keys.set p bk, n.vals.set p bv, n.edges⟩).store (d0 + 1)
            (n.edges.getD (p + 1) 0)
            (glue (rsn.keys.zip rsn.vals).tail subsS.tail)
            (rs :: subhsS.tail.flatten) := by
          rw [hrsD]
          have hr := rep_child_drop_head _ d0 rs rsn subsS subhsS hresrs3
            helen2 hvlen2 hslen2 hhslen2 hchS3' (by omega)
          rw [zip_tail_both] at hr
          exact hr
        have hrepP := rep_internal_replace_two m.store
          (((m.setNode rs
            ⟨rsn.keys.tail, rsn.vals.tail, rsn.edges.tail⟩).setNode c
            ⟨cn0.keys ++ [sk], cn0.vals ++ [sv], cn0.edges ++ [be]⟩).setNode h
            ⟨n.keys.set p bk, n.vals.set p bv, n.edges⟩).store
          (d0 + 1) h n subs subhs p bk bv
          (glue (cn0.keys.zip cn0.vals) subsC ++ (sk, sv) :: firstS)
          (c :: (subhsC ++ [firstH]).flatten)
          (glue (rsn.keys.zip rsn.vals).tail subsS.tail)
          (rs :: subhsS.tail.flatten)
          hresh3 helen hvlen hslen hhslen hch (by omega) hndflat
          hrepA hrepB
          (by
            intro x hx hx1 hx2
            have hxc : x ≠ c := fun hc2 => hx1 (by rw [hc2, hheadC]; simp)
            have hxrs : x ≠ rs := fun hc2 => hx2 (by rw [hc2, hheadS]; simp)
            have hxh : x ≠ h := fun hc2 => hh_not_flat (hc2 ▸ hx)
            exact hframex x hxrs hxc hxh)
        have habs : glue ((n.keys.zip n.vals).set p (bk, bv))
            ((subs.set p
              (glue (cn0.keys.zip cn0.vals) subsC ++ (sk, sv) :: firstS)).set (p + 1)
              (glue (rsn.keys.zip rsn.vals).tail subsS.tail))
            = glue (n.keys.zip n.vals) subs := by
          rw [hsetc, hmain, hAcv, hAs, hAsplit]
          simp [List.append_assoc]
        rw [zip_set_both, habs] at hrepP
        have hcore : ((c :: (subhsC ++ [firstH]).flatten)
            ++ (rs :: subhsS.tail.flatten)).Perm
            ((c :: subhsC.flatten) ++ (rs :: subhsS.flatten)) := by
          rw [hHflatdec]
          have h4 : (subhsC ++ [firstH]).flatten = subhsC.flatten ++ firstH := by
            simp
          rw [h4]
          show (c :: ((subhsC.flatten ++ firstH) ++ (rs :: subhsS.tail.flatten))).Perm
            (c :: (subhsC.flatten ++ (rs :: (firstH ++ subhsS.tail.flatten))))
          apply List.Perm.cons c
          have hmid : (firstH ++ (rs :: subhsS.tail.flatten)).Perm
              (rs :: (firstH ++ subhsS.tail.flatten)) := List.perm_middle
          have h2 := hmid.append_left subhsC.flatten
          have h3 : subhsC.flatten ++ (firstH ++ (rs :: subhsS.tail.flatten))
              = (subhsC.flatten ++ firstH) ++ (rs :: subhsS.tail.flatten) := by
            simp [List.append_assoc]
          rw [h3] at h2
          exact h2
        have hflatperm : (((subhs.set p (c :: (subhsC ++ [firstH]).flatten)).set (p + 1)
            (rs :: subhsS.tail.flatten)).flatten).Perm subhs.flatten := by
          rw [hgset]
          have h1 : ∀ (X Y : List Nat), G1 ++ (X ++ (Y ++ G2)) = G1 ++ ((X ++ Y) ++ G2) := by
            intro X Y
            simp [List.append_assoc]
          rw [h1]
          have h5 : subhs.flatten
              = G1 ++ (((c :: subhsC.flatten) ++ (rs :: subhsS.flatten)) ++ G2) := by
            rw [hgmain, hHcv, hHs, ← h1]
          rw [h5]
          exact List.Perm.append_left G1 (hcore.append_right G2)
        refine ⟨h :: ((subhs.set p (c :: (subhsC ++ [firstH]).flatten)).set (p + 1)
            (rs :: subhsS.tail.flatten)).flatten, [], hrepP,
          ?_, by simp, ?_, rfl, rfl,
          (setNode3_fields m rs c h _ _ _).2.2.2.2, ?_, rfl, ?_, ?_⟩
        · have h6 := hflatperm.symm.cons h
          simpa using h6
        · intro j hj
          have hjh : j ≠ h := fun hc2 => hj (by simp [hc2])
          have hjc : j ≠ c := fun hc2 => hj (by simp [hc2 ▸ hcmem])
          have hjrs : j ≠ rs := fun hc2 => hj (by simp [hc2 ▸ hrsmem])
          exact hframex j hjrs hjc hjh
        · exact setNode3_freeOK m rs c h _ _ _ hfree hfreers hfreec hnotfree
        · intro j n2 hj hjh hres3
          rcases List.mem_cons.mp hj with hc2 | hjf
          · exact absurd hc2 hjh
          · have hjf2 : j ∈ subhs.flatten := hflatperm.mem_iff.mp hjf
            by_cases hjrs : j = rs
            · rw [hjrs, hresrs3] at hres3
              rw [← Option.some.inj hres3]
              show B - 1 ≤ rsn.keys.tail.length ∧ rsn.keys.tail.length ≤ 2 * B - 1
              rw [List.length_tail]
              omega
            · by_cases hjc : j = c
              · rw [hjc, hresc3] at hres3
                rw [← Option.some.inj hres3]
                show B - 1 ≤ (cn0.keys ++ [sk]).length
                  ∧ (cn0.keys ++ [sk]).length ≤ 2 * B - 1
                simp only [List.length_append, List.length_singleton]
                omega
              · have hres4 : m.resolveN j = some n2 := by
                  rw [← hframex j hjrs hjc hjh]
                  exact hres3
                exact hfillO j n2 hjf2 (by rw [hcD]; exact hjc) hres4
        · intro n2 hres3
          rw [hresh3] at hres3
          rw [← Option.some.inj hres3]
          left
          show (n.keys.set p bk).length = n.keys.length
          rw [List.length_set]
  · -- merge the right sibling into the child
    have hrslen : rsn.keys.length = B - 1 := by omega
    have hcomp : fixChild B m h p
        = ((m.setNode c ⟨cn0.keys ++ sk :: rsn.keys, cn0.vals ++ sv :: rsn.vals,
            cn0.edges ++ rsn.edges⟩).setNode h
            ⟨n.keys.eraseIdx p, n.vals.eraseIdx p,
             n.edges.eraseIdx (p + 1)⟩).deallocate rs := by
      unfold fixChild
      simp only [hres, hcget, hcres]
      rw [if_neg hunder, if_neg hppos]
      simp only [hrsget, hrsres, hskget, hsvget]
      rw [if_neg hborrow]
    rw [hcomp]
    have hresc3 := resolveN_md_first m c h rs
      (⟨cn0.keys ++ sk :: rsn.keys, cn0.vals ++ sv :: rsn.vals,
        cn0.edges ++ rsn.edges⟩ : BNode K V)
      (⟨n.keys.eraseIdx p, n.vals.eraseIdx p, n.edges.eraseIdx (p + 1)⟩ : BNode K V)
      (Ne.symm hc_ne_h) hrs_ne_c hlivec
    have hresh3 := resolveN_md_second m c h rs
      (⟨cn0.keys ++ sk :: rsn.keys, cn0.vals ++ sv :: rsn.vals,
        cn0.edges ++ rsn.edges⟩ : BNode K V)
      (⟨n.keys.eraseIdx p, n.vals.eraseIdx p, n.edges.eraseIdx (p + 1)⟩ : BNode K V)
      hrs_ne_h hlive
    have hdeadrs := resolveN_md_dealloc m c h rs
      (⟨cn0.keys ++ sk :: rsn.keys, cn0.vals ++ sv :: rsn.vals,
        cn0.edges ++ rsn.edges⟩ : BNode K V)
      (⟨n.keys.eraseIdx p, n.vals.eraseIdx p, n.edges.eraseIdx (p + 1)⟩ : BNode K V)
      hlivers
    have hframex : ∀ x, x ≠ c → x ≠ h → x ≠ rs →
        (((m.setNode c ⟨cn0.keys ++ sk :: rsn.keys, cn0.vals ++ sv :: rsn.vals,
          cn0.edges ++ rsn.edges⟩).setNode h
          ⟨n.keys.eraseIdx p, n.vals.eraseIdx p,
           n.edges.eraseIdx (p + 1)⟩).deallocate rs).resolveN x = m.resolveN x :=
      fun x h1 h2 h3 => resolveN_md_ne m c h rs _ _ x h1 h2 h3
    have hfreeOK3 : FreeOK (((m.setNode c
        ⟨cn0.keys ++ sk :: rsn.keys, cn0.vals ++ sv :: rsn.vals,
          cn0.edges ++ rsn.edges⟩).setNode h
        ⟨n.keys.eraseIdx p, n.vals.eraseIdx p,
         n.edges.eraseIdx (p + 1)⟩).deallocate rs) := by
      apply md_freeOK m c h rs _ _ rsn hfree hfreec hnotfree
      rw [resolveN_setNode_ne _ h _ rs hrs_ne_h,
        resolveN_setNode_ne _ c _ rs hrs_ne_c]
      exact hrsres
    have hcount3 : (((m.setNode c
        ⟨cn0.keys ++ sk :: rsn.keys, cn0.vals ++ sv :: rsn.vals,
          cn0.edges ++ rsn.edges⟩).setNode h
        ⟨n.keys.eraseIdx p, n.vals.eraseIdx p,
         n.edges.eraseIdx (p + 1)⟩).deallocate rs).nodeCount + 1 = m.nodeCount := by
      have h1 := (md_fields m c h rs
        (⟨cn0.keys ++ sk :: rsn.keys, cn0.vals ++ sv :: rsn.vals,
          cn0.edges ++ rsn.edges⟩ : BNode K V)
        (⟨n.keys.eraseIdx p, n.vals.eraseIdx p,
          n.edges.eraseIdx (p + 1)⟩ : BNode K V)).2.2.1
      rw [h1]
      have h2 : 1 ≤ m.nodeCount := by
        have := hcb
        simp only [List.length_cons] at this
        omega
      omega
    revert hchS
    generalize hAs : subs.getD (p + 1) [] = Als
    generalize hHs : subhs.getD (p + 1) [] = Hls
    intro hchS
    cases hchS with
    | leaf rs2 rsn2 hres2 hedge2 hvlen2 =>
      have hinj : rsn2 = rsn := by
        have h2 : m.resolveN rs = some rsn2 := hres2
        rw [hrsres] at h2
        exact (Option.some.inj h2).symm
      rw [hinj] at hres2 hedge2 hvlen2 hAs
      revert hchC
      generalize hAcv : subs.getD p [] = Acv
      generalize hHcv : subhs.getD p [] = Hcv
      intro hchC
      cases hchC with
      | leaf c2 cn2 hresc2 hedgec2 hvlenc2 =>
        have hinjc : cn2 = cn0 := by
          have h2 : m.resolveN c = some cn2 := hresc2
          rw [hcres] at h2
          exact (Option.some.inj h2).symm
        rw [hinjc] at hresc2 hedgec2 hvlenc2 hAcv
        have hzipm : (cn0.keys ++ sk :: rsn.keys).zip (cn0.vals ++ sv :: rsn.vals)
            = cn0.keys.zip cn0.vals ++ (sk, sv) :: rsn.keys.zip rsn.vals := by
          rw [List.zip_append hvlenc2.symm]
          rfl
        have hchM : Rep (((m.setNode c
            ⟨cn0.keys ++ sk :: rsn.keys, cn0.vals ++ sv :: rsn.vals,
              cn0.edges ++ rsn.edges⟩).setNode h
            ⟨n.keys.eraseIdx p, n.vals.eraseIdx p,
             n.edges.eraseIdx (p + 1)⟩).deallocate rs).store 0
            (n.edges.getD p 0)
            (cn0.keys.zip cn0.vals ++ (sk, sv) :: rsn.keys.zip rsn.vals) [c] := by
          rw [hcD]
          have hr := Rep.leaf (s := (((m.setNode c
            ⟨cn0.keys ++ sk :: rsn.keys, cn0.vals ++ sv :: rsn.vals,
              cn0.edges ++ rsn.edges⟩).setNode h
            ⟨n.keys.eraseIdx p, n.vals.eraseIdx p,
             n.edges.eraseIdx (p + 1)⟩).deallocate rs).store) c
            (⟨cn0.keys ++ sk :: rsn.keys, cn0.vals ++ sv :: rsn.vals,
              cn0.edges ++ rsn.edges⟩ : BNode K V)
            hresc3
            (by show cn0.edges ++ rsn.edges = []
                rw [hedge2, hedgec2]
                rfl)
            (by show (cn0.vals ++ sv :: rsn.vals).length
                  = (cn0.keys ++ sk :: rsn.keys).length
                simp [hvlen2, hvlenc2])
          rw [show (⟨cn0.keys ++ sk :: rsn.keys, cn0.vals ++ sv :: rsn.vals,
              cn0.edges ++ rsn.edges⟩ : BNode K V).keys
              = cn0.keys ++ sk :: rsn.keys from rfl,
            show (⟨cn0.keys ++ sk :: rsn.keys, cn0.vals ++ sv :: rsn.vals,
              cn0.edges ++ rsn.edges⟩ : BNode K V).vals
              = cn0.vals ++ sv :: rsn.vals from rfl, hzipm] at hr
          exact hr
        have hrepP := rep_internal_merge_parent m.store
          (((m.setNode c
            ⟨cn0.keys ++ sk :: rsn.keys, cn0.vals ++ sv :: rsn.vals,
              cn0.edges ++ rsn.edges⟩).setNode h
            ⟨n.keys.eraseIdx p, n.vals.eraseIdx p,
             n.edges.eraseIdx (p + 1)⟩).deallocate rs).store
          0 h n subs subhs p
          (cn0.keys.zip cn0.vals ++ (sk, sv) :: rsn.keys.zip rsn.vals) [c]
          hresh3
          helen hvlen hslen hhslen hch (by omega) hndflat
          hchM
          (by
            intro x hx hx1 hx2
            have hxc : x ≠ c := fun hc2 => hx1 (by rw [hc2, hheadC]; simp)
            have hxrs : x ≠ rs := fun hc2 => hx2 (by rw [hc2, hheadS]; simp)
            have hxh : x ≠ h := fun hc2 => hh_not_flat (hc2 ▸ hx)
            exact hframex x hxc hxh hxrs)
        have habs : glue ((n.keys.eraseIdx p).zip (n.vals.eraseIdx p))
            ((subs.set p
              (cn0.keys.zip cn0.vals ++ (sk, sv) :: rsn.keys.zip rsn.vals)).eraseIdx
              (p + 1))
            = glue (n.keys.zip n.vals) subs := by
          rw [zip_eraseIdx_both p n.keys n.vals hvlen, herasec, hmain, hAcv, hAs]
          simp [List.append_assoc]
        rw [habs] at hrepP
        have hflatperm2 : subhs.flatten.Perm
            (((subhs.set p [c]).eraseIdx (p + 1)).flatten ++ [rs]) := by
          rw [hgerase, hgmain, hHcv, hHs]
          have h1 : G1 ++ ([c] ++ ([rs] ++ G2)) = (G1 ++ [c]) ++ (rs :: G2) := by
            simp [List.append_assoc]
          have h2 : G1 ++ ([c] ++ G2) ++ [rs] = ((G1 ++ [c]) ++ G2) ++ [rs] := by
            simp [List.append_assoc]
          rw [h1, h2]
          exact perm_extract_middle (G1 ++ [c]) G2 rs
        have hnd7 : ((((subhs.set p [c]).eraseIdx (p + 1)).flatten) ++ [rs]).Nodup :=
          (hflatperm2.nodup_iff).mp hndflat
        have hrsnot : rs ∉ (((subhs.set p [c]).eraseIdx (p + 1)).flatten) := by
          intro hc2
          exact (List.nodup_append.mp hnd7).2.2 hc2 (by simp)
        refine ⟨h :: (((subhs.set p [c]).eraseIdx (p + 1)).flatten), [rs], hrepP,
          ?_, ?_, ?_, (md_fields m c h rs _ _).1, (md_fields m c h rs _ _).2.1,
          (md_fields m c h rs _ _).2.2.2, hfreeOK3, ?_, ?_, ?_⟩
        · have h6 := hflatperm2.cons h
          refine h6.trans (List.Perm.of_eq ?_)
          simp
        · intro j hj
          have hj2 : j = rs := by simpa using hj
          rw [hj2]
          exact hdeadrs
        · intro j hj
          have hjh : j ≠ h := fun hc2 => hj (by simp [hc2])
          have hjc : j ≠ c := fun hc2 => hj (by simp [hc2 ▸ hcmem])
          have hjrs : j ≠ rs := fun hc2 => hj (by simp [hc2 ▸ hrsmem])
          exact hframex j hjc hjh hjrs
        · simpa using hcount3
        · intro j n2 hj hjh hres3
          rcases List.mem_cons.mp hj with hc2 | hjf
          · exact absurd hc2 hjh
          · have hjrs : j ≠ rs := fun hc2 => hrsnot (hc2 ▸ hjf)
            have hjmem : j ∈ subhs.flatten :=
              hflatperm2.symm.mem_iff.mp (List.mem_append_left _ hjf)
            by_cases hjc : j = c
            · rw [hjc, hresc3] at hres3
              rw [← Option.some.inj hres3]
              show B - 1 ≤ (cn0.keys ++ sk :: rsn.keys).length
                ∧ (cn0.keys ++ sk :: rsn.keys).length ≤ 2 * B - 1
              simp only [List.length_append, List.length_cons]
              omega
            · have hres4 : m.resolveN j = some n2 := by
                rw [← hframex j hjc hjh hjrs]
                exact hres3
              exact hfillO j n2 hjmem (by rw [hcD]; exact hjc) hres4
        · intro n2 hres3
          rw [hresh3] at hres3
          rw [← Option.some.inj hres3]
          right
          show (n.keys.eraseIdx p).length + 1 = n.keys.length
          rw [List.length_eraseIdx_of_lt (by omega)]
          omega
    | internal d0 rs2 rsn2 subsS subhsS hres2 helen2 hvlen2 hslen2 hhslen2 hchS3 =>
      have hinj : rsn2 = rsn := by
        have h2 : m.resolveN rs = some rsn2 := hres2
        rw [hrsres] at h2
        exact (Option.some.inj h2).symm
      rw [hinj] at hres2 helen2 hvlen2 hslen2 hhslen2 hchS3 hAs
      revert hchC
      generalize hAcv : subs.getD p [] = Acv
      generalize hHcv : subhs.getD p [] = Hcv
      intro hchC
      cases hchC with
      | internal d0c c2 cn2 subsC subhsC hresc2 helenc2 hvlenc2 hslenc2 hhslenc2 hchC3 =>
        have hinjc : cn2 = cn0 := by
          have h2 : m.resolveN c = some cn2 := hresc2
          rw [hcres] at h2
          exact (Option.some.inj h2).symm
        rw [hinjc] at hresc2 helenc2 hvlenc2 hslenc2 hhslenc2 hchC3 hAcv
        have hmemSS : ∀ x, x ∈ subhsS.flatten → x ∈ subhs.flatten := by
          intro x hx
          apply hmemflat (p + 1) hp1
          rw [hHs]
          exact List.mem_cons_of_mem rs hx
        have hmemCC : ∀ x, x ∈ subhsC.flatten → x ∈ subhs.flatten := by
          intro x hx
          apply hmemflat p hp
          rw [hHcv]
          exact List.mem_cons_of_mem c hx
        have hSSne : ∀ x, x ∈ subhsS.flatten → x ≠ rs ∧ x ≠ c ∧ x ≠ h := by
          intro x hx
          refine ⟨?_, ?_, fun hc2 => hh_not_flat (hc2 ▸ hmemSS x hx)⟩
          · intro hc2
            have hnp : (subhs.getD (p + 1) []).Nodup :=
              List.Nodup.sublist (part_sublist_flatten subhs (p + 1) (by omega))
                hndflat
            rw [hHs] at hnp
            exact (List.nodup_cons.mp hnp).1 (hc2 ▸ hx)
          · intro hc2
            apply nodup_flatten_parts_disjoint subhs hndflat (p + 1) p (by omega)
              (by omega) (by omega) x
              (by rw [hHs]; exact List.mem_cons_of_mem rs hx)
              (by rw [hc2, hHcv]; simp)
        have hCCne : ∀ x, x ∈ subhsC.flatten → x ≠ rs ∧ x ≠ c ∧ x ≠ h := by
          intro x hx
          refine ⟨?_, ?_, fun hc2 => hh_not_flat (hc2 ▸ hmemCC x hx)⟩
          · intro hc2
            apply nodup_flatten_parts_disjoint subhs hndflat p (p + 1) (by omega)
              (by omega) (by omega) x
              (by rw [hHcv]; exact List.mem_cons_of_mem c hx)
              (by rw [hc2, hHs]; simp)
          · intro hc2
            have hnp : (subhs.getD p []).Nodup :=
              List.Nodup.sublist (part_sublist_flatten subhs p (by omega)) hndflat
            rw [hHcv] at hnp
            exact (List.nodup_cons.mp hnp).1 (hc2 ▸ hx)
        have hchS3' : ∀ i, i < rsn.edges.length →
            Rep (((m.setNode c
              ⟨cn0.keys ++ sk :: rsn.keys, cn0.vals ++ sv :: rsn.vals,
                cn0.edges ++ rsn.edges⟩).setNode h
              ⟨n.keys.eraseIdx p, n.vals.eraseIdx p,
               n.edges.eraseIdx (p + 1)⟩).deallocate rs).store d0
              (rsn.edges.getD i 0) (subsS.getD i []) (subhsS.getD i []) := by
          intro i hi
          apply (hchS3 i hi).frame
          intro x hx
          have hxS : x ∈ subhsS.flatten := by
            refine List.mem_flatten.mpr ⟨subhsS.getD i [], ?_, hx⟩
            have his : i < subhsS.length := by omega
            rw [List.getD_eq_getElem?_getD, List.getElem?_eq_getElem his]
            exact List.getElem_mem his
          obtain ⟨h1, h2, h3⟩ := hSSne x hxS
          exact hframex x h2 h3 h1
        have hchC3' : ∀ i, i < cn0.edges.length →
            Rep (((m.setNode c
              ⟨cn0.keys ++ sk :: rsn.keys, cn0.vals ++ sv :: rsn.vals,
                cn0.edges ++ rsn.edges⟩).setNode h
              ⟨n.keys.eraseIdx p, n.vals.eraseIdx p,
               n.edges.eraseIdx (p + 1)⟩).deallocate rs).store d0
              (cn0.edges.getD i 0) (subsC.getD i []) (subhsC.getD i []) := by
          intro i hi
          apply (hchC3 i hi).frame
          intro x hx
          have hxC : x ∈ subhsC.flatten := by
            refine List.mem_flatten.mpr ⟨subhsC.getD i [], ?_, hx⟩
            have his : i < subhsC.length := by omega
            rw [List.getD_eq_getElem?_getD, List.getElem?_eq_getElem his]
            exact List.getElem_mem his
          obtain ⟨h1, h2, h3⟩ := hCCne x hxC
          exact hframex x h2 h3 h1
        have hchM : Rep (((m.setNode c
            ⟨cn0.keys ++ sk :: rsn.keys, cn0.vals ++ sv :: rsn.vals,
              cn0.edges ++ rsn.edges⟩).setNode h
            ⟨n.keys.eraseIdx p, n.vals.eraseIdx p,
             n.edges.eraseIdx (p + 1)⟩).deallocate rs).store (d0 + 1)
            (n.edges.getD p 0)
            (glue (cn0.keys.zip cn0.vals) subsC
              ++ (sk, sv) :: glue (rsn.keys.zip rsn.vals) subsS)
            (c :: (subhsC ++ subhsS).flatten) := by
          rw [hcD]
          exact rep_merge_nodes _ d0 c cn0 rsn sk sv subsC subsS subhsC subhsS
            hresc3 helenc2 hvlenc2 hslenc2 hhslenc2 hchC3'
            helen2 hvlen2 hslen2 hhslen2 hchS3'
        have hrepP := rep_internal_merge_parent m.store
          (((m.setNode c
            ⟨cn0.keys ++ sk :: rsn.keys, cn0.vals ++ sv :: rsn.vals,
              cn0.edges ++ rsn.edges⟩).setNode h
            ⟨n.keys.eraseIdx p, n.vals.eraseIdx p,
             n.edges.eraseIdx (p + 1)⟩).deallocate rs).store
          (d0 + 1) h n subs subhs p
          (glue (cn0.keys.zip cn0.vals) subsC
            ++ (sk, sv) :: glue (rsn.keys.zip rsn.vals) subsS)
          (c :: (subhsC ++ subhsS).flatten)
          hresh3
          helen hvlen hslen hhslen hch (by omega) hndflat
          hchM
          (by
            intro x hx hx1 hx2
            have hxc : x ≠ c := fun hc2 => hx1 (by rw [hc2, hheadC]; simp)
            have hxrs : x ≠ rs := fun hc2 => hx2 (by rw [hc2, hheadS]; simp)
            have hxh : x ≠ h := fun hc2 => hh_not_flat (hc2 ▸ hx)
            exact hframex x hxc hxh hxrs)
        have habs : glue ((n.keys.eraseIdx p).zip (n.vals.eraseIdx p))
            ((subs.set p
              (glue (cn0.keys.zip cn0.vals) subsC
                ++ (sk, sv) :: glue (rsn.keys.zip rsn.vals) subsS)).eraseIdx (p + 1))
            = glue (n.keys.zip n.vals) subs := by
          rw [zip_eraseIdx_both p n.keys n.vals hvlen, herasec, hmain, hAcv, hAs]
          simp [List.append_assoc]
        rw [habs] at hrepP
        have hflatperm2 : subhs.flatten.Perm
            (((subhs.set p (c :: (subhsC ++ subhsS).flatten)).eraseIdx (p + 1)).flatten
              ++ [rs]) := by
          rw [hgerase, hgmain, hHcv, hHs]
          have h1 : G1 ++ ((c :: subhsC.flatten) ++ ((rs :: subhsS.flatten) ++ G2))
              = (G1 ++ (c :: subhsC.flatten)) ++ (rs :: (subhsS.flatten ++ G2)) := by
            simp [List.append_assoc]
          have h2 : G1 ++ ((c :: (subhsC ++ subhsS).flatten) ++ G2) ++ [rs]
              = ((G1 ++ (c :: subhsC.flatten)) ++ (subhsS.flatten ++ G2)) ++ [rs] := by
            rw [List.flatten_append]
            simp [List.append_assoc]
          rw [h1, h2]
          exact perm_extract_middle (G1 ++ (c :: subhsC.flatten))
            (subhsS.flatten ++ G2) rs
        have hnd7 : ((((subhs.set p
            (c :: (subhsC ++ subhsS).flatten)).eraseIdx (p + 1)).flatten)
            ++ [rs]).Nodup :=
          (hflatperm2.nodup_iff).mp hndflat
        have hrsnot : rs ∉ (((subhs.set p
            (c :: (subhsC ++ subhsS).flatten)).eraseIdx (p + 1)).flatten) := by
          intro hc2
          exact (List.nodup_append.mp hnd7).2.2 hc2 (by simp)
        refine ⟨h :: (((subhs.set p
            (c :: (subhsC ++ subhsS).flatten)).eraseIdx (p + 1)).flatten), [rs], hrepP,
          ?_, ?_, ?_, (md_fields m c h rs _ _).1, (md_fields m c h rs _ _).2.1,
          (md_fields m c h rs _ _).2.2.2, hfreeOK3, ?_, ?_, ?_⟩
        · have h6 := hflatperm2.cons h
          refine h6.trans (List.Perm.of_eq ?_)
          simp
        · intro j hj
          have hj2 : j = rs := by simpa using hj
          rw [hj2]
          exact hdeadrs
        · intro j hj
          have hjh : j ≠ h := fun hc2 => hj (by simp [hc2])
          have hjc : j ≠ c := fun hc2 => hj (by simp [hc2 ▸ hcmem])
          have hjrs : j ≠ rs := fun hc2 => hj (by simp [hc2 ▸ hrsmem])
          exact hframex j hjc hjh hjrs
        · simpa using hcount3
        · intro j n2 hj hjh hres3
          rcases List.mem_cons.mp hj with hc2 | hjf
          · exact absurd hc2 hjh
          · have hjrs : j ≠ rs := fun hc2 => hrsnot (hc2 ▸ hjf)
            have hjmem : j ∈ subhs.flatten :=
              hflatperm2.symm.mem_iff.mp (List.mem_append_left _ hjf)
            by_cases hjc : j = c
            · rw [hjc, hresc3] at hres3
              rw [← Option.some.inj hres3]
              show B - 1 ≤ (cn0.keys ++ sk :: rsn.keys).length
                ∧ (cn0.keys ++ sk :: rsn.keys).length ≤ 2 * B - 1
              simp only [List.length_append, List.length_cons]
              omega
            · have hres4 : m.resolveN j = some n2 := by
                rw [← hframex j hjc hjh hjrs]
                exact hres3
              exact hfillO j n2 hjmem (by rw [hcD]; exact hjc) hres4
        · intro n2 hres3
          rw [hresh3] at hres3
          rw [← Option.some.inj hres3]
          right
          show (n.keys.eraseIdx p).length + 1 = n.keys.length
          rw [List.length_eraseIdx_of_lt (by omega)]
          omega

/-- Underflow repair of the child at edge `p`: the subtree keeps its
in-order entries, loses at most the merged-away node, all inner nodes
return to the fill bounds and the parent loses at most one key. -/
theorem fixChild_spec (B : Nat) (hB : 2 ≤ B) (m : BTM K V) (h p : Nat)
    (n : BNode K V) (ht0 : Nat)
    (subs : List (List (K × V))) (subhs : List (List Nat))
    (hres : m.resolveN h = some n)
    (helen : n.edges.length = n.keys.length + 1)
    (hvlen : n.vals.length = n.keys.length)
    (hslen : subs.length = n.edges.length)
    (hhslen : subhs.length = n.edges.length)
    (hch : ∀ i, i < n.edges.length →
      Rep m.store ht0 (n.edges.getD i 0) (subs.getD i []) (subhs.getD i []))
    (hp : p < n.edges.length)
    (hkn : 1 ≤ n.keys.length)
    (hnd : (h :: subhs.flatten).Nodup)
    (hfree : FreeOK m)
    (hcb : (h :: subhs.flatten).length ≤ m.nodeCount)
    (hfillO : ∀ j n2, j ∈ subhs.flatten → j ≠ n.edges.getD p 0 →
      m.resolveN j = some n2 → B - 1 ≤ n2.keys.length ∧ n2.keys.length ≤ 2 * B - 1)
    (hfillC : ∀ n2, m.resolveN (n.edges.getD p 0) = some n2 →
      B - 2 ≤ n2.keys.length ∧ n2.keys.length ≤ 2 * B - 1) :
    ∃ hs2 D,
      Rep (fixChild B m h p).store (ht0 + 1) h (glue (n.keys.zip n.vals) subs) hs2
      ∧ (h :: subhs.flatten).Perm (hs2 ++ D)
      ∧ (∀ j, j ∈ D → (fixChild B m h p).resolveN j = none)
      ∧ (∀ j, j ∉ h :: subhs.flatten → (fixChild B m h p).resolveN j = m.resolveN j)
      ∧ (fixChild B m h p).root = m.root
      ∧ (fixChild B m h p).hlen = m.hlen
      ∧ (fixChild B m h p).store.length = m.store.length
      ∧ FreeOK (fixChild B m h p)
      ∧ (fixChild B m h p).nodeCount + D.length = m.nodeCount
      ∧ (∀ j n2, j ∈ hs2 → j ≠ h → (fixChild B m h p).resolveN j = some n2 →
          B - 1 ≤ n2.keys.length ∧ n2.keys.length ≤ 2 * B - 1)
      ∧ (∀ n2, (fixChild B m h p).resolveN h = some n2 →
          n2.keys.length = n.keys.length ∨ n2.keys.length + 1 = n.keys.length) := by
  -- shared facts about the parent and the child at edge p
  have hndflat : subhs.flatten.Nodup := (List.nodup_cons.mp hnd).2
  have hh_not_flat : h ∉ subhs.flatten := (List.nodup_cons.mp hnd).1
  have hmemflat : ∀ i, i < n.edges.length → ∀ x, x ∈ subhs.getD i [] →
      x ∈ subhs.flatten := by
    intro i hi x hx
    refine List.mem_flatten.mpr ⟨subhs.getD i [], ?_, hx⟩
    have his : i < subhs.length := by omega
    rw [List.getD_eq_getElem?_getD, List.getElem?_eq_getElem his]
    exact List.getElem_mem his
  have hflat_live : ∀ x, x ∈ subhs.flatten → (m.resolveN x).isSome := by
    intro x hx
    obtain ⟨part, hpart, hxp⟩ := List.mem_flatten.mp hx
    obtain ⟨i, hi, hgi⟩ := List.mem_iff_getElem.mp hpart
    exact (hch i (by omega)).live x
      (by rw [List.getD_eq_getElem?_getD, List.getElem?_eq_getElem hi, hgi]; exact hxp)
  obtain ⟨c, hcget⟩ := get_of_lt n.edges p hp
  have hcD : n.edges.getD p 0 = c := by
    rw [List.getD_eq_getElem?_getD, ← List.get?_eq_getElem?, hcget]
    rfl
  have hchC : Rep m.store ht0 c (subs.getD p []) (subhs.getD p []) := by
    rw [← hcD]
    exact hch p hp
  have hheadC : subhs.getD p [] = c :: (subhs.getD p []).tail := hchC.head_eq
  have hcmem : c ∈ subhs.flatten := by
    apply hmemflat p hp
    rw [hheadC]
    simp
  have hc_ne_h : c ≠ h := fun hc => hh_not_flat (hc ▸ hcmem)
  obtain ⟨cn0, hcres⟩ : ∃ cn, m.resolveN c = some cn := by
    have hl := hchC.live c (by rw [hheadC]; simp)
    rcases hres0 : m.store.getD c none with _ | cn
    · rw [hres0] at hl
      simp at hl
    · exact ⟨cn, hres0⟩
  have hlive : h < m.store.length := resolveN_lt_length m h n hres
  have hnotfree : h ∉ m.free := by
    intro hc
    rw [hfree.2.1 h hc] at hres
    exact Option.noConfusion hres
  by_cases hunder : B - 1 ≤ cn0.keys.length
  · -- the child is already filled: nothing to repair
    have hcomp : fixChild B m h p = m := by
      unfold fixChild
      simp only [hres, hcget, hcres]
      rw [if_pos hunder]
    rw [hcomp]
    refine ⟨h :: subhs.flatten, [], ?_, by simp, by simp, fun j _ => rfl, rfl, rfl, rfl,
      hfree, by simp, ?_, ?_⟩
    · exact Rep.internal ht0 h n subs subhs hres helen hvlen hslen hhslen hch
    · intro j n2 hj hjh hres2
      rcases List.mem_cons.mp hj with hc | hjf
      · exact absurd hc hjh
      · by_cases hjc : j = c
        · rw [hjc, hcres] at hres2
          have hn2 : n2 = cn0 := (Option.some.inj hres2).symm
          rw [hn2]
          have hub := (hfillC cn0 (by rw [hcD]; exact hcres)).2
          exact ⟨hunder, hub⟩
        · exact hfillO j n2 hjf (fun hc => hjc (by rw [hc, hcD])) hres2
    · intro n2 hres2
      rw [hres] at hres2
      rw [← Option.some.inj hres2]
      left
      rfl
  · -- the child underflowed: exactly B-2 keys
    have hclen : cn0.keys.length = B - 2 := by
      have := (hfillC cn0 (by rw [hcD]; exact hcres)).1
      omega
    by_cases hppos : 0 < p
    · -- repair through the left sibling
      obtain ⟨ls, hlsget⟩ := get_of_lt n.edges (p - 1) (by omega)
      have hlsD : n.edges.getD (p - 1) 0 = ls := by
        rw [List.getD_eq_getElem?_getD, ← List.get?_eq_getElem?, hlsget]
        rfl
      have hchS : Rep m.store ht0 ls (subs.getD (p - 1) []) (subhs.getD (p - 1) []) := by
        rw [← hlsD]
        exact hch (p - 1) (by omega)
      have hheadS : subhs.getD (p - 1) [] = ls :: (subhs.getD (p - 1) []).tail :=
        hchS.head_eq
      obtain ⟨lsn, hlsres⟩ : ∃ l0, m.resolveN ls = some l0 := by
        have hl := hchS.live ls (by rw [hheadS]; simp)
        rcases hres0 : m.store.getD ls none with _ | l0
        · rw [hres0] at hl
          simp at hl
        · exact ⟨l0, hres0⟩
      exact fixChild_left_spec B hB m h p n ht0 subs subhs hres helen hvlen hslen
        hhslen hch hp hkn hnd hfree hcb hfillO hfillC
        c ls cn0 lsn hcget hcres hclen hunder hppos hlsget hlsres
    · -- p = 0: repair through the right sibling
      have hp1 : p + 1 < n.edges.length := by omega
      obtain ⟨rs, hrsget⟩ := get_of_lt n.edges (p + 1) hp1
      have hrsD : n.edges.getD (p + 1) 0 = rs := by
        rw [List.getD_eq_getElem?_getD, ← List.get?_eq_getElem?, hrsget]
        rfl
      have hchS : Rep m.store ht0 rs (subs.getD (p + 1) []) (subhs.getD (p + 1) []) := by
        rw [← hrsD]
        exact hch (p + 1) hp1
      have hheadS : subhs.getD (p + 1) [] = rs :: (subhs.getD (p + 1) []).tail :=
        hchS.head_eq
      obtain ⟨rsn, hrsres⟩ : ∃ r0, m.resolveN rs = some r0 := by
        have hl := hchS.live rs (by rw [hheadS]; simp)
        rcases hres0 : m.store.getD rs none with _ | r0
        · rw [hres0] at hl
          simp at hl
        · exact ⟨r0, hres0⟩
      exact fixChild_right_spec B hB m h p n ht0 subs subhs hres helen hvlen hslen
        hhslen hch hp hkn hnd hfree hcb hfillO hfillC
        c rs cn0 rsn hcget hcres hclen hunder hppos hrsget hrsres

end FixChildProof

end InkSpec

